import Mathlib

set_option maxHeartbeats 1000000

/-!
Shallow embedding of the component-tree core of vanilla-ts-core
(src/Types.ts, src/Classes.ts): component state, the children-collection
algorithms of the AChildren mixin, the cascading disabled/parent-disabled
state machine of AElementComponent / AElementComponentWithChildren, the
fragment batch-mount mechanism of AFragmentComponent, the event-listener
registry of ANodeComponent and the AEventBus registry.

Components are identified by natural numbers.  A global state maps every
identifier to a component record; the native (DOM) tree is modelled by a
per-container list of native child identifiers (field dom) plus a
per-component native parent pointer (field domParent), so that native
appendChild / insertBefore / removeChild keep their move semantics.
Recursion through the evolving state (the parentDisabled cascade, clear
disposing container children) is made total with an explicit fuel
parameter; running out of fuel leaves the state unchanged, and the
theorems request as much fuel as they need.
-/

namespace VanillaTs

/-- ComponentType discriminant from Types.ts (enum ComponentType): plain node
    components, element components without children, element components with
    children (containers), and fragments. -/
inductive CompType where
  | node
  | element
  | container
  | fragment
deriving DecidableEq, Repr

/-- Observable events: the mount/unmount lifecycle hooks of ANodeComponent and
    the native DOM child mutations performed by AChildren. A fragment hand-off
    (appendChild/insertBefore of a DocumentFragment) is one single native
    insert operation and is recorded as one batchInsert event. -/
inductive Ev where
  | beforeMount (c : Nat)
  | didMount (c : Nat)
  | beforeUnmount (c : Nat)
  | didUnmount (c : Nat)
  | nativeInsert (p c : Nat)
  | batchInsert (p : Nat)
  | nativeRemove (p c : Nat)
deriving DecidableEq, Repr

/-- State of one component: the fields of AComponent (_disposed), ANodeComponent
    (_parent), AElementComponent (_disabled, _parentDisabled), the child list
    of the AChildren mixin resp. of AFragmentComponent (children), and the
    native side: the list of native child nodes of the component's DOM element
    (dom) and the native parent of the component's own DOM node (domParent). -/
structure Comp where
  ctype : CompType := .node
  disposed : Bool := false
  parent : Option Nat := none
  domParent : Option Nat := none
  disabled : Bool := false
  parentDisabled : Bool := false
  children : List Nat := []
  dom : List Nat := []
deriving DecidableEq, Repr

/-- Global state: every identifier owns a component record, plus the trace of
    observable events. -/
structure State where
  comp : Nat → Comp
  log : List Ev

/-- Update the record of one component. -/
def State.upd (s : State) (i : Nat) (f : Comp → Comp) : State :=
  { s with comp := fun j => if j = i then f (s.comp j) else s.comp j }

/-- Append one observable event to the trace. -/
def State.addLog (s : State) (e : Ev) : State :=
  { s with log := s.log ++ [e] }

@[simp] theorem upd_comp_self (s : State) (i : Nat) (f : Comp → Comp) :
    ((s.upd i f).comp i) = f (s.comp i) := by
  simp [State.upd]

@[simp] theorem upd_comp_ne (s : State) (i j : Nat) (f : Comp → Comp) (h : j ≠ i) :
    ((s.upd i f).comp j) = s.comp j := by
  simp [State.upd, h]

@[simp] theorem upd_log (s : State) (i : Nat) (f : Comp → Comp) :
    (s.upd i f).log = s.log := by
  simp [State.upd]

@[simp] theorem addLog_comp (s : State) (e : Ev) (j : Nat) :
    ((s.addLog e).comp j) = s.comp j := by
  simp [State.addLog]

@[simp] theorem addLog_log (s : State) (e : Ev) :
    (s.addLog e).log = s.log ++ [e] := by
  simp [State.addLog]

/-- True for the component types that expose the disabled capability
    (ComponentType.ELEMENT and ComponentType.ELEMENT_WITH_CHILDREN), the filter
    used by the cascades in AElementComponentWithChildren. -/
def elemish : CompType → Bool
  | .element => true
  | .container => true
  | _ => false

/-- Deduplication worker: keep the first occurrence of every element, skipping
    elements already seen. -/
def uniquesGo : List Nat → List Nat → List Nat
  | [], _ => []
  | c :: rest, seen =>
      if c ∈ seen then uniquesGo rest seen else c :: uniquesGo rest (c :: seen)

/-- Deduplication of an argument list in first-occurrence order, the semantics
    of the JavaScript construct new Set(components) used by AChildren.append,
    AChildren.insert, AChildren.extract and AFragmentComponent.append. -/
def uniques (l : List Nat) : List Nat :=
  uniquesGo l []

/-- Index of the first occurrence of an element (Array.prototype.indexOf for a
    present element). -/
def firstIdx (l : List Nat) (c : Nat) : Nat :=
  match l with
  | [] => 0
  | x :: rest => if x = c then 0 else firstIdx rest c + 1

/-- Splice insertion, splice(k, 0, c): insert before position k (append when k
    is beyond the end). -/
def insertAt (l : List Nat) (k : Nat) (c : Nat) : List Nat :=
  match k, l with
  | 0, l => c :: l
  | _ + 1, [] => [c]
  | k + 1, x :: rest => x :: insertAt rest k c

/-- Splice insertion of a whole list, splice(k, 0, ...cs). -/
def insertAllAt (l : List Nat) (k : Nat) (cs : List Nat) : List Nat :=
  match k, l with
  | 0, l => cs ++ l
  | _ + 1, [] => cs
  | k + 1, x :: rest => x :: insertAllAt rest k cs

/-- Native Node.insertBefore of a single node relative to a reference node:
    insert c directly before the first occurrence of ref (append when ref is
    absent, the null-reference behavior). -/
def insertBeforeRef (l : List Nat) (ref c : Nat) : List Nat :=
  match l with
  | [] => [c]
  | x :: rest => if x = ref then c :: x :: rest else x :: insertBeforeRef rest ref c

/-- Native insertBefore of a whole batch (a DocumentFragment) relative to a
    reference node. -/
def insertAllBeforeRef (l : List Nat) (ref : Nat) (cs : List Nat) : List Nat :=
  match l with
  | [] => cs
  | x :: rest => if x = ref then cs ++ x :: rest else x :: insertAllBeforeRef rest ref cs

/-- Detach a node from its current native parent (the implicit removal that the
    native appendChild/insertBefore perform when the node is already in a
    tree). -/
def natDetach (s : State) (c : Nat) : State :=
  match (s.comp c).domParent with
  | some q =>
      (s.upd q (fun k => { k with dom := k.dom.erase c })).upd c
        (fun k => { k with domParent := none })
  | none => s

/-- Native appendChild(c.DOM) on the children DOM target of p: move the node to
    the end of the native child list of p. -/
def natAppend (s : State) (p c : Nat) : State :=
  let s := natDetach s c
  let s := s.upd p (fun k => { k with dom := k.dom ++ [c] })
  let s := s.upd c (fun k => { k with domParent := some p })
  s.addLog (.nativeInsert p c)

/-- Native insertBefore(c.DOM, ref.DOM) on the children DOM target of p. -/
def natInsertBefore (s : State) (p ref c : Nat) : State :=
  let s := natDetach s c
  let s := s.upd p (fun k => { k with dom := insertBeforeRef k.dom ref c })
  let s := s.upd c (fun k => { k with domParent := some p })
  s.addLog (.nativeInsert p c)

/-- Native removeChild(c.DOM) on the children DOM target of p. -/
def natRemove (s : State) (p c : Nat) : State :=
  if (s.comp c).domParent = some p then
    (((s.upd p (fun k => { k with dom := k.dom.erase c })).upd c
      (fun k => { k with domParent := none })).addLog (.nativeRemove p c))
  else s

/-- Native appendChild(Fragment) on the children DOM target of p: all the nodes
    accumulated in the document fragment move to the end of the native child
    list of p in one single native insert operation. -/
def natAppendBatch (s : State) (p : Nat) (fd : List Nat) : State :=
  let s := fd.foldl (fun t c =>
    (t.upd p (fun k => { k with dom := k.dom ++ [c] })).upd c
      (fun k => { k with domParent := some p })) s
  s.addLog (.batchInsert p)

/-- Native insertBefore(Fragment, ref.DOM) on the children DOM target of p: one
    single native insert operation placing the whole batch before ref. -/
def natInsertBatchBefore (s : State) (p ref : Nat) (fd : List Nat) : State :=
  let s := s.upd p (fun k => { k with dom := insertAllBeforeRef k.dom ref fd })
  let s := fd.foldl (fun t c => t.upd c (fun k => { k with domParent := some p })) s
  s.addLog (.batchInsert p)

/-- Cascading parentDisabled setter: AElementComponent.parentDisabled
    (Types.ts 1186) guarded by a change check, overridden for containers by
    AElementComponentWithChildren.parentDisabled (Types.ts 1734), which after
    updating its own flag stops when the component itself is explicitly
    disabled and otherwise forwards the new value to every child exposing the
    disabled capability. -/
def parentDisabledSet : Nat → State → Nat → Bool → State
  | 0, s, _, _ => s
  | fuel + 1, s, c, v =>
    if v = (s.comp c).parentDisabled then s
    else
      let s1 := s.upd c (fun k => { k with parentDisabled := v })
      match (s.comp c).ctype with
      | .container =>
          if (s.comp c).disabled then s1
          else
            (s.comp c).children.foldl
              (fun t ch =>
                if elemish (t.comp ch).ctype then parentDisabledSet fuel t ch v else t) s1
      | _ => s1

/-- Disabled setter: AElementComponent.disabled (Types.ts 1170) guarded by a
    change check, overridden for containers by
    AElementComponentWithChildren.disabled (Types.ts 1713): after updating the
    own flag, if the container itself is parentDisabled the new state is not
    propagated, otherwise it is forwarded as parentDisabled to every child
    exposing the disabled capability. -/
def disabledSet (fuel : Nat) (s : State) (c : Nat) (v : Bool) : State :=
  if v = (s.comp c).disabled then s
  else
    let s1 := s.upd c (fun k => { k with disabled := v })
    match (s.comp c).ctype with
    | .container =>
        if (s.comp c).parentDisabled then s1
        else
          (s.comp c).children.foldl
            (fun t ch =>
              if elemish (t.comp ch).ctype then parentDisabledSet fuel t ch v else t) s1
    | _ => s1

/-- Mount hook onBeforeMount: a no-op in ANodeComponent (Types.ts 562),
    overridden in AElementComponent (Types.ts 1274) to set parentDisabled when
    the new parent's effective disabled state is true. -/
def onBeforeMount (fuel : Nat) (s : State) (c p : Nat) : State :=
  let s := s.addLog (.beforeMount c)
  if elemish (s.comp c).ctype then
    if (s.comp p).disabled || (s.comp p).parentDisabled then
      parentDisabledSet fuel s c true
    else s
  else s

/-- Mount hook onDidMount (Types.ts 565): record the new parent. -/
def onDidMount (s : State) (c p : Nat) : State :=
  (s.addLog (.didMount c)).upd c (fun k => { k with parent := some p })

/-- Unmount hook onBeforeUnmount (Types.ts 554): a pure notification. -/
def onBeforeUnmount (s : State) (c : Nat) : State :=
  s.addLog (.beforeUnmount c)

/-- Unmount hook onDidUnmount: AElementComponent (Types.ts 1266) resets a set
    parentDisabled flag, then the base implementation (Types.ts 557) clears the
    parent reference. -/
def onDidUnmount (fuel : Nat) (s : State) (c : Nat) : State :=
  let s := s.addLog (.didUnmount c)
  let s :=
    if elemish (s.comp c).ctype then
      if (s.comp c).parentDisabled then parentDisabledSet fuel s c false else s
    else s
  s.upd c (fun k => { k with parent := none })

/-- Ancestor test ANodeComponent.isContainedIn (Types.ts 515): walk the parent
    chain (fuel bounds the walked depth). -/
def isContainedIn : Nat → State → Nat → Nat → Bool
  | 0, _, _, _ => false
  | fuel + 1, s, c, p =>
    match (s.comp c).parent with
    | none => false
    | some q => if q = p then true else isContainedIn fuel s q p

/-- Grouping of the (deduplicated) append/insert arguments by their current
    parent, in first-seen order: the Map built in AChildren.append
    (Types.ts 1402) and AChildren.insert (Types.ts 1485). -/
def addToGroup (gs : List (Nat × List Nat)) (q c : Nat) : List (Nat × List Nat) :=
  match gs with
  | [] => [(q, [c])]
  | (r, g) :: rest =>
      if r = q then (r, g ++ [c]) :: rest else (r, g) :: addToGroup rest q c

/-- Build the parent groups from the current state. -/
def groupByParent (s : State) (cs : List Nat) : List (Nat × List Nat) :=
  cs.foldl (fun gs c =>
    match (s.comp c).parent with
    | some q => addToGroup gs q c
    | none => gs) []

namespace AChildren

/-- Loop body of the zero-argument AChildren.remove (Types.ts 1554): while
    children are left, take the last child, remove its native node, pop it from
    the sequence and fire onDidUnmount. -/
def removeAllLoop (fuel : Nat) : Nat → State → Nat → State
  | 0, s, _ => s
  | n + 1, s, p =>
    match (s.comp p).children.getLast? with
    | none => s
    | some c =>
        let s := natRemove s p c
        let s := s.upd p (fun k => { k with children := k.children.dropLast })
        let s := onDidUnmount fuel s c
        removeAllLoop fuel n s p

/-- First loop of the argument form of AChildren.remove and AChildren.extract
    (Types.ts 1562, 1602): fire onBeforeUnmount on an argument if it is
    contained in this tree. -/
def containedNotify (fuel : Nat) (t : State) (p c : Nat) : State :=
  if isContainedIn fuel t c p then onBeforeUnmount t c else t

/-- Body of the second loop of the argument form of AChildren.remove
    (Types.ts 1567): if the argument is a direct child, splice it out of the
    sequence, remove its native node and fire onDidUnmount, else ignore it. -/
def removeStep (fuel : Nat) (t : State) (p c : Nat) : State :=
  if c ∈ (t.comp p).children then
    let t := t.upd p (fun k => { k with children := k.children.erase c })
    let t := natRemove t p c
    onDidUnmount fuel t c
  else t

/-- AChildren.remove (Types.ts 1548). With no arguments: fire onBeforeUnmount
    on every child, then unmount all children in reverse order. With arguments:
    fire onBeforeUnmount on every argument contained in this tree, then for
    each argument that is a direct child splice it out of the sequence, remove
    its native node and fire onDidUnmount; other arguments are ignored. -/
def remove (fuel : Nat) (s : State) (p : Nat) (cs : List Nat) : State :=
  match cs with
  | [] =>
      let s := (s.comp p).children.foldl (fun t c => onBeforeUnmount t c) s
      removeAllLoop fuel ((s.comp p).children.length) s p
  | _ =>
      let s := cs.foldl (fun t c => containedNotify fuel t p c) s
      cs.foldl (fun t c => removeStep fuel t p c) s

/-- Mount of one component at the end of the sequence: the loop body of
    AChildren.append (Types.ts 1417): onBeforeMount, push to the sequence,
    native appendChild, onDidMount. -/
def mountLast (fuel : Nat) (s : State) (p c : Nat) : State :=
  let s := onBeforeMount fuel s c p
  let s := s.upd p (fun k => { k with children := k.children ++ [c] })
  let s := natAppend s p c
  onDidMount s c p

/-- AChildren.append (Types.ts 1392): nothing to do for an empty argument list;
    otherwise deduplicate the arguments, remove them groupwise from their
    current parents, then mount each in order at the end. -/
def append (fuel : Nat) (s : State) (p : Nat) (cs : List Nat) : State :=
  if cs = [] then s
  else
    let u := uniques cs
    let s := (groupByParent s u).foldl (fun t pr => remove fuel t pr.1 pr.2) s
    u.foldl (fun t c => mountLast fuel t p c) s

/-- Mount of one component at the advancing insert index, the loop body of
    AChildren.insert (Types.ts 1501): onBeforeMount, splice into the sequence
    at the index, native insertBefore relative to the reference child,
    onDidMount, then advance the index. -/
def mountAt (fuel : Nat) (acc : State × Nat) (p ib c : Nat) : State × Nat :=
  let t := onBeforeMount fuel acc.1 c p
  let t := t.upd p (fun k => { k with children := insertAt k.children acc.2 c })
  let t := natInsertBefore t p ib c
  let t := onDidMount t c p
  (t, acc.2 + 1)

/-- Shared tail of AChildren.insert after resolution of the reference child. -/
def insertCore (fuel : Nat) (s : State) (p ib : Nat) (cs : List Nat) : State :=
  let u := uniques cs
  let s := (groupByParent s u).foldl (fun t pr => remove fuel t pr.1 pr.2) s
  let start := firstIdx (s.comp p).children ib
  (u.foldl (fun acc c => mountAt fuel acc p ib c) (s, start)).1

/-- Position argument of insert/insertFragment/moveToAt: a numeric index or a
    reference component. -/
inductive At where
  | num (i : Int)
  | ref (c : Nat)
deriving DecidableEq, Repr

/-- AChildren.insert (Types.ts 1446). Empty argument list: no-op. Empty
    sequence: degenerates to append. A numeric position is clamped to the first
    position when negative and degenerates to append from the length up; it is
    a structural error (second component true) when the resolved reference
    child is an element of the arguments. A reference position is a structural
    error when it is an element of the arguments and a no-op when it is not in
    the sequence. -/
def insert (fuel : Nat) (s : State) (p : Nat) (a : At) (cs : List Nat) :
    State × Bool :=
  if cs = [] then (s, false)
  else if (s.comp p).children = [] then (append fuel s p cs, false)
  else
    match a with
    | .num i =>
        if i < 0 then
          let ib := (s.comp p).children.headD 0
          if ib ∈ cs then (s, true) else (insertCore fuel s p ib cs, false)
        else if ((s.comp p).children.length : Int) ≤ i then
          (append fuel s p cs, false)
        else
          let ib := (s.comp p).children.getD i.toNat 0
          if ib ∈ cs then (s, true) else (insertCore fuel s p ib cs, false)
    | .ref a0 =>
        if a0 ∈ cs then (s, true)
        else if a0 ∈ (s.comp p).children then (insertCore fuel s p a0 cs, false)
        else (s, false)

/-- AChildren.appendFragment (Types.ts 1427): a no-op for an empty fragment;
    otherwise drain the fragment (its component list and its native batch
    container), fire onBeforeMount for every drained component, push them all
    to the sequence, attach the batch with one single native insert and fire
    onDidMount for every drained component. -/
def appendFragment (fuel : Nat) (s : State) (p f : Nat) : State :=
  if (s.comp f).children = [] then s
  else
    let fc := (s.comp f).children
    let fd := (s.comp f).dom
    let s := s.upd f (fun k => { k with children := [], dom := [] })
    let s := fc.foldl (fun t c => onBeforeMount fuel t c p) s
    let s := s.upd p (fun k => { k with children := k.children ++ fc })
    let s := natAppendBatch s p fd
    fc.foldl (fun t c => onDidMount t c p) s

/-- AChildren.insertFragment (Types.ts 1512): no-op for an empty fragment;
    degenerates to appendFragment on an empty sequence or a position at or
    beyond the end; a negative numeric position is clamped to the first
    position; a reference position not in the sequence is a no-op. Otherwise
    drain the fragment, fire onBeforeMount for every drained component, splice
    them into the sequence, attach the batch before the reference child with
    one single native insert and fire onDidMount for each. -/
def insertFragment (fuel : Nat) (s : State) (p : Nat) (a : At) (f : Nat) : State :=
  if (s.comp f).children = [] then s
  else if (s.comp p).children = [] then appendFragment fuel s p f
  else
    let idx : Option Nat :=
      match a with
      | .num i => some (if i < 0 then 0 else i.toNat)
      | .ref a0 =>
          if a0 ∈ (s.comp p).children then some (firstIdx (s.comp p).children a0)
          else none
    match idx with
    | none => s
    | some index =>
        if (s.comp p).children.length ≤ index then appendFragment fuel s p f
        else
          let fc := (s.comp f).children
          let fd := (s.comp f).dom
          let s := s.upd f (fun k => { k with children := [], dom := [] })
          let s := fc.foldl (fun t c => onBeforeMount fuel t c p) s
          let ib := (s.comp p).children.getD index 0
          let s := s.upd p (fun k => { k with children := insertAllAt k.children index fc })
          let s := natInsertBatchBefore s p ib fd
          fc.foldl (fun t c => onDidMount t c p) s

/-- Loop body of the zero-argument AChildren.extract (Types.ts 1587): while
    children are left, pop the last child into the output list, remove its
    native node and fire onDidUnmount. -/
def extractAllLoop (fuel : Nat) : Nat → State → Nat → List Nat → State × List Nat
  | 0, s, _, acc => (s, acc)
  | n + 1, s, p, acc =>
    match (s.comp p).children.getLast? with
    | none => (s, acc)
    | some c =>
        let s := s.upd p (fun k => { k with children := k.children.dropLast })
        let acc := acc ++ [c]
        let s := natRemove s p c
        let s := onDidUnmount fuel s c
        extractAllLoop fuel n s p acc

/-- Body of the second loop of the argument form of AChildren.extract
    (Types.ts 1607): if the argument is a direct child, splice it out, push it
    to the output list, remove its native node and fire onDidUnmount. -/
def extractStep (fuel : Nat) (acc : State × List Nat) (p c : Nat) :
    State × List Nat :=
  if c ∈ (acc.1.comp p).children then
    let t := acc.1.upd p (fun k => { k with children := k.children.erase c })
    let t := natRemove t p c
    let t := onDidUnmount fuel t c
    (t, acc.2 ++ [c])
  else acc

/-- AChildren.extract (Types.ts 1580): the remove algorithm plus pushing every
    removed component into the output list in removal order; the zero-argument
    form empties the component. -/
def extract (fuel : Nat) (s : State) (p : Nat) (cs : List Nat) :
    State × List Nat :=
  match cs with
  | [] =>
      let s := (s.comp p).children.foldl (fun t c => onBeforeUnmount t c) s
      extractAllLoop fuel ((s.comp p).children.length) s p []
  | _ =>
      let u := uniques cs
      let s := u.foldl (fun t c => containedNotify fuel t p c) s
      u.foldl (fun acc c => extractStep fuel acc p c) (s, [])

/-- AChildren.moveTo (Types.ts 1619): moving to the source instance itself is a
    structural error (second component true); otherwise extract the components
    here and append them to the target. -/
def moveTo (fuel : Nat) (s : State) (p target : Nat) (cs : List Nat) :
    State × Bool :=
  if target = p then (s, true)
  else
    let r := extract fuel s p cs
    (append fuel r.1 target r.2, false)

/-- AChildren.moveToAt (Types.ts 1630): moving to the source instance itself is
    a structural error, as is a reference position that is not a child of the
    target; otherwise extract here and insert into the target (forwarding a
    structural error of that insert). -/
def moveToAt (fuel : Nat) (s : State) (p target : Nat) (a : At) (cs : List Nat) :
    State × Bool :=
  if target = p then (s, true)
  else
    match a with
    | .ref a0 =>
        if a0 ∈ (s.comp target).children then
          let r := extract fuel s p cs
          insert fuel r.1 target a r.2
        else (s, true)
    | .num _ =>
        let r := extract fuel s p cs
        insert fuel r.1 target a r.2

end AChildren

/-- Loop of AChildren.clear (Types.ts 1659), parameterized by the dispose
    implementation to untangle the mutual recursion between clear and dispose
    (a container's dispose first clears its children): while children are left,
    take the last one, remove its native node, pop it from the sequence, fire
    onDidUnmount and dispose it. -/
def clearLoopAux (fuel : Nat) (d : State → Nat → State) :
    Nat → State → Nat → State
  | 0, s, _ => s
  | n + 1, s, p =>
    match (s.comp p).children.getLast? with
    | none => s
    | some c =>
        let s := natRemove s p c
        let s := s.upd p (fun k => { k with children := k.children.dropLast })
        let s := onDidUnmount fuel s c
        let s := d s c
        clearLoopAux fuel d n s p

/-- AChildren.clear (Types.ts 1655) with an explicit dispose callback: fire
    onBeforeUnmount on every child, then run the unmount-and-dispose loop.
    The trailing clearOwner() call is the default no-op implementation of
    AElementComponentWithChildren (Types.ts 1777). -/
def clearAux (fuel : Nat) (d : State → Nat → State) (s : State) (p : Nat) :
    State :=
  let s := (s.comp p).children.foldl (fun t c => onBeforeUnmount t c) s
  clearLoopAux fuel d ((s.comp p).children.length) s p

/-- Component disposal: AElementComponentWithChildren.dispose (Types.ts 1782)
    first clears (unmounts and disposes) all children of a container; then the
    ANodeComponent base implementation (Types.ts 715) detaches the native node
    from its native parent, releases it and marks the component disposed (the
    event-listener registry it clears via allEvents(OFF) is modelled
    separately, in the listener model below). -/
def dispose : Nat → State → Nat → State
  | 0, s, _ => s
  | fuel + 1, s, c =>
      let s :=
        if (s.comp c).ctype = .container then
          clearAux fuel (fun t x => dispose fuel t x) s c
        else s
      let s := natDetach s c
      s.upd c (fun k => { k with disposed := true })

namespace AChildren

/-- AChildren.clear (Types.ts 1655): unmount and dispose every child, then run
    the owner hook. -/
def clear (fuel : Nat) (s : State) (p : Nat) : State :=
  clearAux fuel (fun t c => dispose fuel t c) s p

end AChildren

/-- Removal of one component from its current parent, if any: the loop
    component.Parent?.remove(component) of AFragmentComponent.append
    (Types.ts 2073). -/
def detachFromParent (fuel : Nat) (t : State) (c : Nat) : State :=
  match (t.comp c).parent with
  | some q => AChildren.remove fuel t q [c]
  | none => t

namespace AFragmentComponent

/-- AFragmentComponent.append (Types.ts 2065 / Classes.ts 1470): nothing to do
    for an empty argument list; otherwise deduplicate the arguments, remove
    each one that currently has a parent from that parent, push them all into
    the fragment's component list, then append each one's native node to the
    fragment's document fragment. Mount hooks are not fired: fragment
    membership is not tree membership. -/
def append (fuel : Nat) (s : State) (f : Nat) (cs : List Nat) : State :=
  if cs = [] then s
  else
    let u := uniques cs
    let s := u.foldl (fun t c => detachFromParent fuel t c) s
    let s := s.upd f (fun k => { k with children := k.children ++ u })
    u.foldl (fun t c => natAppend t f c) s

end AFragmentComponent

/-- The top-level child-collection operations of the IChildren capability. -/
inductive Op where
  | append (p : Nat) (cs : List Nat)
  | insert (p : Nat) (a : AChildren.At) (cs : List Nat)
  | appendFragment (p f : Nat)
  | insertFragment (p : Nat) (a : AChildren.At) (f : Nat)
  | remove (p : Nat) (cs : List Nat)
  | extract (p : Nat) (cs : List Nat)
  | moveTo (p target : Nat) (cs : List Nat)
  | moveToAt (p target : Nat) (a : AChildren.At) (cs : List Nat)
  | clear (p : Nat)
deriving DecidableEq, Repr

/-- Run one operation; the boolean is true when the operation raised a
    structural error (the state component is then the state at the moment of
    the raise, since exceptions do not roll anything back). -/
def applyOp (fuel : Nat) (s : State) : Op → State × Bool
  | .append p cs => (AChildren.append fuel s p cs, false)
  | .insert p a cs => AChildren.insert fuel s p a cs
  | .appendFragment p f => (AChildren.appendFragment fuel s p f, false)
  | .insertFragment p a f => (AChildren.insertFragment fuel s p a f, false)
  | .remove p cs => (AChildren.remove fuel s p cs, false)
  | .extract p cs => ((AChildren.extract fuel s p cs).1, false)
  | .moveTo p t cs => AChildren.moveTo fuel s p t cs
  | .moveToAt p t a cs => AChildren.moveToAt fuel s p t a cs
  | .clear p => (AChildren.clear fuel s p, false)

/-- State after one operation (whether or not it raised). -/
def runOp (fuel : Nat) (s : State) (op : Op) : State :=
  (applyOp fuel s op).1

/-- State after a sequence of operations. -/
def runOps (fuel : Nat) (s : State) (ops : List Op) : State :=
  ops.foldl (runOp fuel) s

/-- Well-formedness of the component forest: for every container, the logical
    child sequence has no duplicates, it equals the native child-node order of
    the container's DOM target, and membership coincides with the child's
    parent back-reference; every set parent back-reference points at a
    container; and the native child lists of containers agree with the native
    parent pointers. -/
def WF (s : State) : Prop :=
  (∀ p : Nat, (s.comp p).ctype = .container →
    (s.comp p).children.Nodup ∧
    (s.comp p).children = (s.comp p).dom ∧
    (∀ c : Nat, c ∈ (s.comp p).children ↔ (s.comp c).parent = some p)) ∧
  (∀ c q : Nat, (s.comp c).parent = some q → (s.comp q).ctype = .container) ∧
  (∀ c q : Nat, (s.comp q).ctype = .container →
    (c ∈ (s.comp q).dom ↔ (s.comp c).domParent = some q))

/-- Contract of a fragment handed to appendFragment/insertFragment: it is a
    fragment, its component list is duplicate-free, its native batch container
    holds exactly the components' nodes in the same order, and its members are
    parent-less with their nodes inside the batch container. -/
def FragOk (s : State) (f : Nat) : Prop :=
  (s.comp f).ctype = .fragment ∧
  (s.comp f).children.Nodup ∧
  (s.comp f).dom = (s.comp f).children ∧
  ∀ c ∈ (s.comp f).children,
    (s.comp c).parent = none ∧ (s.comp c).domParent = some f

/-- Side conditions of one operation: its subject (and target) expose the
    IChildren capability, and a consumed fragment satisfies the fragment
    contract. -/
def OpOk (s : State) : Op → Prop
  | .append p _ => (s.comp p).ctype = .container
  | .insert p _ _ => (s.comp p).ctype = .container
  | .appendFragment p f => (s.comp p).ctype = .container ∧ FragOk s f
  | .insertFragment p _ f => (s.comp p).ctype = .container ∧ FragOk s f
  | .remove p _ => (s.comp p).ctype = .container
  | .extract p _ => (s.comp p).ctype = .container
  | .moveTo p t _ => (s.comp p).ctype = .container ∧ (s.comp t).ctype = .container
  | .moveToAt p t _ _ =>
      (s.comp p).ctype = .container ∧ (s.comp t).ctype = .container
  | .clear p => (s.comp p).ctype = .container

/-- Side conditions along a whole operation sequence. -/
def SeqOk (fuel : Nat) : State → List Op → Prop
  | _, [] => True
  | s, op :: ops => OpOk s op ∧ SeqOk fuel (runOp fuel s op) ops

/-- Mount hook events (onBeforeMount/onDidMount). -/
def isMountEv : Ev → Bool
  | .beforeMount _ => true
  | .didMount _ => true
  | _ => false

/-- The trace of the second state extends the trace of the first and none of
    the new events is a mount hook. -/
def NoMountNew (s t : State) : Prop :=
  ∃ tl : List Ev, t.log = s.log ++ tl ∧ ∀ e ∈ tl, isMountEv e = false

/-- Second component agrees with the first on every field except the
    parentDisabled flag (the footprint of the cascading setters). -/
def FlagOnly (a b : Comp) : Prop :=
  b.ctype = a.ctype ∧ b.disposed = a.disposed ∧ b.parent = a.parent ∧
  b.domParent = a.domParent ∧ b.disabled = a.disabled ∧
  b.children = a.children ∧ b.dom = a.dom

/-- State-level variant of FlagOnly: every component changed at most in its
    parentDisabled flag. -/
def CFlagOnly (s t : State) : Prop :=
  ∀ x : Nat, FlagOnly (s.comp x) (t.comp x)

/-- The component p is in no container's child sequence (for a root container
    this follows from well-formedness and is stable under clearing and
    disposal, which only shrink child sequences). -/
def NotChildAny (s : State) (p : Nat) : Prop :=
  ∀ q : Nat, (s.comp q).ctype = CompType.container → p ∉ (s.comp q).children

/-- Build a state with an empty trace. -/
def mkState (f : Nat → Comp) : State :=
  { comp := f, log := [] }

/-- Shared demo population: containers 0 and 1, element components 2 to 6 and
    a fragment 7; everything else is a plain default node component. -/
def demo : State :=
  mkState (fun i =>
    if i ≤ 1 then { ctype := .container }
    else if i ≤ 6 then { ctype := .element }
    else if i = 7 then { ctype := .fragment }
    else {})

/-- C2 scenario, initial population: containers 0 (A), 1 (B) and 2 (C). -/
def c2Start : State := mkState (fun i => if i < 3 then { ctype := .container } else {})

/-- C2 scenario: the three-level tree A contains B contains C. -/
def c2Tree : State := runOp 9 (runOp 9 c2Start (.append 0 [1])) (.append 1 [2])

/-- C2 scenario after A.disabled(true). -/
def c2AfterA : State := disabledSet 9 c2Tree 0 true

/-- C2 scenario after the further B.disabled(true); A.disabled(false). -/
def c2Final : State := disabledSet 9 (disabledSet 9 c2AfterA 1 true) 0 false

/-- C1 counterexample population: container 0, element 1, fragment 3. -/
def c1FragStart : State :=
  mkState (fun i =>
    if i = 0 then { ctype := .container }
    else if i = 1 then { ctype := .element }
    else if i = 3 then { ctype := .fragment }
    else {})

/-- C1 counterexample: the same element appended twice to the fragment (its
    parent stays none inside a fragment, so the second append is not preceded
    by a removal and duplicates the entry in the fragment's component list). -/
def c1FragDup : State :=
  AFragmentComponent.append 9 (AFragmentComponent.append 9 c1FragStart 3 [1]) 3 [1]

/-- C1 counterexample: the polluted fragment handed to appendFragment. -/
def c1FragBad : State := runOp 9 c1FragDup (.appendFragment 0 3)

/-- Witness tree for C7: container 0 holds the elements 2 and 3, container 1
    holds element 4. -/
def c7Tree : State := runOp 9 (runOp 9 demo (.append 0 [2, 3])) (.append 1 [4])

/-- Witness tree for C10 (and C3): container 0 holds container 1, which holds
    element 4, so 4 is a depth-two descendant of 0. -/
def c10Tree : State := runOp 9 (runOp 9 demo (.append 0 [1])) (.append 1 [4])

/-- Witness state for C3: the c10Tree with container 1 explicitly disabled, so
    element 4 inside it carries parentDisabled = true. -/
def c3Pre : State := disabledSet 9 c10Tree 1 true

/-- Witness state for C9: fragment 7 of the demo population filled with the
    five element components 2, 3, 4, 5, 6. -/
def c9Frag : State := AFragmentComponent.append 9 demo 7 [2, 3, 4, 5, 6]

/-- C1 witness: a short operation sequence on the demo population. -/
def c1WitOps : List Op :=
  [.append 0 [2, 3], .insert 0 (.num 0) [4], .append 1 [5],
   .moveTo 0 1 [3], .remove 0 [2], .clear 1]

end VanillaTs

namespace VanillaTs.ANodeComponent

/-- Normalized event-listener options: absent, the boolean capture shorthand,
    or an options object with its keys in canonical (sorted) order, the result
    of sortEventListenerOptions (Types.ts 728); a Lean record is canonical by
    construction. -/
inductive LOpts where
  | undef
  | flag (capture : Bool)
  | obj (capture passive once1 : Option Bool)
deriving DecidableEq, Repr

/-- Effective capture flag of normalized options (the component of the options
    the native EventTarget registration is keyed on). -/
def captureOf : LOpts → Bool
  | .undef => false
  | .flag b => b
  | .obj c _ _ => c.getD false

/-- Event listener record (IEventListener): type, listener identity, options
    and the suspended flag. -/
structure LRec where
  ltype : Nat
  listener : Nat
  opts : LOpts
  suspended : Bool
deriving DecidableEq, Repr

/-- One component's listener bookkeeping (eventListeners, Types.ts 479)
    together with the set of registrations currently installed on the native
    target, keyed by (type, listener, capture). -/
structure NState where
  records : List LRec
  native : List (Nat × Nat × Bool)
deriving DecidableEq, Repr

/-- Native addEventListener: a registration identical in (type, listener,
    capture) to an existing one is ignored. -/
def natAdd (n : List (Nat × Nat × Bool)) (k : Nat × Nat × Bool) :
    List (Nat × Nat × Bool) :=
  if k ∈ n then n else n ++ [k]

/-- Native removeEventListener: remove the matching registration, no-op when
    absent. -/
def natDel (n : List (Nat × Nat × Bool)) (k : Nat × Nat × Bool) :
    List (Nat × Nat × Bool) :=
  n.erase k

/-- ANodeComponent.on (Types.ts 599), named onListener here because `on` is
    reserved notation in Lean: register natively and append a record with
    suspended false. -/
def onListener (st : NState) (t fn : Nat) (o : LOpts) : NState :=
  { records := st.records ++ [{ ltype := t, listener := fn, opts := o, suspended := false }],
    native := natAdd st.native (t, fn, captureOf o) }

/-- Options used by ANodeComponent.once (Types.ts 620): the one-shot flag is
    always forced into an options object. -/
def onceOpts : LOpts → LOpts
  | .undef => .obj none none (some true)
  | .flag b => .obj (some b) none (some true)
  | .obj c pa _ => .obj c pa (some true)

/-- ANodeComponent.once (Types.ts 618): like on, but the stored and natively
    registered options always carry the one-shot flag. -/
def once (st : NState) (t fn : Nat) (o : LOpts) : NState :=
  { records := st.records ++
      [{ ltype := t, listener := fn, opts := onceOpts o, suspended := false }],
    native := natAdd st.native (t, fn, captureOf (onceOpts o)) }

/-- True for records created by once (their options object carries the one-shot
    flag). -/
def isOnce (r : LRec) : Bool :=
  match r.opts with
  | .obj _ _ (some true) => true
  | _ => false

/-- The ALL_EVENTS mode enum. -/
inductive AllEvents where
  | off
  | suspendAll
  | resumeAll
deriving DecidableEq, Repr

/-- reinstallEventListeners (Types.ts 772): detach every record natively, then
    reattach the non-suspended ones in original registration order. -/
def reinstall (recs : List LRec) (n : List (Nat × Nat × Bool)) :
    List (Nat × Nat × Bool) :=
  let n := recs.foldl (fun m r => natDel m (r.ltype, r.listener, captureOf r.opts)) n
  recs.foldl (fun m r =>
    if r.suspended then m else natAdd m (r.ltype, r.listener, captureOf r.opts)) n

/-- ANodeComponent.allEvents (Types.ts 670). OFF: detach every record natively
    and clear the whole record list. SUSPEND: mark every record suspended and
    detach it natively. RESUME: mark every record non-suspended, then
    reinstall. No record is exempted: the loops run over the complete
    eventListeners array. -/
def allEvents (st : NState) (mode : AllEvents) : NState :=
  match mode with
  | .off =>
      { records := [],
        native := st.records.foldl
          (fun m r => natDel m (r.ltype, r.listener, captureOf r.opts)) st.native }
  | .suspendAll =>
      { records := st.records.map (fun r => { r with suspended := true }),
        native := st.records.foldl
          (fun m r => natDel m (r.ltype, r.listener, captureOf r.opts)) st.native }
  | .resumeAll =>
      let recs := st.records.map (fun r => { r with suspended := false })
      { records := recs, native := reinstall recs st.native }

/-- C4 counterexample state: one single listener registered via once on an
    otherwise fresh component. -/
def c4Start : NState := once { records := [], native := [] } 1 10 .undef

end VanillaTs.ANodeComponent

namespace VanillaTs.AEventBus

/-- One AEventBus instance: the protected field `name` declared at Types.ts
    2232.  The constructor (Types.ts 2240) never assigns this field, so a
    freshly constructed bus carries no value in it; busId stands for the
    object identity stored in the registry. -/
structure Bus where
  nameField : Option String
  busId : Nat
deriving DecidableEq, Repr

/-- The process-wide static busRegistry (Types.ts 2217): bus name to instance. -/
structure Registry where
  entries : List (String × Nat)
deriving DecidableEq, Repr

/-- busRegistry.has(name). -/
def hasName (r : Registry) (n : String) : Bool :=
  r.entries.any (fun e => e.1 = n)

/-- The AEventBus constructor (Types.ts 2240): a duplicate name is an error
    (none); otherwise the instance is recorded in the registry under the given
    name. The name parameter is not assigned to the field `name`, faithfully to
    the source, where the constructor body only checks the registry, creates
    the inner bus element and registers the instance. -/
def construct (r : Registry) (id0 : Nat) (n : String) : Option (Registry × Bus) :=
  if hasName r n then none
  else some ({ entries := r.entries ++ [(n, id0)] }, { nameField := none, busId := id0 })

/-- AEventBus.dispose (Types.ts 2356): busRegistry.delete(this.name). The field
    `name` was never assigned, so its value matches no string key of the
    registry and nothing is deleted. -/
def disposeBus (r : Registry) (b : Bus) : Registry :=
  match b.nameField with
  | some n => { entries := r.entries.filter (fun e => e.1 ≠ n) }
  | none => r

end VanillaTs.AEventBus

namespace VanillaTs

/-- Claim C2: in the three-level container tree A contains B contains C (all
    initially enabled), A.disabled(true) makes B.ParentDisabled and
    C.ParentDisabled true; then B.disabled(true) followed by A.disabled(false)
    leaves C.ParentDisabled true, B.ParentDisabled false and B.Disabled true. -/
theorem c2_cascade_correctness :
    ((c2Tree.comp 1).parent = some 0 ∧ (c2Tree.comp 2).parent = some 1) ∧
    ((c2AfterA.comp 1).parentDisabled = true ∧
     (c2AfterA.comp 2).parentDisabled = true) ∧
    ((c2Final.comp 2).parentDisabled = true ∧
     (c2Final.comp 1).parentDisabled = false ∧
     (c2Final.comp 1).disabled = true) := by
  decide

end VanillaTs

namespace VanillaTs.AEventBus

/-- Claim C5 (code evidence): constructing a bus named AppBus in an empty
    registry succeeds; disposing it leaves the registry unchanged (the name
    field consulted by dispose was never assigned by the constructor), the
    registry still holds the name, and a second construction under the same
    name fails with the duplicate-name error, contradicting the claim that
    dispose removes the entry so that the name can be reused. -/
theorem c5_eventbus_dispose_leaves_registry :
    ∃ (r1 : Registry) (b : Bus),
      construct { entries := [] } 0 "AppBus" = some (r1, b) ∧
      disposeBus r1 b = r1 ∧
      hasName (disposeBus r1 b) "AppBus" = true ∧
      construct (disposeBus r1 b) 1 "AppBus" = none := by
  exact ⟨{ entries := [("AppBus", 0)] }, { nameField := none, busId := 0 },
    rfl, rfl, rfl, rfl⟩

end VanillaTs.AEventBus

namespace VanillaTs.ANodeComponent

/-- Claim C4, counterexample: a component holding exactly one record registered
    with once(). allEvents(OFF) removes that record (the record list becomes
    empty) and allEvents(SUSPEND) marks it suspended and detaches it natively,
    so allEvents does affect one-shot registrations. -/
theorem c4_counterexample :
    (c4Start.records.map isOnce = [true]) ∧
    (allEvents c4Start .off).records = [] ∧
    ((allEvents c4Start .suspendAll).records.map (fun r => r.suspended) = [true]) ∧
    (allEvents c4Start .suspendAll).native = [] := by
  decide

/-- Claim C4, amended: allEvents treats records registered with once() exactly
    like every other record: OFF removes every record including the one-shot
    ones, SUSPEND marks every record including the one-shot ones suspended, and
    RESUME marks every record including the one-shot ones non-suspended. -/
theorem c4_allEvents_includes_once (st : NState) (r : LRec)
    (hmem : r ∈ st.records) (_honce : isOnce r = true) :
    r ∉ (allEvents st .off).records ∧
    { r with suspended := true } ∈ (allEvents st .suspendAll).records ∧
    { r with suspended := false } ∈ (allEvents st .resumeAll).records := by
  refine ⟨?_, ?_, ?_⟩
  · simp [allEvents]
  · exact List.mem_map_of_mem (fun x => { x with suspended := true }) hmem
  · exact List.mem_map_of_mem (fun x => { x with suspended := false }) hmem

/-- Claim C4, witness for the amended theorem at the concrete one-record
    state. -/
theorem c4_witness :
    (({ ltype := 1, listener := 10, opts := .obj none none (some true),
        suspended := false } : LRec) ∈ c4Start.records) ∧
    ({ ltype := 1, listener := 10, opts := .obj none none (some true),
        suspended := true } : LRec) ∈ (allEvents c4Start .suspendAll).records := by
  have h := c4_allEvents_includes_once c4Start
    { ltype := 1, listener := 10, opts := .obj none none (some true), suspended := false }
    (by decide) (by decide)
  exact ⟨by decide, h.2.1⟩

end VanillaTs.ANodeComponent

namespace VanillaTs

theorem flagOnly_refl (a : Comp) : FlagOnly a a := by
  simp [FlagOnly]

theorem flagOnly_trans {a b c : Comp} (h1 : FlagOnly a b) (h2 : FlagOnly b c) :
    FlagOnly a c := by
  obtain ⟨e1, e2, e3, e4, e5, e6, e7⟩ := h1
  obtain ⟨f1, f2, f3, f4, f5, f6, f7⟩ := h2
  exact ⟨f1.trans e1, f2.trans e2, f3.trans e3, f4.trans e4, f5.trans e5,
    f6.trans e6, f7.trans e7⟩

theorem cflag_refl (s : State) : CFlagOnly s s := fun _ => flagOnly_refl _

theorem cflag_trans {s t u : State} (h1 : CFlagOnly s t) (h2 : CFlagOnly t u) :
    CFlagOnly s u := fun x => flagOnly_trans (h1 x) (h2 x)

theorem cflag_upd_pd (s : State) (c : Nat) (v : Bool) :
    CFlagOnly s (s.upd c (fun k => { k with parentDisabled := v })) := by
  intro x
  by_cases h : x = c
  · subst h; simp [State.upd, FlagOnly]
  · simp [State.upd, h, flagOnly_refl]

theorem cflag_foldl (g : State → Nat → State)
    (hg : ∀ t ch, (g t ch).log = t.log ∧ CFlagOnly t (g t ch)) :
    ∀ (l : List Nat) (t : State),
      (l.foldl g t).log = t.log ∧ CFlagOnly t (l.foldl g t) := by
  intro l
  induction l with
  | nil => intro t; exact ⟨by first | rfl | trivial, cflag_refl t⟩
  | cons c rest ih =>
      intro t
      have h1 := hg t c
      have h2 := ih (g t c)
      exact ⟨h2.1.trans h1.1, cflag_trans h1.2 h2.2⟩

/-- The cascading parentDisabled setter leaves the trace unchanged and touches
    no field besides parentDisabled. -/
theorem pd_master :
    ∀ (fuel : Nat) (s : State) (c : Nat) (v : Bool),
      (parentDisabledSet fuel s c v).log = s.log ∧
      CFlagOnly s (parentDisabledSet fuel s c v) := by
  intro fuel
  induction fuel with
  | zero => intro s c v; exact ⟨by first | rfl | trivial, cflag_refl s⟩
  | succ fuel ih =>
      intro s c v
      simp only [parentDisabledSet]
      by_cases hg : v = (s.comp c).parentDisabled
      · simp only [if_pos hg]; exact ⟨by first | rfl | trivial, cflag_refl s⟩
      · simp only [if_neg hg]
        have hupd : (s.upd c (fun k => { k with parentDisabled := v })).log = s.log ∧
            CFlagOnly s (s.upd c (fun k => { k with parentDisabled := v })) :=
          ⟨upd_log s c _, cflag_upd_pd s c v⟩
        cases hct : (s.comp c).ctype with
        | container =>
            by_cases hd : (s.comp c).disabled
            · simp only [hd, if_true]; exact hupd
            · simp only [hd, if_false]
              have hfold := cflag_foldl
                (fun t ch => if elemish (t.comp ch).ctype = true then
                  parentDisabledSet fuel t ch v else t)
                (by
                  intro t ch
                  by_cases he : elemish (t.comp ch).ctype = true
                  · simp only [if_pos he]; exact ih t ch v
                  · simp only [if_neg he]; exact ⟨by first | rfl | trivial, cflag_refl t⟩)
                (s.comp c).children
                (s.upd c (fun k => { k with parentDisabled := v }))
              exact ⟨hfold.1.trans hupd.1, cflag_trans hupd.2 hfold.2⟩
        | node => exact hupd
        | element => exact hupd
        | fragment => exact hupd

@[simp] theorem pd_log (fuel : Nat) (s : State) (c : Nat) (v : Bool) :
    (parentDisabledSet fuel s c v).log = s.log := (pd_master fuel s c v).1

@[simp] theorem pd_ctype (fuel : Nat) (s : State) (c v x) :
    ((parentDisabledSet fuel s c v).comp x).ctype = (s.comp x).ctype :=
  ((pd_master fuel s c v).2 x).1

@[simp] theorem pd_disposed (fuel : Nat) (s : State) (c v x) :
    ((parentDisabledSet fuel s c v).comp x).disposed = (s.comp x).disposed :=
  ((pd_master fuel s c v).2 x).2.1

@[simp] theorem pd_parent (fuel : Nat) (s : State) (c v x) :
    ((parentDisabledSet fuel s c v).comp x).parent = (s.comp x).parent :=
  ((pd_master fuel s c v).2 x).2.2.1

@[simp] theorem pd_domParent (fuel : Nat) (s : State) (c v x) :
    ((parentDisabledSet fuel s c v).comp x).domParent = (s.comp x).domParent :=
  ((pd_master fuel s c v).2 x).2.2.2.1

@[simp] theorem pd_disabled (fuel : Nat) (s : State) (c v x) :
    ((parentDisabledSet fuel s c v).comp x).disabled = (s.comp x).disabled :=
  ((pd_master fuel s c v).2 x).2.2.2.2.1

@[simp] theorem pd_children (fuel : Nat) (s : State) (c v x) :
    ((parentDisabledSet fuel s c v).comp x).children = (s.comp x).children :=
  ((pd_master fuel s c v).2 x).2.2.2.2.2.1

@[simp] theorem pd_dom (fuel : Nat) (s : State) (c v x) :
    ((parentDisabledSet fuel s c v).comp x).dom = (s.comp x).dom :=
  ((pd_master fuel s c v).2 x).2.2.2.2.2.2

/-- A parentDisabled flag that already equals the written value is never
    changed by the cascade (only v is ever written). -/
theorem pd_flag_pres :
    ∀ (fuel : Nat) (s : State) (c : Nat) (v : Bool) (x : Nat),
      (s.comp x).parentDisabled = v →
      ((parentDisabledSet fuel s c v).comp x).parentDisabled = v := by
  intro fuel
  induction fuel with
  | zero => intro s c v x h; exact h
  | succ fuel ih =>
      intro s c v x h
      simp only [parentDisabledSet]
      by_cases hg : v = (s.comp c).parentDisabled
      · simp only [if_pos hg]; exact h
      · simp only [if_neg hg]
        have hupd : ((s.upd c (fun k => { k with parentDisabled := v })).comp x).parentDisabled = v := by
          by_cases hx : x = c
          · subst hx; simp [State.upd]
          · simp [State.upd, hx, h]
        cases hct : (s.comp c).ctype with
        | container =>
            by_cases hd : (s.comp c).disabled
            · simp only [hd, if_true]; exact hupd
            · simp only [hd, if_false]
              have : ∀ (l : List Nat) (t : State),
                  (t.comp x).parentDisabled = v →
                  ((l.foldl (fun t ch => if elemish (t.comp ch).ctype = true then
                      parentDisabledSet fuel t ch v else t) t).comp x).parentDisabled = v := by
                intro l
                induction l with
                | nil => intro t ht; exact ht
                | cons c0 rest ih2 =>
                    intro t ht
                    refine ih2 _ ?_
                    by_cases he : elemish (t.comp c0).ctype = true
                    · simp only [if_pos he]; exact ih t c0 v x ht
                    · simp only [if_neg he]; exact ht
              exact this (s.comp c).children _ hupd
        | node => exact hupd
        | element => exact hupd
        | fragment => exact hupd

/-- With at least one unit of fuel the cascade does set the target's own
    parentDisabled flag to the written value. -/
theorem pd_self (fuel : Nat) (s : State) (c : Nat) (v : Bool) (hf : 1 ≤ fuel) :
    ((parentDisabledSet fuel s c v).comp c).parentDisabled = v := by
  cases fuel with
  | zero => omega
  | succ fuel =>
      simp only [parentDisabledSet]
      by_cases hg : v = (s.comp c).parentDisabled
      · simp only [if_pos hg]; exact hg.symm
      · simp only [if_neg hg]
        have hupd : ((s.upd c (fun k => { k with parentDisabled := v })).comp c).parentDisabled = v := by
          simp [State.upd]
        cases hct : (s.comp c).ctype with
        | container =>
            by_cases hd : (s.comp c).disabled
            · simp only [hd, if_true]; exact hupd
            · simp only [hd, if_false]
              have : ∀ (l : List Nat) (t : State),
                  (t.comp c).parentDisabled = v →
                  ((l.foldl (fun t ch => if elemish (t.comp ch).ctype = true then
                      parentDisabledSet fuel t ch v else t) t).comp c).parentDisabled = v := by
                intro l
                induction l with
                | nil => intro t ht; exact ht
                | cons c0 rest ih2 =>
                    intro t ht
                    refine ih2 _ ?_
                    by_cases he : elemish (t.comp c0).ctype = true
                    · simp only [if_pos he]; exact pd_flag_pres fuel t c0 v c ht
                    · simp only [if_neg he]; exact ht
              exact this (s.comp c).children _ hupd
        | node => exact hupd
        | element => exact hupd
        | fragment => exact hupd

end VanillaTs

namespace VanillaTs

theorem cflag_ctype {s t : State} (h : CFlagOnly s t) (x : Nat) :
    (t.comp x).ctype = (s.comp x).ctype := (h x).1

theorem cflag_disposed {s t : State} (h : CFlagOnly s t) (x : Nat) :
    (t.comp x).disposed = (s.comp x).disposed := (h x).2.1

theorem cflag_parent {s t : State} (h : CFlagOnly s t) (x : Nat) :
    (t.comp x).parent = (s.comp x).parent := (h x).2.2.1

theorem cflag_domParent {s t : State} (h : CFlagOnly s t) (x : Nat) :
    (t.comp x).domParent = (s.comp x).domParent := (h x).2.2.2.1

theorem cflag_disabled {s t : State} (h : CFlagOnly s t) (x : Nat) :
    (t.comp x).disabled = (s.comp x).disabled := (h x).2.2.2.2.1

theorem cflag_children {s t : State} (h : CFlagOnly s t) (x : Nat) :
    (t.comp x).children = (s.comp x).children := (h x).2.2.2.2.2.1

theorem cflag_dom {s t : State} (h : CFlagOnly s t) (x : Nat) :
    (t.comp x).dom = (s.comp x).dom := (h x).2.2.2.2.2.2

theorem cflag_addLog (s : State) (e : Ev) : CFlagOnly s (s.addLog e) := by
  intro x; simp [State.addLog, flagOnly_refl]

@[simp] theorem obm_log (fuel : Nat) (s : State) (c p : Nat) :
    (onBeforeMount fuel s c p).log = s.log ++ [Ev.beforeMount c] := by
  unfold onBeforeMount
  dsimp only
  split <;> [skip; simp] <;> split <;> simp

theorem obm_cflag (fuel : Nat) (s : State) (c p : Nat) :
    CFlagOnly s (onBeforeMount fuel s c p) := by
  unfold onBeforeMount
  dsimp only
  split
  · split
    · exact cflag_trans (cflag_addLog s _) ((pd_master fuel _ c true).2)
    · exact cflag_addLog s _
  · exact cflag_addLog s _

@[simp] theorem odm_log (s : State) (c p : Nat) :
    (onDidMount s c p).log = s.log ++ [Ev.didMount c] := by
  simp [onDidMount]

@[simp] theorem odm_comp_self (s : State) (c p : Nat) :
    ((onDidMount s c p).comp c) = { s.comp c with parent := some p } := by
  simp [onDidMount]

theorem odm_comp_ne (s : State) (c p x : Nat) (h : x ≠ c) :
    ((onDidMount s c p).comp x) = s.comp x := by
  simp [onDidMount, h]

@[simp] theorem obu_log (s : State) (c : Nat) :
    (onBeforeUnmount s c).log = s.log ++ [Ev.beforeUnmount c] := by
  simp [onBeforeUnmount]

@[simp] theorem obu_comp (s : State) (c x : Nat) :
    ((onBeforeUnmount s c).comp x) = s.comp x := by
  simp [onBeforeUnmount]

@[simp] theorem odu_log (fuel : Nat) (s : State) (c : Nat) :
    (onDidUnmount fuel s c).log = s.log ++ [Ev.didUnmount c] := by
  unfold onDidUnmount
  dsimp only
  split <;> try split
  all_goals simp

@[simp] theorem odu_children (fuel : Nat) (s : State) (c x : Nat) :
    ((onDidUnmount fuel s c).comp x).children = (s.comp x).children := by
  unfold onDidUnmount
  dsimp only
  split <;> try split
  all_goals by_cases hx : x = c <;> simp [hx, State.upd]

@[simp] theorem odu_dom (fuel : Nat) (s : State) (c x : Nat) :
    ((onDidUnmount fuel s c).comp x).dom = (s.comp x).dom := by
  unfold onDidUnmount
  dsimp only
  split <;> try split
  all_goals by_cases hx : x = c <;> simp [hx, State.upd]

@[simp] theorem odu_domParent (fuel : Nat) (s : State) (c x : Nat) :
    ((onDidUnmount fuel s c).comp x).domParent = (s.comp x).domParent := by
  unfold onDidUnmount
  dsimp only
  split <;> try split
  all_goals by_cases hx : x = c <;> simp [hx, State.upd]

@[simp] theorem odu_ctype (fuel : Nat) (s : State) (c x : Nat) :
    ((onDidUnmount fuel s c).comp x).ctype = (s.comp x).ctype := by
  unfold onDidUnmount
  dsimp only
  split <;> try split
  all_goals by_cases hx : x = c <;> simp [hx, State.upd]

@[simp] theorem odu_disposed (fuel : Nat) (s : State) (c x : Nat) :
    ((onDidUnmount fuel s c).comp x).disposed = (s.comp x).disposed := by
  unfold onDidUnmount
  dsimp only
  split <;> try split
  all_goals by_cases hx : x = c <;> simp [hx, State.upd]

@[simp] theorem odu_disabled (fuel : Nat) (s : State) (c x : Nat) :
    ((onDidUnmount fuel s c).comp x).disabled = (s.comp x).disabled := by
  unfold onDidUnmount
  dsimp only
  split <;> try split
  all_goals by_cases hx : x = c <;> simp [hx, State.upd]

@[simp] theorem odu_parent_self (fuel : Nat) (s : State) (c : Nat) :
    ((onDidUnmount fuel s c).comp c).parent = none := by
  unfold onDidUnmount
  dsimp only
  split <;> try split
  all_goals simp [State.upd]

theorem odu_parent_ne (fuel : Nat) (s : State) (c x : Nat) (h : x ≠ c) :
    ((onDidUnmount fuel s c).comp x).parent = (s.comp x).parent := by
  unfold onDidUnmount
  dsimp only
  split <;> try split
  all_goals simp [State.upd, h]

/-- After onDidUnmount on a component with the disabled capability the
    parentDisabled flag is false (the reset demanded by the unmount
    protocol). -/
theorem odu_pd_false (fuel : Nat) (s : State) (c : Nat) (hf : 1 ≤ fuel)
    (helem : elemish (s.comp c).ctype = true) :
    ((onDidUnmount fuel s c).comp c).parentDisabled = false := by
  unfold onDidUnmount
  dsimp only
  simp only [addLog_comp, helem, if_true]
  by_cases hpd : (s.comp c).parentDisabled
  · simp only [hpd, if_true]
    have := pd_self fuel (s.addLog (.didUnmount c)) c false hf
    by_cases hc : c = c
    · simp [State.upd, this]
    · omega
  · simp only [hpd]
    simp [State.upd]
    simpa using hpd

end VanillaTs

namespace VanillaTs

/-- Second component agrees with the first on every field except the native
    ones (dom and domParent): the footprint of the native child-node
    operations. -/
def NonDom (a b : Comp) : Prop :=
  b.ctype = a.ctype ∧ b.disposed = a.disposed ∧ b.parent = a.parent ∧
  b.disabled = a.disabled ∧ b.parentDisabled = a.parentDisabled ∧
  b.children = a.children

/-- State-level NonDom. -/
def CNonDom (s t : State) : Prop :=
  ∀ x : Nat, NonDom (s.comp x) (t.comp x)

theorem nondom_refl (a : Comp) : NonDom a a := by simp [NonDom]

theorem cnondom_refl (s : State) : CNonDom s s := fun _ => nondom_refl _

theorem cnondom_trans {s t u : State} (h1 : CNonDom s t) (h2 : CNonDom t u) :
    CNonDom s u := by
  intro x
  obtain ⟨e1, e2, e3, e4, e5, e6⟩ := h1 x
  obtain ⟨f1, f2, f3, f4, f5, f6⟩ := h2 x
  exact ⟨f1.trans e1, f2.trans e2, f3.trans e3, f4.trans e4, f5.trans e5, f6.trans e6⟩

theorem natDetach_cnondom (s : State) (c : Nat) : CNonDom s (natDetach s c) := by
  unfold natDetach
  split
  · intro x
    by_cases h1 : x = c <;> by_cases h2 : x = (0 : Nat) <;>
      simp [State.upd, NonDom, h1] <;> split <;> simp [NonDom]
  · exact cnondom_refl s

theorem natAppend_cnondom (s : State) (p c : Nat) : CNonDom s (natAppend s p c) := by
  unfold natAppend
  dsimp only
  refine cnondom_trans (natDetach_cnondom s c) ?_
  intro x
  by_cases h1 : x = c <;> by_cases h2 : x = p <;>
    simp [State.upd, State.addLog, NonDom, h1, h2] <;> (try (split <;> simp))

theorem natInsertBefore_cnondom (s : State) (p ref c : Nat) :
    CNonDom s (natInsertBefore s p ref c) := by
  unfold natInsertBefore
  dsimp only
  refine cnondom_trans (natDetach_cnondom s c) ?_
  intro x
  by_cases h1 : x = c <;> by_cases h2 : x = p <;>
    simp [State.upd, State.addLog, NonDom, h1, h2] <;> (try (split <;> simp))

theorem natRemove_cnondom (s : State) (p c : Nat) : CNonDom s (natRemove s p c) := by
  unfold natRemove
  split
  · intro x
    by_cases h1 : x = c <;> by_cases h2 : x = p <;>
      simp [State.upd, State.addLog, NonDom, h1, h2] <;> (try (split <;> simp))
  · exact cnondom_refl s

theorem cnondom_addLog (t : State) (e : Ev) : CNonDom t (t.addLog e) :=
  fun _ => by simp [State.addLog, nondom_refl]

theorem natAppendBatch_cnondom (s : State) (p : Nat) (fd : List Nat) :
    CNonDom s (natAppendBatch s p fd) := by
  unfold natAppendBatch
  dsimp only
  refine cnondom_trans ?_ (cnondom_addLog _ _)
  induction fd generalizing s with
  | nil => exact cnondom_refl s
  | cons c rest ih =>
      simp only [List.foldl_cons]
      refine cnondom_trans ?_ (ih _)
      intro x
      by_cases h1 : x = c <;> by_cases h2 : x = p <;>
        simp [State.upd, NonDom, h1, h2] <;> (try (split <;> simp))

theorem natInsertBatchBefore_cnondom (s : State) (p ref : Nat) (fd : List Nat) :
    CNonDom s (natInsertBatchBefore s p ref fd) := by
  unfold natInsertBatchBefore
  dsimp only
  refine cnondom_trans ?_ (cnondom_addLog _ _)
  refine cnondom_trans
    (t := s.upd p (fun k => { k with dom := insertAllBeforeRef k.dom ref fd })) ?_ ?_
  · intro x
    by_cases h2 : x = p <;> simp [State.upd, NonDom, h2]
  · generalize (s.upd p (fun k => { k with dom := insertAllBeforeRef k.dom ref fd })) = t
    induction fd generalizing t with
    | nil => exact cnondom_refl t
    | cons c rest ih =>
        simp only [List.foldl_cons]
        refine cnondom_trans ?_ (ih _)
        intro x
        by_cases h1 : x = c <;> simp [State.upd, NonDom, h1] <;> (try (split <;> simp))

theorem cnondom_children {s t : State} (h : CNonDom s t) (x : Nat) :
    (t.comp x).children = (s.comp x).children := (h x).2.2.2.2.2

theorem cnondom_parent {s t : State} (h : CNonDom s t) (x : Nat) :
    (t.comp x).parent = (s.comp x).parent := (h x).2.2.1

theorem cnondom_disposed {s t : State} (h : CNonDom s t) (x : Nat) :
    (t.comp x).disposed = (s.comp x).disposed := (h x).2.1

theorem cnondom_ctype {s t : State} (h : CNonDom s t) (x : Nat) :
    (t.comp x).ctype = (s.comp x).ctype := (h x).1

theorem cnondom_disabled {s t : State} (h : CNonDom s t) (x : Nat) :
    (t.comp x).disabled = (s.comp x).disabled := (h x).2.2.2.1

theorem cnondom_pd {s t : State} (h : CNonDom s t) (x : Nat) :
    (t.comp x).parentDisabled = (s.comp x).parentDisabled := (h x).2.2.2.2.1

end VanillaTs

namespace VanillaTs

/-- Claim C10: calling remove with an argument c that is contained in the
    container's tree at a depth greater than one (a descendant but not a direct
    child) invokes c.onBeforeUnmount() but never c.onDidUnmount(), detaches
    nothing and leaves every component record (children sequence, parent
    pointer, native tree) exactly as it was: the whole call only appends the
    single beforeUnmount event to the trace. -/
theorem c10_remove_descendant_hooks (fuel : Nat) (s : State) (p c : Nat)
    (hin : isContainedIn fuel s c p = true)
    (hnm : c ∉ (s.comp p).children) :
    applyOp fuel s (.remove p [c]) = (s.addLog (.beforeUnmount c), false) := by
  show (AChildren.remove fuel s p [c], false) = _
  unfold AChildren.remove
  simp only [List.foldl_cons, List.foldl_nil]
  simp [AChildren.containedNotify, AChildren.removeStep, hin, onBeforeUnmount, hnm]

/-- Claim C10, witness: in the tree where container 0 holds container 1 which
    holds element 4, removing 4 from 0 only logs the beforeUnmount hook. -/
theorem c10_witness :
    isContainedIn 9 c10Tree 4 0 = true ∧ (4 : Nat) ∉ (c10Tree.comp 0).children ∧
    applyOp 9 c10Tree (.remove 0 [4]) = (c10Tree.addLog (.beforeUnmount 4), false) :=
  ⟨by decide, by decide,
    c10_remove_descendant_hooks 9 c10Tree 0 4 (by decide) (by decide)⟩

/-- Claim C7: the structural errors of insert (a reference or indexed child
    that is also one of the inserted components), moveTo (target equals the
    source) and moveToAt (target equals the source, or a reference position
    that is not a child of the target) are raised synchronously before any
    mutation: the raising call returns the input state untouched, so the
    children sequences, native child nodes and parent pointers of all involved
    containers are exactly as they were before the call. -/
theorem c7_structural_errors_premutation (fuel : Nat) (s : State)
    (p target : Nat) (cs : List Nat) :
    (∀ a0 : Nat, (s.comp p).children ≠ [] → a0 ∈ cs →
      AChildren.insert fuel s p (.ref a0) cs = (s, true)) ∧
    (∀ i : Int, (s.comp p).children ≠ [] →
      ((i < 0 ∧ (s.comp p).children.headD 0 ∈ cs) ∨
        (0 ≤ i ∧ i.toNat < (s.comp p).children.length ∧
          (s.comp p).children.getD i.toNat 0 ∈ cs)) →
      AChildren.insert fuel s p (.num i) cs = (s, true)) ∧
    (∀ a : AChildren.At, AChildren.moveTo fuel s p p cs = (s, true) ∧
      AChildren.moveToAt fuel s p p a cs = (s, true)) ∧
    (∀ a0 : Nat, target ≠ p → a0 ∉ (s.comp target).children →
      AChildren.moveToAt fuel s p target (.ref a0) cs = (s, true)) := by
  refine ⟨?_, ?_, ?_, ?_⟩
  · intro a0 hne hmem
    have hcs : cs ≠ [] := List.ne_nil_of_mem hmem
    unfold AChildren.insert
    simp [hcs, hne, hmem]
  · intro i hne hcase
    have hcs : cs ≠ [] := by
      rcases hcase with ⟨_, h⟩ | ⟨_, _, h⟩ <;> exact List.ne_nil_of_mem h
    unfold AChildren.insert
    rcases hcase with ⟨hlt, hmem⟩ | ⟨hge, htn, hmem⟩
    · simp only [AChildren.insert, hcs, hne, if_neg, if_false, hlt, if_true]
      simp [hcs, hne, hlt]
      simpa using hmem
    · have h1 : ¬ i < 0 := by omega
      have h2 : ¬ (((s.comp p).children.length : Int) ≤ i) := by omega
      simp [hcs, hne, h1, h2]
      simpa using hmem
  · intro a
    constructor
    · unfold AChildren.moveTo
      simp
    · unfold AChildren.moveToAt
      simp
  · intro a0 hne hmem
    unfold AChildren.moveToAt
    simp [hne, hmem]

/-- Claim C7, witness: concrete raising calls on the witness tree, each
    returning the untouched state. -/
theorem c7_witness :
    AChildren.insert 9 c7Tree 0 (.ref 2) [2] = (c7Tree, true) ∧
    AChildren.insert 9 c7Tree 0 (.num 0) [2] = (c7Tree, true) ∧
    AChildren.moveTo 9 c7Tree 0 0 [2] = (c7Tree, true) ∧
    AChildren.moveToAt 9 c7Tree 0 1 (.ref 5) [2] = (c7Tree, true) := by
  have h := c7_structural_errors_premutation 9 c7Tree 0 1 [2]
  exact ⟨h.1 2 (by decide) (by decide),
    h.2.1 0 (by decide) (Or.inr ⟨by decide, by decide, by decide⟩),
    (h.2.2.1 (.num 0)).1,
    h.2.2.2 5 (by decide) (by decide)⟩

end VanillaTs

namespace VanillaTs

/-- A component update that preserves a projection preserves it at every
    index. -/
theorem upd_proj {α : Type} (P : Comp → α) (s : State) (i : Nat)
    (f : Comp → Comp) (x : Nat) (hf : ∀ k, P (f k) = P k) :
    P ((s.upd i f).comp x) = P (s.comp x) := by
  by_cases hx : x = i <;> simp [State.upd, hx, hf]

@[simp] theorem containedNotify_comp (fuel : Nat) (t : State) (p c x : Nat) :
    ((AChildren.containedNotify fuel t p c).comp x) = t.comp x := by
  unfold AChildren.containedNotify
  split <;> simp

theorem containedNotify_log (fuel : Nat) (t : State) (p c : Nat) :
    (AChildren.containedNotify fuel t p c).log = t.log ∨
    (AChildren.containedNotify fuel t p c).log = t.log ++ [Ev.beforeUnmount c] := by
  unfold AChildren.containedNotify
  split <;> simp


@[simp] theorem natDetach_children (s : State) (c : Nat) (x : Nat) :
    ((natDetach s c).comp x).children = (s.comp x).children :=
  cnondom_children (natDetach_cnondom s c) x

@[simp] theorem natDetach_parent (s : State) (c : Nat) (x : Nat) :
    ((natDetach s c).comp x).parent = (s.comp x).parent :=
  cnondom_parent (natDetach_cnondom s c) x

@[simp] theorem natDetach_disposed (s : State) (c : Nat) (x : Nat) :
    ((natDetach s c).comp x).disposed = (s.comp x).disposed :=
  cnondom_disposed (natDetach_cnondom s c) x

@[simp] theorem natDetach_ctype (s : State) (c : Nat) (x : Nat) :
    ((natDetach s c).comp x).ctype = (s.comp x).ctype :=
  cnondom_ctype (natDetach_cnondom s c) x

@[simp] theorem natDetach_disabled (s : State) (c : Nat) (x : Nat) :
    ((natDetach s c).comp x).disabled = (s.comp x).disabled :=
  cnondom_disabled (natDetach_cnondom s c) x

@[simp] theorem natDetach_pd (s : State) (c : Nat) (x : Nat) :
    ((natDetach s c).comp x).parentDisabled = (s.comp x).parentDisabled :=
  cnondom_pd (natDetach_cnondom s c) x

@[simp] theorem natAppend_children (s : State) (p c : Nat) (x : Nat) :
    ((natAppend s p c).comp x).children = (s.comp x).children :=
  cnondom_children (natAppend_cnondom s p c) x

@[simp] theorem natAppend_parent (s : State) (p c : Nat) (x : Nat) :
    ((natAppend s p c).comp x).parent = (s.comp x).parent :=
  cnondom_parent (natAppend_cnondom s p c) x

@[simp] theorem natAppend_disposed (s : State) (p c : Nat) (x : Nat) :
    ((natAppend s p c).comp x).disposed = (s.comp x).disposed :=
  cnondom_disposed (natAppend_cnondom s p c) x

@[simp] theorem natAppend_ctype (s : State) (p c : Nat) (x : Nat) :
    ((natAppend s p c).comp x).ctype = (s.comp x).ctype :=
  cnondom_ctype (natAppend_cnondom s p c) x

@[simp] theorem natAppend_disabled (s : State) (p c : Nat) (x : Nat) :
    ((natAppend s p c).comp x).disabled = (s.comp x).disabled :=
  cnondom_disabled (natAppend_cnondom s p c) x

@[simp] theorem natAppend_pd (s : State) (p c : Nat) (x : Nat) :
    ((natAppend s p c).comp x).parentDisabled = (s.comp x).parentDisabled :=
  cnondom_pd (natAppend_cnondom s p c) x

@[simp] theorem natInsertBefore_children (s : State) (p r c : Nat) (x : Nat) :
    ((natInsertBefore s p r c).comp x).children = (s.comp x).children :=
  cnondom_children (natInsertBefore_cnondom s p r c) x

@[simp] theorem natInsertBefore_parent (s : State) (p r c : Nat) (x : Nat) :
    ((natInsertBefore s p r c).comp x).parent = (s.comp x).parent :=
  cnondom_parent (natInsertBefore_cnondom s p r c) x

@[simp] theorem natInsertBefore_disposed (s : State) (p r c : Nat) (x : Nat) :
    ((natInsertBefore s p r c).comp x).disposed = (s.comp x).disposed :=
  cnondom_disposed (natInsertBefore_cnondom s p r c) x

@[simp] theorem natInsertBefore_ctype (s : State) (p r c : Nat) (x : Nat) :
    ((natInsertBefore s p r c).comp x).ctype = (s.comp x).ctype :=
  cnondom_ctype (natInsertBefore_cnondom s p r c) x

@[simp] theorem natInsertBefore_disabled (s : State) (p r c : Nat) (x : Nat) :
    ((natInsertBefore s p r c).comp x).disabled = (s.comp x).disabled :=
  cnondom_disabled (natInsertBefore_cnondom s p r c) x

@[simp] theorem natInsertBefore_pd (s : State) (p r c : Nat) (x : Nat) :
    ((natInsertBefore s p r c).comp x).parentDisabled = (s.comp x).parentDisabled :=
  cnondom_pd (natInsertBefore_cnondom s p r c) x

@[simp] theorem natRemove_children (s : State) (p c : Nat) (x : Nat) :
    ((natRemove s p c).comp x).children = (s.comp x).children :=
  cnondom_children (natRemove_cnondom s p c) x

@[simp] theorem natRemove_parent (s : State) (p c : Nat) (x : Nat) :
    ((natRemove s p c).comp x).parent = (s.comp x).parent :=
  cnondom_parent (natRemove_cnondom s p c) x

@[simp] theorem natRemove_disposed (s : State) (p c : Nat) (x : Nat) :
    ((natRemove s p c).comp x).disposed = (s.comp x).disposed :=
  cnondom_disposed (natRemove_cnondom s p c) x

@[simp] theorem natRemove_ctype (s : State) (p c : Nat) (x : Nat) :
    ((natRemove s p c).comp x).ctype = (s.comp x).ctype :=
  cnondom_ctype (natRemove_cnondom s p c) x

@[simp] theorem natRemove_disabled (s : State) (p c : Nat) (x : Nat) :
    ((natRemove s p c).comp x).disabled = (s.comp x).disabled :=
  cnondom_disabled (natRemove_cnondom s p c) x

@[simp] theorem natRemove_pd (s : State) (p c : Nat) (x : Nat) :
    ((natRemove s p c).comp x).parentDisabled = (s.comp x).parentDisabled :=
  cnondom_pd (natRemove_cnondom s p c) x

@[simp] theorem natAppendBatch_children (s : State) (p : Nat) (fd : List Nat) (x : Nat) :
    ((natAppendBatch s p fd).comp x).children = (s.comp x).children :=
  cnondom_children (natAppendBatch_cnondom s p fd) x

@[simp] theorem natAppendBatch_parent (s : State) (p : Nat) (fd : List Nat) (x : Nat) :
    ((natAppendBatch s p fd).comp x).parent = (s.comp x).parent :=
  cnondom_parent (natAppendBatch_cnondom s p fd) x

@[simp] theorem natAppendBatch_disposed (s : State) (p : Nat) (fd : List Nat) (x : Nat) :
    ((natAppendBatch s p fd).comp x).disposed = (s.comp x).disposed :=
  cnondom_disposed (natAppendBatch_cnondom s p fd) x

@[simp] theorem natAppendBatch_ctype (s : State) (p : Nat) (fd : List Nat) (x : Nat) :
    ((natAppendBatch s p fd).comp x).ctype = (s.comp x).ctype :=
  cnondom_ctype (natAppendBatch_cnondom s p fd) x

@[simp] theorem natAppendBatch_disabled (s : State) (p : Nat) (fd : List Nat) (x : Nat) :
    ((natAppendBatch s p fd).comp x).disabled = (s.comp x).disabled :=
  cnondom_disabled (natAppendBatch_cnondom s p fd) x

@[simp] theorem natAppendBatch_pd (s : State) (p : Nat) (fd : List Nat) (x : Nat) :
    ((natAppendBatch s p fd).comp x).parentDisabled = (s.comp x).parentDisabled :=
  cnondom_pd (natAppendBatch_cnondom s p fd) x

@[simp] theorem natInsertBatchBefore_children (s : State) (p r : Nat) (fd : List Nat) (x : Nat) :
    ((natInsertBatchBefore s p r fd).comp x).children = (s.comp x).children :=
  cnondom_children (natInsertBatchBefore_cnondom s p r fd) x

@[simp] theorem natInsertBatchBefore_parent (s : State) (p r : Nat) (fd : List Nat) (x : Nat) :
    ((natInsertBatchBefore s p r fd).comp x).parent = (s.comp x).parent :=
  cnondom_parent (natInsertBatchBefore_cnondom s p r fd) x

@[simp] theorem natInsertBatchBefore_disposed (s : State) (p r : Nat) (fd : List Nat) (x : Nat) :
    ((natInsertBatchBefore s p r fd).comp x).disposed = (s.comp x).disposed :=
  cnondom_disposed (natInsertBatchBefore_cnondom s p r fd) x

@[simp] theorem natInsertBatchBefore_ctype (s : State) (p r : Nat) (fd : List Nat) (x : Nat) :
    ((natInsertBatchBefore s p r fd).comp x).ctype = (s.comp x).ctype :=
  cnondom_ctype (natInsertBatchBefore_cnondom s p r fd) x

@[simp] theorem natInsertBatchBefore_disabled (s : State) (p r : Nat) (fd : List Nat) (x : Nat) :
    ((natInsertBatchBefore s p r fd).comp x).disabled = (s.comp x).disabled :=
  cnondom_disabled (natInsertBatchBefore_cnondom s p r fd) x

@[simp] theorem natInsertBatchBefore_pd (s : State) (p r : Nat) (fd : List Nat) (x : Nat) :
    ((natInsertBatchBefore s p r fd).comp x).parentDisabled = (s.comp x).parentDisabled :=
  cnondom_pd (natInsertBatchBefore_cnondom s p r fd) x

@[simp] theorem odm_children (s : State) (c p x : Nat) :
    ((onDidMount s c p).comp x).children = (s.comp x).children := by
  by_cases hx : x = c <;> simp [onDidMount, State.upd, hx]

@[simp] theorem odm_dom (s : State) (c p x : Nat) :
    ((onDidMount s c p).comp x).dom = (s.comp x).dom := by
  by_cases hx : x = c <;> simp [onDidMount, State.upd, hx]

@[simp] theorem odm_domParent (s : State) (c p x : Nat) :
    ((onDidMount s c p).comp x).domParent = (s.comp x).domParent := by
  by_cases hx : x = c <;> simp [onDidMount, State.upd, hx]

@[simp] theorem odm_disposed (s : State) (c p x : Nat) :
    ((onDidMount s c p).comp x).disposed = (s.comp x).disposed := by
  by_cases hx : x = c <;> simp [onDidMount, State.upd, hx]

@[simp] theorem odm_ctype (s : State) (c p x : Nat) :
    ((onDidMount s c p).comp x).ctype = (s.comp x).ctype := by
  by_cases hx : x = c <;> simp [onDidMount, State.upd, hx]

@[simp] theorem odm_disabled (s : State) (c p x : Nat) :
    ((onDidMount s c p).comp x).disabled = (s.comp x).disabled := by
  by_cases hx : x = c <;> simp [onDidMount, State.upd, hx]

@[simp] theorem odm_parentDisabled (s : State) (c p x : Nat) :
    ((onDidMount s c p).comp x).parentDisabled = (s.comp x).parentDisabled := by
  by_cases hx : x = c <;> simp [onDidMount, State.upd, hx]

@[simp] theorem obm_children (fuel : Nat) (s : State) (c p x : Nat) :
    ((onBeforeMount fuel s c p).comp x).children = (s.comp x).children :=
  cflag_children (obm_cflag fuel s c p) x

@[simp] theorem obm_dom (fuel : Nat) (s : State) (c p x : Nat) :
    ((onBeforeMount fuel s c p).comp x).dom = (s.comp x).dom :=
  cflag_dom (obm_cflag fuel s c p) x

@[simp] theorem obm_domParent (fuel : Nat) (s : State) (c p x : Nat) :
    ((onBeforeMount fuel s c p).comp x).domParent = (s.comp x).domParent :=
  cflag_domParent (obm_cflag fuel s c p) x

@[simp] theorem obm_disposed (fuel : Nat) (s : State) (c p x : Nat) :
    ((onBeforeMount fuel s c p).comp x).disposed = (s.comp x).disposed :=
  cflag_disposed (obm_cflag fuel s c p) x

@[simp] theorem obm_ctype (fuel : Nat) (s : State) (c p x : Nat) :
    ((onBeforeMount fuel s c p).comp x).ctype = (s.comp x).ctype :=
  cflag_ctype (obm_cflag fuel s c p) x

@[simp] theorem obm_disabled (fuel : Nat) (s : State) (c p x : Nat) :
    ((onBeforeMount fuel s c p).comp x).disabled = (s.comp x).disabled :=
  cflag_disabled (obm_cflag fuel s c p) x

@[simp] theorem obm_parent (fuel : Nat) (s : State) (c p x : Nat) :
    ((onBeforeMount fuel s c p).comp x).parent = (s.comp x).parent :=
  cflag_parent (obm_cflag fuel s c p) x

end VanillaTs

namespace VanillaTs

theorem removeStep_not_mem (fuel : Nat) (t : State) (p c : Nat)
    (h : c ∉ (t.comp p).children) :
    AChildren.removeStep fuel t p c = t := by
  unfold AChildren.removeStep
  simp [h]

theorem removeStep_children (fuel : Nat) (t : State) (p c : Nat)
    (hm : c ∈ (t.comp p).children) (x : Nat) :
    ((AChildren.removeStep fuel t p c).comp x).children =
      if x = p then (t.comp p).children.erase c else (t.comp x).children := by
  unfold AChildren.removeStep
  by_cases hx : x = p <;> simp [hm, hx, State.upd]

theorem removeStep_parent_self (fuel : Nat) (t : State) (p c : Nat)
    (hm : c ∈ (t.comp p).children) :
    ((AChildren.removeStep fuel t p c).comp c).parent = none := by
  unfold AChildren.removeStep
  simp [hm]

theorem removeStep_parent_ne (fuel : Nat) (t : State) (p c x : Nat)
    (hx : x ≠ c) :
    ((AChildren.removeStep fuel t p c).comp x).parent = (t.comp x).parent := by
  unfold AChildren.removeStep
  split
  · rw [odu_parent_ne _ _ _ _ hx]
    simp [State.upd]
    split <;> rfl
  · rfl

theorem removeStep_ctype (fuel : Nat) (t : State) (p c x : Nat) :
    ((AChildren.removeStep fuel t p c).comp x).ctype = (t.comp x).ctype := by
  unfold AChildren.removeStep
  split <;> simp [State.upd] <;> split <;> rfl

theorem removeStep_disposed (fuel : Nat) (t : State) (p c x : Nat) :
    ((AChildren.removeStep fuel t p c).comp x).disposed = (t.comp x).disposed := by
  unfold AChildren.removeStep
  split <;> simp [State.upd] <;> split <;> rfl

theorem removeStep_disabled (fuel : Nat) (t : State) (p c x : Nat) :
    ((AChildren.removeStep fuel t p c).comp x).disabled = (t.comp x).disabled := by
  unfold AChildren.removeStep
  split <;> simp [State.upd] <;> split <;> rfl

/-- After the removal step of a direct child with the disabled capability the
    child's parentDisabled flag is false. -/
theorem removeStep_pd_self (fuel : Nat) (t : State) (p c : Nat) (hf : 1 ≤ fuel)
    (hm : c ∈ (t.comp p).children) (helem : elemish (t.comp c).ctype = true) :
    ((AChildren.removeStep fuel t p c).comp c).parentDisabled = false := by
  unfold AChildren.removeStep
  simp only [hm, if_true]
  refine odu_pd_false fuel _ c hf ?_
  simp [State.upd]
  split <;> simpa using helem

theorem mountLast_children_self (fuel : Nat) (t : State) (p c : Nat) :
    ((AChildren.mountLast fuel t p c).comp p).children =
      (t.comp p).children ++ [c] := by
  unfold AChildren.mountLast
  simp [State.upd]

theorem mountLast_children_ne (fuel : Nat) (t : State) (p c x : Nat)
    (hx : x ≠ p) :
    ((AChildren.mountLast fuel t p c).comp x).children = (t.comp x).children := by
  unfold AChildren.mountLast
  simp [State.upd, hx]

theorem mountLast_parent_self (fuel : Nat) (t : State) (p c : Nat) :
    ((AChildren.mountLast fuel t p c).comp c).parent = some p := by
  unfold AChildren.mountLast
  simp [onDidMount, State.upd]

theorem mountLast_parent_ne (fuel : Nat) (t : State) (p c x : Nat) (hx : x ≠ c) :
    ((AChildren.mountLast fuel t p c).comp x).parent = (t.comp x).parent := by
  unfold AChildren.mountLast
  rw [odm_comp_ne _ c p x hx]
  simp [State.upd]
  split <;> simp

theorem mountLast_ctype (fuel : Nat) (t : State) (p c x : Nat) :
    ((AChildren.mountLast fuel t p c).comp x).ctype = (t.comp x).ctype := by
  unfold AChildren.mountLast
  simp [State.upd]
  split <;> simp

theorem mountLast_disposed (fuel : Nat) (t : State) (p c x : Nat) :
    ((AChildren.mountLast fuel t p c).comp x).disposed = (t.comp x).disposed := by
  unfold AChildren.mountLast
  simp [State.upd]
  split <;> simp

theorem mountLast_disabled (fuel : Nat) (t : State) (p c x : Nat) :
    ((AChildren.mountLast fuel t p c).comp x).disabled = (t.comp x).disabled := by
  unfold AChildren.mountLast
  simp [State.upd]
  split <;> simp

/-- Mounting into a container whose effective disabled state is true sets the
    mounted element component's parentDisabled flag. -/
theorem mountLast_pd_self (fuel : Nat) (t : State) (p c : Nat) (hf : 1 ≤ fuel)
    (helem : elemish (t.comp c).ctype = true)
    (heff : ((t.comp p).disabled || (t.comp p).parentDisabled) = true) :
    ((AChildren.mountLast fuel t p c).comp c).parentDisabled = true := by
  unfold AChildren.mountLast
  have h1 : ((onBeforeMount fuel t c p).comp c).parentDisabled = true := by
    unfold onBeforeMount
    dsimp only
    simp only [addLog_comp, helem, if_true, heff]
    exact pd_self fuel _ c true hf
  simp [State.upd, h1]
  split <;> simp [h1]

end VanillaTs

namespace VanillaTs

/-- Claim C3: for an element component c, removing it from a parent's children
    resets its ParentDisabled flag to false (so no stale cascade state is
    retained) and clears its parent; and appending it (when currently
    parent-less) into a parent whose effective disabled state
    (Disabled or ParentDisabled) is true sets its ParentDisabled flag. -/
theorem c3_unmount_mount_parentDisabled (fuel : Nat) (s : State) (p c : Nat)
    (hf : 1 ≤ fuel) (helem : elemish (s.comp c).ctype = true) :
    (c ∈ (s.comp p).children →
      ((runOp fuel s (.remove p [c])).comp c).parentDisabled = false ∧
      ((runOp fuel s (.remove p [c])).comp c).parent = none) ∧
    ((s.comp c).parent = none →
      ((s.comp p).disabled || (s.comp p).parentDisabled) = true →
      ((runOp fuel s (.append p [c])).comp c).parentDisabled = true) := by
  constructor
  · intro hmem
    show ((AChildren.remove fuel s p [c]).comp c).parentDisabled = false ∧
      ((AChildren.remove fuel s p [c]).comp c).parent = none
    unfold AChildren.remove
    simp only [List.foldl_cons, List.foldl_nil]
    have hmem1 : c ∈ ((AChildren.containedNotify fuel s p c).comp p).children := by
      simpa using hmem
    refine ⟨?_, ?_⟩
    · exact removeStep_pd_self fuel _ p c hf hmem1 (by simpa using helem)
    · exact removeStep_parent_self fuel _ p c hmem1
  · intro hpar heff
    show ((AChildren.append fuel s p [c]).comp c).parentDisabled = true
    unfold AChildren.append
    have hu : uniques [c] = [c] := rfl
    simp only [hu, List.foldl_cons, List.foldl_nil, groupByParent, hpar]
    simp only [show ([c] : List Nat) = [] ↔ False by simp, if_false]
    exact mountLast_pd_self fuel s p c hf helem heff

/-- Claim C3, witness: removing element 4 from the disabled container 1 resets
    its parentDisabled flag and clears its parent; appending the fresh element
    5 into the disabled container 1 sets its parentDisabled flag. -/
theorem c3_witness :
    ((runOp 9 c3Pre (.remove 1 [4])).comp 4).parentDisabled = false ∧
    ((runOp 9 c3Pre (.remove 1 [4])).comp 4).parent = none ∧
    ((runOp 9 c3Pre (.append 1 [5])).comp 5).parentDisabled = true := by
  have h := c3_unmount_mount_parentDisabled 9 c3Pre 1 4 (by decide) (by decide)
  have h2 := c3_unmount_mount_parentDisabled 9 c3Pre 1 5 (by decide) (by decide)
  exact ⟨(h.1 (by decide)).1, (h.1 (by decide)).2, h2.2 (by decide) (by decide)⟩

end VanillaTs

namespace VanillaTs

/-- Claim C6: append removes a component from its current parent before adding
    it.  If c is already a child of the appended-to container the length of the
    children sequence is unchanged and c becomes the last child (a move to the
    end); if c is a child of a different container A, appending it to B removes
    it from A's children, puts it into B's children and points its parent
    back-reference at B. -/
theorem c6_append_reparent (fuel : Nat) (s : State) (a b c : Nat)
    (hpar : (s.comp c).parent = some a)
    (hmem : c ∈ (s.comp a).children) (hnd : (s.comp a).children.Nodup) :
    (b = a →
      ((runOp fuel s (.append b [c])).comp a).children.length =
        (s.comp a).children.length ∧
      ((runOp fuel s (.append b [c])).comp a).children.getLast? = some c) ∧
    (b ≠ a →
      c ∉ ((runOp fuel s (.append b [c])).comp a).children ∧
      c ∈ ((runOp fuel s (.append b [c])).comp b).children ∧
      ((runOp fuel s (.append b [c])).comp c).parent = some b) := by
  have hrun : runOp fuel s (.append b [c]) =
      AChildren.mountLast fuel
        (AChildren.removeStep fuel (AChildren.containedNotify fuel s a c) a c) b c := by
    show AChildren.append fuel s b [c] = _
    unfold AChildren.append
    have hu : uniques [c] = [c] := rfl
    simp only [hu, groupByParent, addToGroup, List.foldl_cons, List.foldl_nil, hpar]
    unfold AChildren.remove
    simp only [List.foldl_cons, List.foldl_nil]
    simp
  have hmem1 : c ∈ ((AChildren.containedNotify fuel s a c).comp a).children := by
    simpa using hmem
  have hch_a : ((AChildren.removeStep fuel (AChildren.containedNotify fuel s a c) a c).comp a).children =
      (s.comp a).children.erase c := by
    rw [removeStep_children fuel _ a c hmem1 a]
    simp
  constructor
  · intro hba
    rw [hba]
    rw [hba] at hrun
    rw [hrun]
    rw [mountLast_children_self]
    rw [hch_a]
    constructor
    · simp only [List.length_append, List.length_erase_of_mem hmem,
        List.length_singleton]
      have : 1 ≤ (s.comp a).children.length := List.length_pos_of_mem hmem
      omega
    · simp
  · intro hba
    rw [hrun]
    refine ⟨?_, ?_, ?_⟩
    · rw [mountLast_children_ne fuel _ b c a (Ne.symm hba)]
      rw [hch_a]
      intro hcontra
      rcases (hnd.mem_erase_iff).1 hcontra with ⟨hne, _⟩
      exact hne rfl
    · rw [mountLast_children_self]
      simp
    · rw [mountLast_parent_self]

/-- Claim C6, witness: on the witness tree (container 0 holds 2 and 3,
    container 1 holds 4), re-appending 3 to 0 keeps the length at two with 3
    last, and appending 3 to 1 removes it from 0, adds it to 1 and repoints its
    parent. -/
theorem c6_witness :
    (((runOp 9 c7Tree (.append 0 [3])).comp 0).children.length = 2 ∧
      ((runOp 9 c7Tree (.append 0 [3])).comp 0).children.getLast? = some 3) ∧
    ((3 : Nat) ∉ ((runOp 9 c7Tree (.append 1 [3])).comp 0).children ∧
      (3 : Nat) ∈ ((runOp 9 c7Tree (.append 1 [3])).comp 1).children ∧
      ((runOp 9 c7Tree (.append 1 [3])).comp 3).parent = some 1) := by
  have h0 := c6_append_reparent 9 c7Tree 0 0 3 (by decide) (by decide) (by decide)
  have h1 := c6_append_reparent 9 c7Tree 0 1 3 (by decide) (by decide) (by decide)
  refine ⟨?_, h1.2 (by decide)⟩
  have h2 := h0.1 rfl
  constructor
  · rw [h2.1]; decide
  · exact h2.2

end VanillaTs

namespace VanillaTs

theorem noMount_refl (s : State) : NoMountNew s s :=
  ⟨[], by simp, by simp⟩

theorem noMount_trans {s t u : State} (h1 : NoMountNew s t)
    (h2 : NoMountNew t u) : NoMountNew s u := by
  obtain ⟨t1, he1, hp1⟩ := h1
  obtain ⟨t2, he2, hp2⟩ := h2
  refine ⟨t1 ++ t2, by rw [he2, he1, List.append_assoc], ?_⟩
  intro e he
  rcases List.mem_append.1 he with h | h
  · exact hp1 e h
  · exact hp2 e h

theorem noMount_of_log_eq {s t : State} (h : t.log = s.log) : NoMountNew s t :=
  ⟨[], by simp [h], by simp⟩

theorem noMount_addLog (s : State) (e : Ev) (h : isMountEv e = false) :
    NoMountNew s (s.addLog e) :=
  ⟨[e], by simp, by simpa using h⟩

theorem noMount_foldl {α : Type} (g : State → α → State)
    (hg : ∀ t x, NoMountNew t (g t x)) (l : List α) (t : State) :
    NoMountNew t (l.foldl g t) := by
  induction l generalizing t with
  | nil => exact noMount_refl t
  | cons x rest ih => exact noMount_trans (hg t x) (ih (g t x))

theorem natDetach_log (s : State) (c : Nat) : (natDetach s c).log = s.log := by
  unfold natDetach
  split <;> simp

theorem natAppend_log (s : State) (p c : Nat) :
    (natAppend s p c).log = s.log ++ [Ev.nativeInsert p c] := by
  unfold natAppend
  dsimp only
  simp [natDetach_log]

theorem natRemove_noMount (s : State) (p c : Nat) :
    NoMountNew s (natRemove s p c) := by
  unfold natRemove
  split
  · exact ⟨[Ev.nativeRemove p c], by simp, by simp [isMountEv]⟩
  · exact noMount_refl s

theorem onDidUnmount_noMount (fuel : Nat) (s : State) (c : Nat) :
    NoMountNew s (onDidUnmount fuel s c) :=
  ⟨[Ev.didUnmount c], by simp, by simp [isMountEv]⟩

theorem onBeforeUnmount_noMount (s : State) (c : Nat) :
    NoMountNew s (onBeforeUnmount s c) :=
  ⟨[Ev.beforeUnmount c], by simp, by simp [isMountEv]⟩

theorem removeAllLoop_noMount (fuel : Nat) :
    ∀ (n : Nat) (s : State) (p : Nat), NoMountNew s (AChildren.removeAllLoop fuel n s p) := by
  intro n
  induction n with
  | zero => intro s p; exact noMount_refl s
  | succ n ih =>
      intro s p
      unfold AChildren.removeAllLoop
      cases hl : (s.comp p).children.getLast? with
      | none => exact noMount_refl s
      | some c =>
          dsimp only
          have h1 := natRemove_noMount s p c
          have h2 : NoMountNew (natRemove s p c)
              ((natRemove s p c).upd p (fun k => { k with children := k.children.dropLast })) :=
            noMount_of_log_eq (by simp)
          have h3 := onDidUnmount_noMount fuel
            ((natRemove s p c).upd p (fun k => { k with children := k.children.dropLast })) c
          exact noMount_trans (noMount_trans (noMount_trans h1 h2) h3) (ih _ p)

theorem containedNotify_noMount (fuel : Nat) (t : State) (p c : Nat) :
    NoMountNew t (AChildren.containedNotify fuel t p c) := by
  unfold AChildren.containedNotify
  split
  · exact onBeforeUnmount_noMount t c
  · exact noMount_refl t

theorem removeStep_noMount (fuel : Nat) (t : State) (p c : Nat) :
    NoMountNew t (AChildren.removeStep fuel t p c) := by
  unfold AChildren.removeStep
  split
  · refine noMount_trans (noMount_of_log_eq ?_)
      (noMount_trans (natRemove_noMount _ p c) (onDidUnmount_noMount fuel _ c))
    simp
  · exact noMount_refl t

/-- AChildren.remove fires only unmount hooks and native removals, never a
    mount hook. -/
theorem remove_noMount (fuel : Nat) (s : State) (p : Nat) (cs : List Nat) :
    NoMountNew s (AChildren.remove fuel s p cs) := by
  cases cs with
  | nil =>
      unfold AChildren.remove
      dsimp only
      refine noMount_trans
        (noMount_foldl _ (fun t c => onBeforeUnmount_noMount t c)
          (s.comp p).children s) ?_
      exact removeAllLoop_noMount fuel _ _ p
  | cons c0 rest =>
      unfold AChildren.remove
      dsimp only
      refine noMount_trans
        (noMount_foldl _ (fun t c => containedNotify_noMount fuel t p c)
          (c0 :: rest) s) ?_
      exact noMount_foldl _ (fun t c => removeStep_noMount fuel t p c) _ _

theorem detachFromParent_noMount (fuel : Nat) (t : State) (c : Nat) :
    NoMountNew t (detachFromParent fuel t c) := by
  unfold detachFromParent
  split
  · exact remove_noMount fuel t _ [c]
  · exact noMount_refl t

/-- Claim C9, fragment half: AFragmentComponent.append never adds a mount-hook
    event to the trace. -/
theorem fragAppend_noMount (fuel : Nat) (s : State) (f : Nat) (cs : List Nat) :
    NoMountNew s (AFragmentComponent.append fuel s f cs) := by
  unfold AFragmentComponent.append
  split
  · exact noMount_refl s
  · dsimp only
    have h1 := noMount_foldl (fun t c => detachFromParent fuel t c)
      (fun t c => detachFromParent_noMount fuel t c) (uniques cs) s
    have h2 : NoMountNew (List.foldl (fun t c => detachFromParent fuel t c) s (uniques cs))
        ((List.foldl (fun t c => detachFromParent fuel t c) s (uniques cs)).upd f
          (fun k => { k with children := k.children ++ uniques cs })) :=
      noMount_of_log_eq (by simp)
    have h3 := noMount_foldl (fun t c => natAppend t f c)
      (fun t c => ⟨[Ev.nativeInsert f c], by simp [natAppend_log], by simp [isMountEv]⟩)
      (uniques cs)
      ((List.foldl (fun t c => detachFromParent fuel t c) s (uniques cs)).upd f
        (fun k => { k with children := k.children ++ uniques cs }))
    exact noMount_trans (noMount_trans h1 h2) h3

theorem obm_foldl_log (fuel : Nat) (p : Nat) (l : List Nat) (t : State) :
    (l.foldl (fun t c => onBeforeMount fuel t c p) t).log =
      t.log ++ l.map Ev.beforeMount := by
  induction l generalizing t with
  | nil => simp
  | cons c rest ih => simp [ih, obm_log]

theorem odm_foldl_log (p : Nat) (l : List Nat) (t : State) :
    (l.foldl (fun t c => onDidMount t c p) t).log =
      t.log ++ l.map Ev.didMount := by
  induction l generalizing t with
  | nil => simp
  | cons c rest ih => simp [ih, odm_log]

theorem natAppendBatch_log (s : State) (p : Nat) (fd : List Nat) :
    (natAppendBatch s p fd).log = s.log ++ [Ev.batchInsert p] := by
  unfold natAppendBatch
  dsimp only
  have : ∀ (l : List Nat) (t : State),
      (l.foldl (fun t c =>
        (t.upd p (fun k => { k with dom := k.dom ++ [c] })).upd c
          (fun k => { k with domParent := some p })) t).log = t.log := by
    intro l
    induction l with
    | nil => intro t; rfl
    | cons c rest ih => intro t; rw [List.foldl_cons, ih]; simp
  simp [this]

end VanillaTs

namespace VanillaTs

theorem obm_foldl_children (fuel p : Nat) (l : List Nat) (t : State) (x : Nat) :
    ((l.foldl (fun t c => onBeforeMount fuel t c p) t).comp x).children =
      (t.comp x).children := by
  induction l generalizing t with
  | nil => rfl
  | cons c rest ih => rw [List.foldl_cons, ih, obm_children]

theorem odm_foldl_children (p : Nat) (l : List Nat) (t : State) (x : Nat) :
    ((l.foldl (fun t c => onDidMount t c p) t).comp x).children =
      (t.comp x).children := by
  induction l generalizing t with
  | nil => rfl
  | cons c rest ih => rw [List.foldl_cons, ih, odm_children]

/-- Claim C9: appending components to a fragment fires no mount hooks on them;
    a subsequent appendFragment into a container drains the fragment (its
    component list is empty afterwards), attaches the batch with one single
    native insert operation, and fires onBeforeMount/onDidMount exactly once
    per component, in the fragment's original order: the trace grows by
    exactly the beforeMount events in fragment order, one single batchInsert
    event, and the didMount events in fragment order. -/
theorem c9_fragment_batch_mount (fuel : Nat) (s : State) (p f : Nat)
    (cs : List Nat) :
    NoMountNew s (AFragmentComponent.append fuel s f cs) ∧
    ((s.comp f).children ≠ [] → p ≠ f →
      ((AChildren.appendFragment fuel s p f).comp f).children = [] ∧
      (AChildren.appendFragment fuel s p f).log =
        s.log ++ (s.comp f).children.map Ev.beforeMount ++ [Ev.batchInsert p] ++
          (s.comp f).children.map Ev.didMount ∧
      ((s.comp f).children.Nodup → ∀ c ∈ (s.comp f).children,
        ((s.comp f).children.map Ev.beforeMount ++ [Ev.batchInsert p] ++
          (s.comp f).children.map Ev.didMount).count (Ev.beforeMount c) = 1 ∧
        ((s.comp f).children.map Ev.beforeMount ++ [Ev.batchInsert p] ++
          (s.comp f).children.map Ev.didMount).count (Ev.didMount c) = 1)) := by
  constructor
  · exact fragAppend_noMount fuel s f cs
  · intro hne hpf
    have hbm_inj : Function.Injective Ev.beforeMount := by
      intro x y h
      simpa using h
    have hdm_inj : Function.Injective Ev.didMount := by
      intro x y h
      simpa using h
    unfold AChildren.appendFragment
    simp only [hne, if_false]
    refine ⟨?_, ?_, ?_⟩
    · rw [odm_foldl_children, natAppendBatch_children, upd_comp_ne _ p f _ (Ne.symm hpf)]
      rw [obm_foldl_children]
      simp [State.upd]
    · rw [odm_foldl_log]
      rw [natAppendBatch_log]
      simp only [upd_log]
      rw [obm_foldl_log]
      simp [State.upd]
    · intro hnd c hc
      constructor
      · rw [List.count_append, List.count_append]
        rw [List.count_map_of_injective _ _ hbm_inj]
        rw [List.count_eq_one_of_mem hnd hc]
        rw [List.count_singleton']
        rw [List.count_eq_zero_of_not_mem]
        · simp
        · intro hmem
          rcases List.mem_map.1 hmem with ⟨y, _, hy⟩
          exact absurd hy (by simp)
      · rw [List.count_append, List.count_append]
        rw [List.count_map_of_injective _ _ hdm_inj]
        rw [List.count_eq_one_of_mem hnd hc]
        rw [List.count_singleton']
        rw [List.count_eq_zero_of_not_mem]
        · simp
        · intro hmem
          rcases List.mem_map.1 hmem with ⟨y, _, hy⟩
          exact absurd hy (by simp)

/-- Claim C9, witness: filling fragment 7 with the five elements 2..6 fires no
    mount hook, and the hand-off into container 0 empties the fragment and
    logs exactly the five beforeMount events, one batchInsert and the five
    didMount events, in order. -/
theorem c9_witness :
    NoMountNew demo (AFragmentComponent.append 9 demo 7 [2, 3, 4, 5, 6]) ∧
    ((AChildren.appendFragment 9 c9Frag 0 7).comp 7).children = [] ∧
    (AChildren.appendFragment 9 c9Frag 0 7).log =
      c9Frag.log ++ (c9Frag.comp 7).children.map Ev.beforeMount ++
        [Ev.batchInsert 0] ++ (c9Frag.comp 7).children.map Ev.didMount := by
  have h1 := (c9_fragment_batch_mount 9 demo 0 7 [2, 3, 4, 5, 6]).1
  have h2 := (c9_fragment_batch_mount 9 c9Frag 0 7 []).2 (by decide) (by decide)
  exact ⟨h1, h2.1, h2.2.1⟩

end VanillaTs

namespace VanillaTs

/-- Specification of the zero-argument removal loop: it empties the child
    sequence, never touches a disposed flag, clears the parent of every former
    child and leaves the parent of every other component alone. -/
theorem removeAllLoop_spec (fuel : Nat) :
    ∀ (n : Nat) (s : State) (p : Nat),
      (s.comp p).children.length = n → (s.comp p).children.Nodup →
      ((AChildren.removeAllLoop fuel n s p).comp p).children = [] ∧
      (∀ x, ((AChildren.removeAllLoop fuel n s p).comp x).disposed =
        (s.comp x).disposed) ∧
      (∀ x ∈ (s.comp p).children,
        ((AChildren.removeAllLoop fuel n s p).comp x).parent = none) ∧
      (∀ x, x ∉ (s.comp p).children →
        ((AChildren.removeAllLoop fuel n s p).comp x).parent = (s.comp x).parent) := by
  intro n
  induction n with
  | zero =>
      intro s p hlen _
      have hnil : (s.comp p).children = [] := List.length_eq_zero.1 hlen
      unfold AChildren.removeAllLoop
      exact ⟨hnil, fun x => rfl, fun x hx => absurd (hnil ▸ hx) (List.not_mem_nil x),
        fun x _ => rfl⟩
  | succ n ih =>
      intro s p hlen hnd
      have hne : (s.comp p).children ≠ [] := by
        intro h; rw [h] at hlen; simp at hlen
      obtain ⟨c0, hl⟩ : ∃ c0, (s.comp p).children.getLast? = some c0 := by
        cases hhl : (s.comp p).children.getLast? with
        | none => exact absurd (List.getLast?_eq_none_iff.1 hhl) hne
        | some c0 => exact ⟨c0, rfl⟩
      obtain ⟨ys, hys⟩ := List.getLast?_eq_some_iff.1 hl
      unfold AChildren.removeAllLoop
      rw [hl]
      dsimp only
      have hdrop : (s.comp p).children.dropLast = ys := by
        rw [hys]; simp
      have hc0 : c0 ∉ ys := by
        intro hmem
        have : ¬ (ys ++ [c0]).Nodup := by
          intro hndup
          have := List.disjoint_of_nodup_append hndup
          exact this hmem (by simp)
        exact this (hys ▸ hnd)
      have hndys : ys.Nodup := by
        have := hys ▸ hnd
        exact (List.nodup_append.1 this).1
      set D := onDidUnmount fuel
        ((natRemove s p c0).upd p (fun k => { k with children := k.children.dropLast })) c0 with hD
      have hDch : (D.comp p).children = ys := by
        rw [hD]
        rw [odu_children]
        simp [State.upd, hdrop]
      have hDdis : ∀ x, (D.comp x).disposed = (s.comp x).disposed := by
        intro x
        rw [hD, odu_disposed]
        by_cases hx : x = p <;> simp [State.upd, hx]
      have hDct : ∀ x, (D.comp x).ctype = (s.comp x).ctype := by
        intro x
        rw [hD, odu_ctype]
        by_cases hx : x = p <;> simp [State.upd, hx]
      have hDpar_c0 : (D.comp c0).parent = none := by
        rw [hD, odu_parent_self]
      have hDpar : ∀ x, x ≠ c0 → (D.comp x).parent = (s.comp x).parent := by
        intro x hx
        rw [hD, odu_parent_ne _ _ _ _ hx]
        by_cases hx2 : x = p <;> simp [State.upd, hx2]
      have hlen2 : (D.comp p).children.length = n := by
        rw [hDch]
        have : (ys ++ [c0]).length = n + 1 := hys ▸ hlen
        simp at this
        omega
      have hrec := ih D p hlen2 (hDch ▸ hndys)
      refine ⟨hrec.1, ?_, ?_, ?_⟩
      · intro x
        rw [hrec.2.1 x, hDdis x]
      · intro x hx
        rw [hys] at hx
        rcases List.mem_append.1 hx with h | h
        · exact hrec.2.2.1 x (hDch ▸ h)
        · have hxc0 : x = c0 := by simpa using h
          subst hxc0
          rw [hrec.2.2.2 x (hDch ▸ hc0), hDpar_c0]
      · intro x hx
        have hx1 : x ∉ ys := fun h => hx (hys ▸ List.mem_append_left _ h)
        have hx2 : x ≠ c0 := fun h => hx (hys ▸ (h ▸ List.mem_append_right _ (by simp)))
        rw [hrec.2.2.2 x (hDch ▸ hx1), hDpar x hx2]

/-- Specification of the zero-argument AChildren.remove: unmount every child
    without disposing it. -/
theorem remove_empty_spec (fuel : Nat) (s : State) (p : Nat)
    (hnd : (s.comp p).children.Nodup) :
    ((AChildren.remove fuel s p []).comp p).children = [] ∧
    (∀ x, ((AChildren.remove fuel s p []).comp x).disposed = (s.comp x).disposed) ∧
    (∀ x ∈ (s.comp p).children, ((AChildren.remove fuel s p []).comp x).parent = none) := by
  unfold AChildren.remove
  dsimp only
  have hfold : ∀ (l : List Nat) (t : State) (x : Nat),
      ((l.foldl (fun t c => onBeforeUnmount t c) t).comp x) = t.comp x := by
    intro l
    induction l with
    | nil => intro t x; rfl
    | cons c rest ih => intro t x; rw [List.foldl_cons]; rw [ih]; simp
  have hcomp : ∀ x, (((s.comp p).children.foldl (fun t c => onBeforeUnmount t c) s).comp x) = s.comp x :=
    fun x => hfold _ s x
  have hlen : (((s.comp p).children.foldl (fun t c => onBeforeUnmount t c) s).comp p).children.length =
      (s.comp p).children.length := by rw [hcomp p]
  have hspec := removeAllLoop_spec fuel
    ((((s.comp p).children.foldl (fun t c => onBeforeUnmount t c) s).comp p).children.length)
    ((s.comp p).children.foldl (fun t c => onBeforeUnmount t c) s) p
    rfl (by rw [hcomp p]; exact hnd)
  refine ⟨hspec.1, ?_, ?_⟩
  · intro x
    rw [hspec.2.1 x, hcomp x]
  · intro x hx
    exact hspec.2.2.1 x (by rw [hcomp p]; exact hx)

/-- Appending a parent-less component puts it into the target's children. -/
theorem append_mem_of_parentless (fuel : Nat) (s : State) (q c : Nat)
    (hpar : (s.comp c).parent = none) :
    c ∈ ((AChildren.append fuel s q [c]).comp q).children := by
  unfold AChildren.append
  have hu : uniques [c] = [c] := rfl
  simp only [hu, groupByParent, List.foldl_cons, List.foldl_nil, hpar]
  simp only [show ([c] : List Nat) = [] ↔ False by simp, if_false]
  rw [mountLast_children_self]
  simp

end VanillaTs

namespace VanillaTs

theorem obu_foldl_comp (l : List Nat) (t : State) (x : Nat) :
    ((l.foldl (fun t c => onBeforeUnmount t c) t).comp x) = t.comp x := by
  induction l generalizing t with
  | nil => rfl
  | cons c rest ih => rw [List.foldl_cons, ih]; simp

/-- Disposal marks the component itself disposed whenever there is fuel. -/
theorem dispose_disposed_self (fuel : Nat) (hf : 1 ≤ fuel) (s : State) (c : Nat) :
    ((dispose fuel s c).comp c).disposed = true := by
  cases fuel with
  | zero => omega
  | succ f =>
      unfold dispose
      dsimp only
      simp [State.upd]

/-- Nothing in the clear/dispose loop ever resets a disposed flag. -/
theorem clearLoopAux_disposed_mono (fuel : Nat) (d : State → Nat → State)
    (hd : ∀ t c x, (t.comp x).disposed = true → ((d t c).comp x).disposed = true) :
    ∀ (n : Nat) (s : State) (p x : Nat), (s.comp x).disposed = true →
      ((clearLoopAux fuel d n s p).comp x).disposed = true := by
  intro n
  induction n with
  | zero => intro s p x h; exact h
  | succ n ih =>
      intro s p x h
      unfold clearLoopAux
      cases hl : (s.comp p).children.getLast? with
      | none => exact h
      | some c0 =>
          dsimp only
          refine ih _ p x (hd _ c0 x ?_)
          rw [odu_disposed]
          by_cases hx : x = p
          · subst hx; simp [State.upd, h]
          · simp [State.upd, hx, h]

theorem dispose_disposed_mono :
    ∀ (fuel : Nat) (s : State) (c x : Nat), (s.comp x).disposed = true →
      ((dispose fuel s c).comp x).disposed = true := by
  intro fuel
  induction fuel with
  | zero => intro s c x h; exact h
  | succ f ih =>
      intro s c x h
      unfold dispose
      dsimp only
      have hmid : ∀ (u : State), (u.comp x).disposed = true →
          (((natDetach u c).upd c (fun k => { k with disposed := true })).comp x).disposed = true := by
        intro u hu
        by_cases hx : x = c
        · subst hx; simp [State.upd]
        · rw [upd_comp_ne _ c x _ hx]
          simp [hu]
      split
      · refine hmid _ ?_
        unfold clearAux
        refine clearLoopAux_disposed_mono f _ (fun t c0 x0 h0 => ih t c0 x0 h0) _ _ c x ?_
        rw [obu_foldl_comp]
        exact h
      · exact hmid s h

end VanillaTs

namespace VanillaTs

theorem notChildAny_transport {s t : State}
    (hsub : ∀ q, (t.comp q).children.Sublist (s.comp q).children)
    (hct : ∀ q, (t.comp q).ctype = (s.comp q).ctype) {p : Nat}
    (h : NotChildAny s p) : NotChildAny t p := by
  intro q hq hmem
  exact h q ((hct q).symm.trans hq) ((hsub q).subset hmem)

/-- Frame property of the unmount-and-dispose loop, parameterized by the frame
    property of the dispose callback: child sequences only shrink, component
    types never change, and a component that is in no container's child
    sequence and is not the loop target keeps its children and its disposed
    flag. -/
theorem clearLoopAux_frame (fuel : Nat) (d : State → Nat → State)
    (hd : ∀ t c,
      (∀ q, ((d t c).comp q).children.Sublist (t.comp q).children) ∧
      (∀ q, ((d t c).comp q).ctype = (t.comp q).ctype) ∧
      (∀ p, NotChildAny t p → c ≠ p →
        ((d t c).comp p).children = (t.comp p).children ∧
        ((d t c).comp p).disposed = (t.comp p).disposed)) :
    ∀ (n : Nat) (s : State) (p0 : Nat),
      (∀ q, ((clearLoopAux fuel d n s p0).comp q).children.Sublist
        (s.comp q).children) ∧
      (∀ q, ((clearLoopAux fuel d n s p0).comp q).ctype = (s.comp q).ctype) ∧
      (∀ p, NotChildAny s p → p0 ≠ p → (s.comp p0).ctype = CompType.container →
        ((clearLoopAux fuel d n s p0).comp p).children = (s.comp p).children ∧
        ((clearLoopAux fuel d n s p0).comp p).disposed = (s.comp p).disposed) := by
  intro n
  induction n with
  | zero =>
      intro s p0
      exact ⟨fun q => List.Sublist.refl _, fun q => rfl, fun p _ _ _ => ⟨rfl, rfl⟩⟩
  | succ n ih =>
      intro s p0
      unfold clearLoopAux
      cases hl : (s.comp p0).children.getLast? with
      | none =>
          exact ⟨fun q => List.Sublist.refl _, fun q => rfl, fun p _ _ _ => ⟨rfl, rfl⟩⟩
      | some x0 =>
          dsimp only
          have hx0mem : x0 ∈ (s.comp p0).children := by
            obtain ⟨ys, hys⟩ := List.getLast?_eq_some_iff.1 hl
            rw [hys]; simp
          have hDchP0 : ((onDidUnmount fuel ((natRemove s p0 x0).upd p0
              (fun k => { k with children := k.children.dropLast })) x0).comp p0).children =
              (s.comp p0).children.dropLast := by
            rw [odu_children]
            simp [State.upd]
          have hDchEq : ∀ q, q ≠ p0 → ((onDidUnmount fuel ((natRemove s p0 x0).upd p0
              (fun k => { k with children := k.children.dropLast })) x0).comp q).children =
              (s.comp q).children := by
            intro q hq
            rw [odu_children, upd_comp_ne _ p0 q _ hq]
            simp
          have hDsub : ∀ q, ((onDidUnmount fuel ((natRemove s p0 x0).upd p0
              (fun k => { k with children := k.children.dropLast })) x0).comp q).children.Sublist
              (s.comp q).children := by
            intro q
            by_cases hq : q = p0
            · subst hq; rw [hDchP0]; exact List.dropLast_sublist _
            · rw [hDchEq q hq]
          have hDct : ∀ q, ((onDidUnmount fuel ((natRemove s p0 x0).upd p0
              (fun k => { k with children := k.children.dropLast })) x0).comp q).ctype =
              (s.comp q).ctype := by
            intro q
            rw [odu_ctype]
            by_cases hq : q = p0 <;> simp [State.upd, hq]
          have hDdis : ∀ q, ((onDidUnmount fuel ((natRemove s p0 x0).upd p0
              (fun k => { k with children := k.children.dropLast })) x0).comp q).disposed =
              (s.comp q).disposed := by
            intro q
            rw [odu_disposed]
            by_cases hq : q = p0 <;> simp [State.upd, hq]
          obtain ⟨hE1, hE2, hE3⟩ := hd (onDidUnmount fuel ((natRemove s p0 x0).upd p0
            (fun k => { k with children := k.children.dropLast })) x0) x0
          obtain ⟨hL1, hL2, hL3⟩ := ih (d (onDidUnmount fuel ((natRemove s p0 x0).upd p0
            (fun k => { k with children := k.children.dropLast })) x0) x0) p0
          refine ⟨?_, ?_, ?_⟩
          · intro q
            exact ((hL1 q).trans (hE1 q)).trans (hDsub q)
          · intro q
            rw [hL2 q, hE2 q, hDct q]
          · intro p hnc hne hcont
            have hppos : p ∉ (s.comp p0).children := hnc p0 hcont
            have hx0p : x0 ≠ p := fun h => hppos (h ▸ hx0mem)
            have hncD := notChildAny_transport hDsub hDct hnc
            have hE3p := hE3 p hncD hx0p
            have hncE := notChildAny_transport hE1 hE2 hncD
            have hcontE : ((d (onDidUnmount fuel ((natRemove s p0 x0).upd p0
                (fun k => { k with children := k.children.dropLast })) x0) x0).comp p0).ctype =
                CompType.container := by
              rw [hE2 p0, hDct p0]; exact hcont
            have hL3p := hL3 p hncE hne hcontE
            constructor
            · rw [hL3p.1, hE3p.1, hDchEq p (Ne.symm hne)]
            · rw [hL3p.2, hE3p.2, hDdis p]

/-- Frame property of dispose: child sequences only shrink, component types
    never change, and a component that is in no container's child sequence and
    is not the disposed component keeps its children and its disposed flag. -/
theorem dispose_frame :
    ∀ (fuel : Nat) (s : State) (c : Nat),
      (∀ q, ((dispose fuel s c).comp q).children.Sublist (s.comp q).children) ∧
      (∀ q, ((dispose fuel s c).comp q).ctype = (s.comp q).ctype) ∧
      (∀ p, NotChildAny s p → c ≠ p →
        ((dispose fuel s c).comp p).children = (s.comp p).children ∧
        ((dispose fuel s c).comp p).disposed = (s.comp p).disposed) := by
  intro fuel
  induction fuel with
  | zero =>
      intro s c
      exact ⟨fun q => List.Sublist.refl _, fun q => rfl, fun p _ _ => ⟨rfl, rfl⟩⟩
  | succ f ih =>
      intro s c
      unfold dispose
      dsimp only
      have htail : ∀ (u : State),
          (∀ q, (((natDetach u c).upd c (fun k => { k with disposed := true })).comp q).children =
            (u.comp q).children) ∧
          (∀ q, (((natDetach u c).upd c (fun k => { k with disposed := true })).comp q).ctype =
            (u.comp q).ctype) ∧
          (∀ p, c ≠ p →
            (((natDetach u c).upd c (fun k => { k with disposed := true })).comp p).disposed =
            (u.comp p).disposed) := by
        intro u
        refine ⟨?_, ?_, ?_⟩
        · intro q
          by_cases hq : q = c <;> simp [State.upd, hq]
        · intro q
          by_cases hq : q = c <;> simp [State.upd, hq]
        · intro p hp
          rw [upd_comp_ne _ c p _ (Ne.symm hp)]
          simp
      split
      · unfold clearAux
        have hfold : ∀ x, (((s.comp c).children.foldl (fun t c => onBeforeUnmount t c) s).comp x) =
            s.comp x := fun x => obu_foldl_comp _ s x
        obtain ⟨hC1, hC2, hC3⟩ := clearLoopAux_frame f (fun t x => dispose f t x)
          (fun t x => ih t x)
          ((((s.comp c).children.foldl (fun t c => onBeforeUnmount t c) s).comp c).children.length)
          ((s.comp c).children.foldl (fun t c => onBeforeUnmount t c) s) c
        refine ⟨?_, ?_, ?_⟩
        · intro q
          rw [(htail _).1 q]
          have hq := hC1 q
          rw [hfold q] at hq
          exact hq
        · intro q
          rw [(htail _).2.1 q, hC2 q, hfold q]
        · intro p hnc hne
          have hnc2 : NotChildAny ((s.comp c).children.foldl (fun t c => onBeforeUnmount t c) s) p := by
            intro q hq hmem
            rw [hfold q] at hq hmem
            exact hnc q hq hmem
          have hcont : (((s.comp c).children.foldl (fun t c => onBeforeUnmount t c) s).comp c).ctype =
              CompType.container := by
            rw [hfold c]
            assumption
          have h3 := hC3 p hnc2 hne hcont
          constructor
          · rw [(htail _).1 p, h3.1, hfold p]
          · rw [(htail _).2.2 p hne, h3.2, hfold p]
      · refine ⟨?_, ?_, ?_⟩
        · intro q
          rw [(htail s).1 q]
        · intro q
          rw [(htail s).2.1 q]
        · intro p _ hne
          exact ⟨(htail s).1 p, (htail s).2.2 p hne⟩

end VanillaTs

namespace VanillaTs

/-- Every child of a root container is disposed by the clear loop. -/
theorem clearLoopAux_disposes (fuel : Nat) (hf : 1 ≤ fuel) :
    ∀ (n : Nat) (s : State) (p : Nat),
      (s.comp p).children.length = n → (s.comp p).ctype = CompType.container →
      NotChildAny s p →
      ∀ x ∈ (s.comp p).children,
        ((clearLoopAux fuel (fun t c => dispose fuel t c) n s p).comp x).disposed = true := by
  intro n
  induction n with
  | zero =>
      intro s p hlen _ _ x hx
      rw [List.length_eq_zero.1 hlen] at hx
      exact absurd hx (List.not_mem_nil x)
  | succ n ih =>
      intro s p hlen hcont hnc x hx
      have hne : (s.comp p).children ≠ [] := by
        intro h; rw [h] at hlen; simp at hlen
      obtain ⟨x0, hl⟩ : ∃ x0, (s.comp p).children.getLast? = some x0 := by
        cases hhl : (s.comp p).children.getLast? with
        | none => exact absurd (List.getLast?_eq_none_iff.1 hhl) hne
        | some x0 => exact ⟨x0, rfl⟩
      obtain ⟨ys, hys⟩ := List.getLast?_eq_some_iff.1 hl
      have hx0mem : x0 ∈ (s.comp p).children := by rw [hys]; simp
      unfold clearLoopAux
      rw [hl]
      dsimp only
      have hDchP : ((onDidUnmount fuel ((natRemove s p x0).upd p
          (fun k => { k with children := k.children.dropLast })) x0).comp p).children = ys := by
        rw [odu_children]
        simp [State.upd, hys]
      have hDct : ∀ q, ((onDidUnmount fuel ((natRemove s p x0).upd p
          (fun k => { k with children := k.children.dropLast })) x0).comp q).ctype =
          (s.comp q).ctype := by
        intro q
        rw [odu_ctype]
        by_cases hq : q = p <;> simp [State.upd, hq]
      have hDsub : ∀ q, ((onDidUnmount fuel ((natRemove s p x0).upd p
          (fun k => { k with children := k.children.dropLast })) x0).comp q).children.Sublist
          (s.comp q).children := by
        intro q
        rw [odu_children]
        by_cases hq : q = p
        · subst hq
          simp only [State.upd]
          simp
          exact List.dropLast_sublist _
        · rw [upd_comp_ne _ p q _ hq]
          simp
      have hncD := notChildAny_transport hDsub hDct hnc
      have hppos : p ∉ (s.comp p).children := hnc p hcont
      have hx0p : x0 ≠ p := fun h => hppos (h ▸ hx0mem)
      obtain ⟨hE1, hE2, hE3⟩ := dispose_frame fuel (onDidUnmount fuel ((natRemove s p x0).upd p
        (fun k => { k with children := k.children.dropLast })) x0) x0
      have hE3p := hE3 p hncD hx0p
      have hEchp : ((dispose fuel (onDidUnmount fuel ((natRemove s p x0).upd p
          (fun k => { k with children := k.children.dropLast })) x0) x0).comp p).children = ys := by
        rw [hE3p.1, hDchP]
      have hEcont : ((dispose fuel (onDidUnmount fuel ((natRemove s p x0).upd p
          (fun k => { k with children := k.children.dropLast })) x0) x0).comp p).ctype =
          CompType.container := by
        rw [hE2 p, hDct p]; exact hcont
      have hncE := notChildAny_transport hE1 hE2 hncD
      have hlenE : ((dispose fuel (onDidUnmount fuel ((natRemove s p x0).upd p
          (fun k => { k with children := k.children.dropLast })) x0) x0).comp p).children.length = n := by
        rw [hEchp]
        have : (ys ++ [x0]).length = n + 1 := hys ▸ hlen
        simp at this
        omega
      rw [hys] at hx
      rcases List.mem_append.1 hx with hxy | hxx
      · exact ih _ p hlenE hEcont hncE x (hEchp ▸ hxy)
      · have hxeq : x = x0 := by simpa using hxx
        subst hxeq
        refine clearLoopAux_disposed_mono fuel _
          (fun t c0 y h0 => dispose_disposed_mono fuel t c0 y h0) n _ p x ?_
        exact dispose_disposed_self fuel hf _ x

/-- Claim C8: on a well-formed state, for a root container p with child c,
    remove() with no arguments unmounts all children without disposing them
    (c keeps its disposed flag, its parent is cleared, and it can be appended
    to another container afterwards), whereas clear() disposes every child
    (c's disposed flag becomes true). -/
theorem c8_remove_vs_clear (fuel : Nat) (s : State) (p c q : Nat)
    (hf : 1 ≤ fuel) (hwf : WF s)
    (hcont : (s.comp p).ctype = CompType.container)
    (hroot : (s.comp p).parent = none)
    (hm : c ∈ (s.comp p).children) :
    (((runOp fuel s (.remove p [])).comp c).disposed = (s.comp c).disposed ∧
     ((runOp fuel s (.remove p [])).comp c).parent = none ∧
     c ∈ ((runOp fuel (runOp fuel s (.remove p [])) (.append q [c])).comp q).children) ∧
    ((runOp fuel s (.clear p)).comp c).disposed = true := by
  have hnd : (s.comp p).children.Nodup := (hwf.1 p hcont).1
  have hnca : NotChildAny s p := by
    intro q0 hq0 hmem
    have := ((hwf.1 q0 hq0).2.2 p).1 hmem
    rw [hroot] at this
    exact Option.noConfusion this
  constructor
  · have hspec := remove_empty_spec fuel s p hnd
    refine ⟨hspec.2.1 c, hspec.2.2 c hm, ?_⟩
    exact append_mem_of_parentless fuel _ q c (hspec.2.2 c hm)
  · show ((AChildren.clear fuel s p).comp c).disposed = true
    unfold AChildren.clear clearAux
    have hfold : ∀ x, (((s.comp p).children.foldl (fun t c => onBeforeUnmount t c) s).comp x) =
        s.comp x := fun x => obu_foldl_comp _ s x
    refine clearLoopAux_disposes fuel hf _ _ p rfl ?_ ?_ c ?_
    · rw [hfold p]; exact hcont
    · intro q0 hq0 hmem
      rw [hfold q0] at hq0 hmem
      exact hnca q0 hq0 hmem
    · rw [hfold p]; exact hm

end VanillaTs

namespace VanillaTs

theorem mem_uniquesGo (x : Nat) :
    ∀ (l seen : List Nat), x ∈ uniquesGo l seen ↔ (x ∈ l ∧ x ∉ seen) := by
  intro l
  induction l with
  | nil => intro seen; simp [uniquesGo]
  | cons c rest ih =>
      intro seen
      unfold uniquesGo
      by_cases hc : c ∈ seen
      · rw [if_pos hc, ih seen]
        constructor
        · rintro ⟨h1, h2⟩; exact ⟨List.mem_cons_of_mem c h1, h2⟩
        · rintro ⟨h1, h2⟩
          rcases List.mem_cons.1 h1 with rfl | h1
          · exact absurd hc h2
          · exact ⟨h1, h2⟩
      · rw [if_neg hc]
        constructor
        · intro hmem
          rcases List.mem_cons.1 hmem with rfl | hmem
          · exact ⟨List.mem_cons_self x rest, hc⟩
          · rw [ih (c :: seen)] at hmem
            exact ⟨List.mem_cons_of_mem c hmem.1,
              fun hx => hmem.2 (List.mem_cons_of_mem c hx)⟩
        · rintro ⟨h1, h2⟩
          rcases List.mem_cons.1 h1 with rfl | h1
          · exact List.mem_cons_self x _
          · by_cases hxc : x = c
            · subst hxc; exact List.mem_cons_self x _
            · refine List.mem_cons_of_mem c ((ih (c :: seen)).2 ⟨h1, ?_⟩)
              intro hx
              rcases List.mem_cons.1 hx with h | h
              · exact hxc h
              · exact h2 h

theorem mem_uniques (x : Nat) (l : List Nat) : x ∈ uniques l ↔ x ∈ l := by
  unfold uniques
  rw [mem_uniquesGo]
  simp

theorem nodup_uniquesGo :
    ∀ (l seen : List Nat), (uniquesGo l seen).Nodup := by
  intro l
  induction l with
  | nil => intro seen; simp [uniquesGo]
  | cons c rest ih =>
      intro seen
      unfold uniquesGo
      by_cases hc : c ∈ seen
      · rw [if_pos hc]; exact ih seen
      · rw [if_neg hc]
        refine List.nodup_cons.2 ⟨?_, ih (c :: seen)⟩
        intro hmem
        exact ((mem_uniquesGo c rest (c :: seen)).1 hmem).2 (List.mem_cons_self c seen)

theorem nodup_uniques (l : List Nat) : (uniques l).Nodup :=
  nodup_uniquesGo l []

theorem mem_insertBeforeRef (x c ref : Nat) :
    ∀ (l : List Nat), x ∈ insertBeforeRef l ref c ↔ x ∈ l ∨ x = c := by
  intro l
  induction l with
  | nil => simp [insertBeforeRef, Or.comm]
  | cons y rest ih =>
      unfold insertBeforeRef
      by_cases hy : y = ref
      · rw [if_pos hy]
        simp only [List.mem_cons]
        tauto
      · rw [if_neg hy]
        simp only [List.mem_cons, ih]
        tauto

theorem nodup_insertBeforeRef (c ref : Nat) :
    ∀ (l : List Nat), l.Nodup → c ∉ l → (insertBeforeRef l ref c).Nodup := by
  intro l
  induction l with
  | nil => intro _ _; simp [insertBeforeRef]
  | cons y rest ih =>
      intro hnd hc
      unfold insertBeforeRef
      have h1 := List.nodup_cons.1 hnd
      by_cases hy : y = ref
      · rw [if_pos hy]
        exact List.nodup_cons.2 ⟨hc, hnd⟩
      · rw [if_neg hy]
        refine List.nodup_cons.2 ⟨?_, ih h1.2 (fun h => hc (List.mem_cons_of_mem y h))⟩
        rw [mem_insertBeforeRef]
        rintro (h | h)
        · exact h1.1 h
        · exact hc (h ▸ List.mem_cons_self y rest)

theorem insertAt_firstIdx (c ref : Nat) :
    ∀ (l : List Nat), insertAt l (firstIdx l ref) c = insertBeforeRef l ref c := by
  intro l
  induction l with
  | nil => rfl
  | cons y rest ih =>
      unfold firstIdx insertAt insertBeforeRef
      by_cases hy : y = ref
      · rw [if_pos hy, if_pos hy]
      · rw [if_neg hy, if_neg hy]
        show y :: insertAt rest (firstIdx rest ref) c = _
        rw [ih]

theorem firstIdx_insertBeforeRef (c ref : Nat) (hne : c ≠ ref) :
    ∀ (l : List Nat),
      firstIdx (insertBeforeRef l ref c) ref = firstIdx l ref + 1 := by
  intro l
  induction l with
  | nil =>
      show firstIdx [c] ref = 1
      unfold firstIdx
      rw [if_neg hne]
      rfl
  | cons y rest ih =>
      unfold insertBeforeRef
      by_cases hy : y = ref
      · rw [if_pos hy]
        show firstIdx (c :: y :: rest) ref = firstIdx (y :: rest) ref + 1
        conv_lhs => rw [firstIdx]
        rw [if_neg hne]
      · rw [if_neg hy]
        show firstIdx (y :: insertBeforeRef rest ref c) ref = firstIdx (y :: rest) ref + 1
        unfold firstIdx
        rw [if_neg hy, if_neg hy, ih]

theorem mem_firstIdx_lt (ref : Nat) :
    ∀ (l : List Nat), ref ∈ l → firstIdx l ref < l.length := by
  intro l
  induction l with
  | nil => intro h; exact absurd h (List.not_mem_nil ref)
  | cons y rest ih =>
      intro h
      unfold firstIdx
      by_cases hy : y = ref
      · rw [if_pos hy]; simp
      · rw [if_neg hy]
        have : ref ∈ rest := by
          rcases List.mem_cons.1 h with h1 | h1
          · exact absurd h1.symm hy
          · exact h1
        simpa using ih this

theorem erase_concat_self (c : Nat) (ys : List Nat) (hc : c ∉ ys) :
    (ys ++ [c]).erase c = ys := by
  rw [List.erase_append_right _ hc]
  simp

end VanillaTs

namespace VanillaTs

theorem removeStep_dom (fuel : Nat) (t : State) (p c : Nat)
    (hm : c ∈ (t.comp p).children) (hdp : (t.comp c).domParent = some p) (x : Nat) :
    ((AChildren.removeStep fuel t p c).comp x).dom =
      if x = p then (t.comp p).dom.erase c else (t.comp x).dom := by
  unfold AChildren.removeStep
  simp only [hm, if_true]
  rw [odu_dom]
  unfold natRemove
  have hdp2 : (((t.upd p (fun k => { k with children := k.children.erase c })).comp c)).domParent = some p := by
    by_cases hcp : c = p
    · subst hcp; simp [State.upd, hdp]
    · simp [State.upd, hcp, hdp]
  rw [if_pos hdp2]
  by_cases hx : x = p
  · subst hx; by_cases hxc : x = c <;> simp [State.upd, hxc]
  · by_cases hxc : x = c
    · subst hxc; simp [State.upd, hx]
    · simp [State.upd, hx, hxc]

theorem removeStep_domParent (fuel : Nat) (t : State) (p c : Nat)
    (hm : c ∈ (t.comp p).children) (hdp : (t.comp c).domParent = some p) :
    (((AChildren.removeStep fuel t p c).comp c).domParent = none ∧
     ∀ x, x ≠ c → ((AChildren.removeStep fuel t p c).comp x).domParent =
       (t.comp x).domParent) := by
  unfold AChildren.removeStep
  simp only [hm, if_true]
  have hdp2 : (((t.upd p (fun k => { k with children := k.children.erase c })).comp c)).domParent = some p := by
    by_cases hcp : c = p
    · subst hcp; simp [State.upd, hdp]
    · simp [State.upd, hcp, hdp]
  constructor
  · rw [odu_domParent]
    unfold natRemove
    rw [if_pos hdp2]
    simp [State.upd]
  · intro x hx
    rw [odu_domParent]
    unfold natRemove
    rw [if_pos hdp2]
    by_cases hxp : x = p
    · subst hxp; simp [State.upd, hx]
    · simp [State.upd, hx, hxp]

/-- The removal step preserves well-formedness and rewires exactly the removed
    child's parent. -/
theorem wf_removeStep (fuel : Nat) (t : State) (p c : Nat) (hwf : WF t)
    (hcont : (t.comp p).ctype = CompType.container) :
    WF (AChildren.removeStep fuel t p c) ∧
    (∀ x, ((AChildren.removeStep fuel t p c).comp x).parent =
      if x = c ∧ (t.comp c).parent = some p then none else (t.comp x).parent) ∧
    (∀ x, ((AChildren.removeStep fuel t p c).comp x).ctype = (t.comp x).ctype) := by
  obtain ⟨hwf1, hwf2, hwf3⟩ := hwf
  by_cases hm : c ∈ (t.comp p).children
  case neg =>
    rw [removeStep_not_mem fuel t p c hm]
    have hpar : (t.comp c).parent ≠ some p := by
      intro h
      exact hm (((hwf1 p hcont).2.2 c).2 h)
    refine ⟨⟨hwf1, hwf2, hwf3⟩, ?_, fun x => rfl⟩
    intro x
    rw [if_neg]
    rintro ⟨rfl, h2⟩
    exact hpar h2
  case pos =>
    have hparc : (t.comp c).parent = some p := ((hwf1 p hcont).2.2 c).1 hm
    have hdomc : (t.comp c).domParent = some p := by
      refine (hwf3 c p hcont).1 ?_
      rw [← (hwf1 p hcont).2.1]
      exact hm
    have hnd := (hwf1 p hcont).1
    have hdomnd : (t.comp p).dom.Nodup := by
      rw [← (hwf1 p hcont).2.1]; exact hnd
    have hchf := removeStep_children fuel t p c hm
    have hdomf := removeStep_dom fuel t p c hm hdomc
    have hdpf := removeStep_domParent fuel t p c hm hdomc
    have hctf := removeStep_ctype fuel t p c
    have hparf : ∀ x, ((AChildren.removeStep fuel t p c).comp x).parent =
        if x = c then none else (t.comp x).parent := by
      intro x
      by_cases hx : x = c
      · subst hx; rw [if_pos rfl]; exact removeStep_parent_self fuel t p x hm
      · rw [if_neg hx]; exact removeStep_parent_ne fuel t p c x hx
    refine ⟨⟨?_, ?_, ?_⟩, ?_, hctf⟩
    · intro q hq
      rw [hctf q] at hq
      refine ⟨?_, ?_, ?_⟩
      · rw [hchf q]
        split
        · exact hnd.erase c
        · exact (hwf1 q hq).1
      · rw [hchf q, hdomf q]
        by_cases hqp : q = p
        · subst hqp
          rw [if_pos rfl, if_pos rfl, (hwf1 q hq).2.1]
        · rw [if_neg hqp, if_neg hqp, (hwf1 q hq).2.1]
      · intro x
        rw [hchf q, hparf x]
        by_cases hqp : q = p
        · subst hqp
          rw [if_pos rfl]
          constructor
          · intro hmem
            have h2 := (hnd.mem_erase_iff).1 hmem
            rw [if_neg h2.1]
            exact ((hwf1 q hq).2.2 x).1 h2.2
          · intro hmem
            by_cases hx : x = c
            · rw [if_pos hx] at hmem; exact absurd hmem (by simp)
            · rw [if_neg hx] at hmem
              exact (hnd.mem_erase_iff).2 ⟨hx, ((hwf1 q hq).2.2 x).2 hmem⟩
        · rw [if_neg hqp]
          constructor
          · intro hmem
            have hx : x ≠ c := by
              intro h
              subst h
              have := ((hwf1 q hq).2.2 x).1 hmem
              rw [hparc] at this
              exact hqp (by injection this with h2; exact h2.symm) 
            rw [if_neg hx]
            exact ((hwf1 q hq).2.2 x).1 hmem
          · intro hmem
            by_cases hx : x = c
            · rw [if_pos hx] at hmem; exact absurd hmem (by simp)
            · rw [if_neg hx] at hmem
              exact ((hwf1 q hq).2.2 x).2 hmem
    · intro x q hx
      rw [hparf x] at hx
      by_cases hxc : x = c
      · rw [if_pos hxc] at hx; exact absurd hx (by simp)
      · rw [if_neg hxc] at hx
        rw [hctf q]
        exact hwf2 x q hx
    · intro x q hq
      rw [hctf q] at hq
      rw [hdomf q]
      by_cases hqp : q = p
      · subst hqp
        rw [if_pos rfl]
        constructor
        · intro hmem
          have h2 := (hdomnd.mem_erase_iff).1 hmem
          have hx : x ≠ c := h2.1
          rw [(hdpf.2 x hx)]
          exact (hwf3 x q hq).1 h2.2
        · intro hmem
          by_cases hx : x = c
          · subst hx
            rw [hdpf.1] at hmem
            exact absurd hmem (by simp)
          · rw [hdpf.2 x hx] at hmem
            exact (hdomnd.mem_erase_iff).2 ⟨hx, (hwf3 x q hq).2 hmem⟩
      · rw [if_neg hqp]
        constructor
        · intro hmem
          have hx : x ≠ c := by
            intro h
            subst h
            have := (hwf3 x q hq).1 hmem
            rw [hdomc] at this
            exact hqp (by injection this with h2; exact h2.symm)
          rw [hdpf.2 x hx]
          exact (hwf3 x q hq).1 hmem
        · intro hmem
          by_cases hx : x = c
          · subst hx
            rw [hdpf.1] at hmem
            exact absurd hmem (by simp)
          · rw [hdpf.2 x hx] at hmem
            exact (hwf3 x q hq).2 hmem
    · intro x
      rw [hparf x]
      by_cases hx : x = c
      · subst hx
        rw [if_pos rfl, if_pos ⟨rfl, hparc⟩]
      · rw [if_neg hx, if_neg (by rintro ⟨rfl, _⟩; exact hx rfl)]

end VanillaTs

namespace VanillaTs

theorem wf_of_comp_eq {s t : State} (h : ∀ x, t.comp x = s.comp x) (hwf : WF s) :
    WF t := by
  obtain ⟨h1, h2, h3⟩ := hwf
  refine ⟨?_, ?_, ?_⟩ <;> simp only [h]
  · exact h1
  · exact h2
  · exact h3

theorem containedNotify_foldl_comp (fuel p : Nat) (l : List Nat) (t : State)
    (x : Nat) :
    ((l.foldl (fun u c => AChildren.containedNotify fuel u p c) t).comp x) =
      t.comp x := by
  induction l generalizing t with
  | nil => rfl
  | cons c rest ih => rw [List.foldl_cons, ih]; simp

/-- The removal fold preserves well-formedness and clears exactly the parents of
    the direct children among the arguments. -/
theorem removeStep_foldl_spec (fuel p : Nat) :
    ∀ (cs : List Nat) (t : State), WF t →
      (t.comp p).ctype = CompType.container →
      WF (cs.foldl (fun u c => AChildren.removeStep fuel u p c) t) ∧
      (∀ x, ((cs.foldl (fun u c => AChildren.removeStep fuel u p c) t).comp x).parent =
        if x ∈ cs ∧ (t.comp x).parent = some p then none else (t.comp x).parent) ∧
      (∀ x, ((cs.foldl (fun u c => AChildren.removeStep fuel u p c) t).comp x).ctype =
        (t.comp x).ctype) := by
  intro cs
  induction cs with
  | nil =>
      intro t hwf hcont
      exact ⟨hwf, fun x => by simp, fun x => rfl⟩
  | cons c rest ih =>
      intro t hwf hcont
      obtain ⟨hwf1, hpar1, hct1⟩ := wf_removeStep fuel t p c hwf hcont
      have hcont1 : ((AChildren.removeStep fuel t p c).comp p).ctype =
          CompType.container := by rw [hct1 p]; exact hcont
      obtain ⟨hwf2, hpar2, hct2⟩ := ih (AChildren.removeStep fuel t p c) hwf1 hcont1
      rw [List.foldl_cons]
      refine ⟨hwf2, ?_, ?_⟩
      · intro x
        rw [hpar2 x, hpar1 x]
        by_cases hx : x = c
        · subst hx
          by_cases hp : (t.comp x).parent = some p
          · simp [hp]
          · simp [hp]
        · by_cases hp : (t.comp x).parent = some p
          · simp [hx, hp, List.mem_cons]
          · simp [hx, hp, List.mem_cons]
      · intro x
        rw [hct2 x, hct1 x]

/-- The argument form of AChildren.remove preserves well-formedness; it clears
    exactly the parents of the direct children among the arguments and no
    component changes its type. -/
theorem wf_remove_cons (fuel : Nat) (s : State) (p c0 : Nat) (rest : List Nat)
    (hwf : WF s) (hcont : (s.comp p).ctype = CompType.container) :
    WF (AChildren.remove fuel s p (c0 :: rest)) ∧
    (∀ x, ((AChildren.remove fuel s p (c0 :: rest)).comp x).parent =
      if x ∈ c0 :: rest ∧ (s.comp x).parent = some p then none
      else (s.comp x).parent) ∧
    (∀ x, ((AChildren.remove fuel s p (c0 :: rest)).comp x).ctype =
      (s.comp x).ctype) := by
  have hcn : ∀ x,
      (((c0 :: rest).foldl (fun t c => AChildren.containedNotify fuel t p c) s).comp x) =
        s.comp x := fun x => containedNotify_foldl_comp fuel p _ s x
  have hwf1 : WF ((c0 :: rest).foldl (fun t c => AChildren.containedNotify fuel t p c) s) :=
    wf_of_comp_eq hcn hwf
  have hcont1 :
      (((c0 :: rest).foldl (fun t c => AChildren.containedNotify fuel t p c) s).comp p).ctype =
        CompType.container := by rw [hcn p]; exact hcont
  obtain ⟨hwf2, hpar2, hct2⟩ :=
    removeStep_foldl_spec fuel p (c0 :: rest)
      ((c0 :: rest).foldl (fun t c => AChildren.containedNotify fuel t p c) s)
      hwf1 hcont1
  unfold AChildren.remove
  dsimp only
  refine ⟨hwf2, ?_, ?_⟩
  · intro x
    rw [hpar2 x, hcn x]
  · intro x
    rw [hct2 x, hcn x]

end VanillaTs

namespace VanillaTs

theorem addToGroup_keys_sub (q c x : Nat) :
    ∀ gs : List (Nat × List Nat),
      x ∈ (addToGroup gs q c).map Prod.fst → x ∈ gs.map Prod.fst ∨ x = q := by
  intro gs
  induction gs with
  | nil =>
      intro h
      simp [addToGroup] at h
      exact Or.inr h
  | cons pr rest ih =>
      obtain ⟨r, g⟩ := pr
      by_cases hr : r = q
      · subst hr
        intro h
        simp [addToGroup] at h
        simpa using Or.inl h
      · intro h
        simp only [addToGroup, if_neg hr, List.map_cons, List.mem_cons] at h
        rcases h with h | h
        · exact Or.inl (by simp [h])
        · rcases ih h with h2 | h2
          · exact Or.inl (by simp; exact Or.inr (by simpa using h2))
          · exact Or.inr h2

theorem addToGroup_keys_nodup (q c : Nat) :
    ∀ gs : List (Nat × List Nat), (gs.map Prod.fst).Nodup →
      ((addToGroup gs q c).map Prod.fst).Nodup := by
  intro gs
  induction gs with
  | nil => intro _; simp [addToGroup]
  | cons pr rest ih =>
      obtain ⟨r, g⟩ := pr
      intro hnd
      have hnd' : r ∉ rest.map Prod.fst ∧ (rest.map Prod.fst).Nodup := by
        rw [List.map_cons] at hnd
        exact List.nodup_cons.1 hnd
      by_cases hr : r = q
      · subst hr
        simpa [addToGroup] using hnd
      · simp only [addToGroup, if_neg hr, List.map_cons]
        refine List.nodup_cons.2 ⟨?_, ih hnd'.2⟩
        intro hmem
        rcases addToGroup_keys_sub q c r rest hmem with h | h
        · exact hnd'.1 h
        · exact hr h

theorem addToGroup_members (P : Nat → Nat → Prop) (q c : Nat) :
    ∀ gs : List (Nat × List Nat),
      (∀ pr ∈ gs, pr.2 ≠ [] ∧ ∀ x ∈ pr.2, P pr.1 x) → P q c →
      ∀ pr ∈ addToGroup gs q c, pr.2 ≠ [] ∧ ∀ x ∈ pr.2, P pr.1 x := by
  intro gs
  induction gs with
  | nil =>
      intro _ hc pr hpr
      simp [addToGroup] at hpr
      subst hpr
      refine ⟨by simp, ?_⟩
      intro x hx
      simp at hx
      subst hx
      exact hc
  | cons pr0 rest ih =>
      obtain ⟨r, g⟩ := pr0
      intro hgs hc pr hpr
      by_cases hr : r = q
      · subst hr
        simp only [addToGroup, eq_self_iff_true, if_true] at hpr
        rw [List.mem_cons] at hpr
        rcases hpr with h | h
        · subst h
          have hg := hgs (r, g) (by simp)
          refine ⟨by simp, ?_⟩
          intro x hx
          simp only at hx
          rcases List.mem_append.1 hx with h2 | h2
          · exact hg.2 x h2
          · have : x = c := by simpa using h2
            subst this
            exact hc
        · exact hgs pr (by simp [h])
      · simp only [addToGroup, if_neg hr] at hpr
        rw [List.mem_cons] at hpr
        rcases hpr with h | h
        · subst h
          exact hgs (r, g) (by simp)
        · exact ih (fun pr2 hpr2 => hgs pr2 (by simp [hpr2])) hc pr h

theorem addToGroup_mem_mono (q c y : Nat) :
    ∀ gs : List (Nat × List Nat),
      (∃ pr ∈ gs, y ∈ pr.2) → ∃ pr ∈ addToGroup gs q c, y ∈ pr.2 := by
  intro gs
  induction gs with
  | nil =>
      rintro ⟨pr, hpr, _⟩
      exact absurd hpr (List.not_mem_nil pr)
  | cons pr0 rest ih =>
      obtain ⟨r, g⟩ := pr0
      rintro ⟨pr, hpr, hy⟩
      by_cases hr : r = q
      · subst hr
        rcases List.mem_cons.1 hpr with h | h
        · subst h
          exact ⟨(r, g ++ [c]), by simp [addToGroup], by simp; exact Or.inl hy⟩
        · exact ⟨pr, by simp [addToGroup]; exact Or.inr h, hy⟩
      · rcases List.mem_cons.1 hpr with h | h
        · subst h
          exact ⟨(r, g), by simp [addToGroup, hr], hy⟩
        · obtain ⟨pr2, hpr2, hy2⟩ := ih ⟨pr, h, hy⟩
          exact ⟨pr2, by simp [addToGroup, hr, hpr2], hy2⟩

theorem addToGroup_self_mem (q c : Nat) :
    ∀ gs : List (Nat × List Nat), ∃ pr ∈ addToGroup gs q c, pr.1 = q ∧ c ∈ pr.2 := by
  intro gs
  induction gs with
  | nil => exact ⟨(q, [c]), by simp [addToGroup]⟩
  | cons pr0 rest ih =>
      obtain ⟨r, g⟩ := pr0
      by_cases hr : r = q
      · subst hr
        exact ⟨(r, g ++ [c]), by simp [addToGroup]⟩
      · obtain ⟨pr, hpr, h1, h2⟩ := ih
        exact ⟨pr, by simp [addToGroup, hr, hpr], h1, h2⟩

/-- Invariant of the parent-group map build: distinct keys, nonempty groups,
    members carry their key as parent, and every already-grouped or
    parent-bearing processed component is in some group. -/
theorem groupByParent_go (s : State) :
    ∀ (l : List Nat) (gs0 : List (Nat × List Nat)),
      (gs0.map Prod.fst).Nodup →
      (∀ pr ∈ gs0, pr.2 ≠ [] ∧ ∀ x ∈ pr.2, (s.comp x).parent = some pr.1) →
      ((l.foldl (fun gs c =>
          match (s.comp c).parent with
          | some q => addToGroup gs q c
          | none => gs) gs0).map Prod.fst).Nodup ∧
      (∀ pr ∈ l.foldl (fun gs c =>
          match (s.comp c).parent with
          | some q => addToGroup gs q c
          | none => gs) gs0,
        pr.2 ≠ [] ∧ ∀ x ∈ pr.2, (s.comp x).parent = some pr.1) ∧
      (∀ y, ((∃ pr ∈ gs0, y ∈ pr.2) ∨ (y ∈ l ∧ (s.comp y).parent ≠ none)) →
        ∃ pr ∈ l.foldl (fun gs c =>
          match (s.comp c).parent with
          | some q => addToGroup gs q c
          | none => gs) gs0, y ∈ pr.2) := by
  intro l
  induction l with
  | nil =>
      intro gs0 hk hinv
      refine ⟨hk, hinv, ?_⟩
      rintro y (⟨pr, hpr, hy⟩ | ⟨hy, _⟩)
      · exact ⟨pr, hpr, hy⟩
      · exact absurd hy (List.not_mem_nil y)
  | cons c l' ih =>
      intro gs0 hk hinv
      rw [List.foldl_cons]
      cases hpc : (s.comp c).parent with
      | none =>
          simp only [hpc]
          obtain ⟨H1, H2, H3⟩ := ih gs0 hk hinv
          refine ⟨H1, H2, ?_⟩
          rintro y (h | ⟨hy, hp⟩)
          · exact H3 y (Or.inl h)
          · rcases List.mem_cons.1 hy with h | h
            · subst h
              exact absurd hpc hp
            · exact H3 y (Or.inr ⟨h, hp⟩)
      | some q =>
          simp only [hpc]
          have hk' := addToGroup_keys_nodup q c gs0 hk
          have hinv' := addToGroup_members
            (fun k x => (s.comp x).parent = some k) q c gs0 hinv hpc
          obtain ⟨H1, H2, H3⟩ := ih (addToGroup gs0 q c) hk' hinv'
          refine ⟨H1, H2, ?_⟩
          rintro y (h | ⟨hy, hp⟩)
          · exact H3 y (Or.inl (addToGroup_mem_mono q c y gs0 h))
          · rcases List.mem_cons.1 hy with h | h
            · subst h
              obtain ⟨pr, hpr, _, hcm⟩ := addToGroup_self_mem q y gs0
              exact H3 y (Or.inl ⟨pr, hpr, hcm⟩)
            · exact H3 y (Or.inr ⟨h, hp⟩)

theorem addToGroup_members_origin (S : Nat → Prop) (q c : Nat) :
    ∀ gs : List (Nat × List Nat),
      (∀ pr ∈ gs, ∀ x ∈ pr.2, S x) → S c →
      ∀ pr ∈ addToGroup gs q c, ∀ x ∈ pr.2, S x := by
  intro gs
  induction gs with
  | nil =>
      intro _ hc pr hpr x hx
      simp [addToGroup] at hpr
      subst hpr
      have : x = c := by simpa using hx
      subst this
      exact hc
  | cons pr0 rest ih =>
      obtain ⟨r, g⟩ := pr0
      intro hgs hc pr hpr x hx
      by_cases hr : r = q
      · subst hr
        simp only [addToGroup, eq_self_iff_true, if_true] at hpr
        rw [List.mem_cons] at hpr
        rcases hpr with h | h
        · subst h
          rcases List.mem_append.1 hx with h2 | h2
          · exact hgs (r, g) (by simp) x h2
          · have : x = c := by simpa using h2
            subst this
            exact hc
        · exact hgs pr (by simp [h]) x hx
      · simp only [addToGroup, if_neg hr] at hpr
        rw [List.mem_cons] at hpr
        rcases hpr with h | h
        · subst h
          exact hgs (r, g) (by simp) x hx
        · exact ih (fun pr2 hpr2 => hgs pr2 (by simp [hpr2])) hc pr h x hx

theorem groupByParent_members_origin (s : State) (S : Nat → Prop) :
    ∀ (l : List Nat) (gs0 : List (Nat × List Nat)),
      (∀ c ∈ l, S c) →
      (∀ pr ∈ gs0, ∀ x ∈ pr.2, S x) →
      ∀ pr ∈ l.foldl (fun gs c =>
          match (s.comp c).parent with
          | some q => addToGroup gs q c
          | none => gs) gs0,
        ∀ x ∈ pr.2, S x := by
  intro l
  induction l with
  | nil => intro gs0 _ hinv; exact hinv
  | cons c l' ih =>
      intro gs0 hl hinv
      rw [List.foldl_cons]
      cases hpc : (s.comp c).parent with
      | none =>
          simp only [hpc]
          exact ih gs0 (fun x hx => hl x (by simp [hx])) hinv
      | some q =>
          simp only [hpc]
          exact ih (addToGroup gs0 q c)
            (fun x hx => hl x (by simp [hx]))
            (addToGroup_members_origin S q c gs0 hinv (hl c (by simp)))

/-- The groupwise-removal fold of append/insert preserves well-formedness and
    clears the parents of exactly the grouped components. -/
theorem wf_groupRemove_foldl (fuel : Nat) :
    ∀ (gs : List (Nat × List Nat)) (t : State), WF t →
      ((gs.map Prod.fst).Nodup) →
      (∀ pr ∈ gs, pr.2 ≠ [] ∧ ∀ c ∈ pr.2, (t.comp c).parent = some pr.1) →
      WF (gs.foldl (fun u pr => AChildren.remove fuel u pr.1 pr.2) t) ∧
      (∀ x, ((gs.foldl (fun u pr => AChildren.remove fuel u pr.1 pr.2) t).comp x).ctype =
        (t.comp x).ctype) ∧
      (∀ pr ∈ gs, ∀ c ∈ pr.2,
        ((gs.foldl (fun u pr => AChildren.remove fuel u pr.1 pr.2) t).comp c).parent = none) ∧
      (∀ x, (∀ pr ∈ gs, x ∉ pr.2) →
        ((gs.foldl (fun u pr => AChildren.remove fuel u pr.1 pr.2) t).comp x).parent =
          (t.comp x).parent) := by
  intro gs
  induction gs with
  | nil =>
      intro t hwf _ _
      exact ⟨hwf, fun x => rfl, fun pr hpr => absurd hpr (List.not_mem_nil pr),
        fun x _ => rfl⟩
  | cons pr0 rest ih =>
      obtain ⟨q, g⟩ := pr0
      intro t hwf hkeys hinv
      have hg := hinv (q, g) (by simp)
      obtain ⟨c0, g', rfl⟩ := List.exists_cons_of_ne_nil hg.1
      have hcq : (t.comp q).ctype = CompType.container :=
        hwf.2.1 c0 q (hg.2 c0 (by simp))
      obtain ⟨hwf', hpar', hct'⟩ := wf_remove_cons fuel t q c0 g' hwf hcq
      have hkq : q ∉ rest.map Prod.fst ∧ (rest.map Prod.fst).Nodup := by
        rw [List.map_cons] at hkeys
        exact List.nodup_cons.1 hkeys
      have hinv' : ∀ pr ∈ rest, pr.2 ≠ [] ∧
          ∀ c ∈ pr.2, ((AChildren.remove fuel t q (c0 :: g')).comp c).parent = some pr.1 := by
        intro pr hpr
        have h0 := hinv pr (by simp [hpr])
        refine ⟨h0.1, ?_⟩
        intro c hc
        rw [hpar' c]
        have hpt := h0.2 c hc
        have hne : pr.1 ≠ q := by
          intro h
          exact hkq.1 (h ▸ List.mem_map_of_mem Prod.fst hpr)
        rw [if_neg]
        · exact hpt
        · rintro ⟨_, h2⟩
          rw [hpt] at h2
          exact hne (by injection h2)
      obtain ⟨HWF, HCT, H3, H4⟩ :=
        ih (AChildren.remove fuel t q (c0 :: g')) hwf' hkq.2 hinv'
      rw [List.foldl_cons]
      refine ⟨HWF, ?_, ?_, ?_⟩
      · intro x
        rw [HCT x, hct' x]
      · intro pr hpr c hc
        rcases List.mem_cons.1 hpr with h | h
        · subst h
          have hnotrest : ∀ pr' ∈ rest, c ∉ pr'.2 := by
            intro pr' hpr' hcmem
            have h1 := (hinv pr' (by simp [hpr'])).2 c hcmem
            have h2 := hg.2 c hc
            rw [h2] at h1
            have : pr'.1 = q := by injection h1 with h3; exact h3.symm
            exact hkq.1 (this ▸ List.mem_map_of_mem Prod.fst hpr')
          rw [H4 c hnotrest, hpar' c]
          rw [if_pos ⟨hc, hg.2 c hc⟩]
        · exact H3 pr h c hc
      · intro x hx
        have hxrest : ∀ pr ∈ rest, x ∉ pr.2 := fun pr hpr => hx pr (by simp [hpr])
        rw [H4 x hxrest, hpar' x]
        rw [if_neg]
        rintro ⟨h1, _⟩
        exact hx (q, c0 :: g') (by simp) h1

end VanillaTs

namespace VanillaTs

/-- The groupwise-removal preamble of append/insert preserves well-formedness,
    preserves component types and leaves every argument parent-less. -/
theorem wf_groupRemove (fuel : Nat) (s : State) (u : List Nat) (hwf : WF s) :
    WF ((groupByParent s u).foldl (fun t pr => AChildren.remove fuel t pr.1 pr.2) s) ∧
    (∀ x, (((groupByParent s u).foldl
        (fun t pr => AChildren.remove fuel t pr.1 pr.2) s).comp x).ctype =
      (s.comp x).ctype) ∧
    (∀ c ∈ u, (((groupByParent s u).foldl
        (fun t pr => AChildren.remove fuel t pr.1 pr.2) s).comp c).parent = none) ∧
    (∀ x, x ∉ u → (((groupByParent s u).foldl
        (fun t pr => AChildren.remove fuel t pr.1 pr.2) s).comp x).parent =
      (s.comp x).parent) := by
  obtain ⟨HK, HI, HM⟩ := groupByParent_go s u []
    (by simp) (fun pr hpr => absurd hpr (List.not_mem_nil pr))
  have HO := groupByParent_members_origin s (fun y => y ∈ u) u []
    (fun c hc => hc) (fun pr hpr => absurd hpr (List.not_mem_nil pr))
  obtain ⟨HWF, HCT, H3, H4⟩ := wf_groupRemove_foldl fuel (groupByParent s u) s hwf HK HI
  refine ⟨HWF, HCT, ?_, ?_⟩
  · intro c hc
    by_cases hp : (s.comp c).parent = none
    · have hnot : ∀ pr ∈ groupByParent s u, c ∉ pr.2 := by
        intro pr hpr hcm
        have h2 := (HI pr hpr).2 c hcm
        rw [hp] at h2
        cases h2
      rw [H4 c hnot, hp]
    · obtain ⟨pr, hpr, hcm⟩ := HM c (Or.inr ⟨hc, hp⟩)
      exact H3 pr hpr c hcm
  · intro x hx
    have hnot : ∀ pr ∈ groupByParent s u, x ∉ pr.2 := by
      intro pr hpr hcm
      exact hx (HO pr hpr x hcm)
    exact H4 x hnot

theorem natDetach_dom (s : State) (c x : Nat) :
    ((natDetach s c).comp x).dom =
      if (s.comp c).domParent = some x then (s.comp x).dom.erase c
      else (s.comp x).dom := by
  unfold natDetach
  cases h : (s.comp c).domParent with
  | none => simp [h]
  | some q =>
      by_cases hx : x = q
      · subst hx
        rw [if_pos rfl]
        by_cases hxc : x = c <;> simp [State.upd, hxc]
      · rw [if_neg (fun h2 => hx (by injection h2 with h3; exact h3.symm))]
        by_cases hxc : x = c
        · subst hxc; simp [State.upd, hx]
        · simp [State.upd, hx, hxc]

theorem natDetach_domParent (s : State) (c x : Nat) :
    ((natDetach s c).comp x).domParent =
      if x = c then none else (s.comp x).domParent := by
  unfold natDetach
  cases h : (s.comp c).domParent with
  | none =>
      by_cases hx : x = c
      · subst hx; simp [h]
      · simp [hx]
  | some q =>
      by_cases hx : x = c
      · subst hx; simp [State.upd]
      · by_cases hxq : x = q
        · subst hxq; simp [State.upd, hx]
        · simp [State.upd, hx, hxq]

theorem natAppend_dom2 (s : State) (p c x : Nat) :
    ((natAppend s p c).comp x).dom =
      if x = p then ((natDetach s c).comp p).dom ++ [c]
      else ((natDetach s c).comp x).dom := by
  unfold natAppend
  dsimp only
  by_cases hx : x = p
  · subst hx
    by_cases hxc : x = c <;> simp [State.upd, hxc]
  · by_cases hxc : x = c
    · subst hxc; simp [State.upd, hx]
    · simp [State.upd, hx, hxc]

theorem natAppend_domParent2 (s : State) (p c x : Nat) :
    ((natAppend s p c).comp x).domParent =
      if x = c then some p else ((natDetach s c).comp x).domParent := by
  unfold natAppend
  dsimp only
  by_cases hxc : x = c
  · subst hxc; simp [State.upd]
  · by_cases hxp : x = p
    · subst hxp; simp [State.upd, hxc]
    · simp [State.upd, hxc, hxp]

theorem mountLast_dom (fuel : Nat) (t : State) (p c x : Nat)
    (hdp : (t.comp c).domParent ≠ some p) :
    ((AChildren.mountLast fuel t p c).comp x).dom =
      if x = p then (t.comp p).dom ++ [c]
      else if (t.comp c).domParent = some x then (t.comp x).dom.erase c
      else (t.comp x).dom := by
  unfold AChildren.mountLast
  dsimp only
  rw [odm_dom, natAppend_dom2, natDetach_dom, natDetach_dom]
  have hc2 : (((onBeforeMount fuel t c p).upd p
      (fun k => { k with children := k.children ++ [c] })).comp c).domParent =
      (t.comp c).domParent := by
    by_cases hcp : c = p <;> simp [State.upd, hcp]
  have hdom2 : ∀ y, (((onBeforeMount fuel t c p).upd p
      (fun k => { k with children := k.children ++ [c] })).comp y).dom =
      (t.comp y).dom := by
    intro y
    by_cases hyp : y = p <;> simp [State.upd, hyp]
  rw [hc2, hdom2, hdom2]
  by_cases hx : x = p
  · subst hx
    rw [if_pos rfl, if_pos rfl, if_neg hdp]
  · rw [if_neg hx, if_neg hx]

theorem mountLast_domParent (fuel : Nat) (t : State) (p c x : Nat) :
    ((AChildren.mountLast fuel t p c).comp x).domParent =
      if x = c then some p else (t.comp x).domParent := by
  unfold AChildren.mountLast
  dsimp only
  rw [odm_domParent, natAppend_domParent2, natDetach_domParent]
  by_cases hx : x = c
  · rw [if_pos hx, if_pos hx]
  · rw [if_neg hx, if_neg hx, if_neg hx]
    by_cases hxp : x = p <;> simp [State.upd, hxp]

end VanillaTs

namespace VanillaTs

/-- Mounting a parent-less component at the end of a container preserves
    well-formedness; the component's parent becomes the container and no other
    parent or type changes. -/
theorem wf_mountLast (fuel : Nat) (t : State) (p c : Nat) (hwf : WF t)
    (hcont : (t.comp p).ctype = CompType.container)
    (hpar : (t.comp c).parent = none) :
    WF (AChildren.mountLast fuel t p c) ∧
    (∀ x, ((AChildren.mountLast fuel t p c).comp x).ctype = (t.comp x).ctype) ∧
    (∀ x, ((AChildren.mountLast fuel t p c).comp x).parent =
      if x = c then some p else (t.comp x).parent) := by
  obtain ⟨hwf1, hwf2, hwf3⟩ := hwf
  have hF1 : ∀ q, (t.comp q).ctype = CompType.container →
      c ∉ (t.comp q).children := by
    intro q hq hmem
    have h2 := ((hwf1 q hq).2.2 c).1 hmem
    rw [hpar] at h2
    cases h2
  have hF2 : ∀ q, (t.comp q).ctype = CompType.container →
      (t.comp c).domParent ≠ some q := by
    intro q hq h2
    have h3 := (hwf3 c q hq).2 h2
    rw [← (hwf1 q hq).2.1] at h3
    exact hF1 q hq h3
  have hdomf := fun x => mountLast_dom fuel t p c x (hF2 p hcont)
  have hdpf := fun x => mountLast_domParent fuel t p c x
  have hctf := fun x => mountLast_ctype fuel t p c x
  have hparf : ∀ x, ((AChildren.mountLast fuel t p c).comp x).parent =
      if x = c then some p else (t.comp x).parent := by
    intro x
    by_cases hx : x = c
    · subst hx; rw [if_pos rfl]; exact mountLast_parent_self fuel t p x
    · rw [if_neg hx]; exact mountLast_parent_ne fuel t p c x hx
  have hchf : ∀ x, ((AChildren.mountLast fuel t p c).comp x).children =
      if x = p then (t.comp p).children ++ [c] else (t.comp x).children := by
    intro x
    by_cases hx : x = p
    · subst hx; rw [if_pos rfl]; exact mountLast_children_self fuel t x c
    · rw [if_neg hx]; exact mountLast_children_ne fuel t p c x hx
  refine ⟨⟨?_, ?_, ?_⟩, hctf, hparf⟩
  · intro q hq
    rw [hctf q] at hq
    refine ⟨?_, ?_, ?_⟩
    · rw [hchf q]
      split
      · rename_i hqp
        subst hqp
        rw [List.nodup_append]
        refine ⟨(hwf1 q hq).1, by simp, ?_⟩
        intro a ha hb
        have : a = c := by simpa using hb
        subst this
        exact hF1 q hq ha
      · exact (hwf1 q hq).1
    · rw [hchf q, hdomf q]
      by_cases hqp : q = p
      · subst hqp
        rw [if_pos rfl, if_pos rfl, (hwf1 q hq).2.1]
      · rw [if_neg hqp, if_neg hqp, if_neg (hF2 q hq), (hwf1 q hq).2.1]
    · intro x
      rw [hchf q, hparf x]
      by_cases hqp : q = p
      · subst hqp
        rw [if_pos rfl]
        by_cases hx : x = c
        · subst hx
          rw [if_pos rfl]
          simp
        · rw [if_neg hx]
          constructor
          · intro hmem
            rcases List.mem_append.1 hmem with h | h
            · exact ((hwf1 q hq).2.2 x).1 h
            · exact absurd (by simpa using h) hx
          · intro hmem
            exact List.mem_append_left _ (((hwf1 q hq).2.2 x).2 hmem)
      · rw [if_neg hqp]
        by_cases hx : x = c
        · subst hx
          rw [if_pos rfl]
          constructor
          · intro hmem
            exact absurd hmem (hF1 q hq)
          · intro hmem
            exact absurd (by injection hmem with h2; exact h2.symm) hqp
        · rw [if_neg hx]
          exact (hwf1 q hq).2.2 x
  · intro x q hx
    rw [hparf x] at hx
    rw [hctf q]
    by_cases hxc : x = c
    · rw [if_pos hxc] at hx
      have : q = p := by injection hx with h2; exact h2.symm
      subst this
      exact hcont
    · rw [if_neg hxc] at hx
      exact hwf2 x q hx
  · intro x q hq
    rw [hctf q] at hq
    rw [hdomf q, hdpf x]
    by_cases hqp : q = p
    · subst hqp
      rw [if_pos rfl]
      by_cases hx : x = c
      · subst hx
        rw [if_pos rfl]
        simp
      · rw [if_neg hx]
        constructor
        · intro hmem
          rcases List.mem_append.1 hmem with h | h
          · exact (hwf3 x q hq).1 h
          · exact absurd (by simpa using h) hx
        · intro hmem
          exact List.mem_append_left _ ((hwf3 x q hq).2 hmem)
    · rw [if_neg hqp, if_neg (hF2 q hq)]
      by_cases hx : x = c
      · subst hx
        rw [if_pos rfl]
        constructor
        · intro hmem
          exact absurd ((hwf3 x q hq).1 hmem) (hF2 q hq)
        · intro hmem
          exact absurd (by injection hmem with h2; exact h2.symm) hqp
      · rw [if_neg hx]
        exact hwf3 x q hq

end VanillaTs

namespace VanillaTs

theorem wf_mountLast_foldl (fuel p : Nat) :
    ∀ (l : List Nat) (t : State), WF t →
      (t.comp p).ctype = CompType.container →
      (∀ c ∈ l, (t.comp c).parent = none) → l.Nodup →
      WF (l.foldl (fun u c => AChildren.mountLast fuel u p c) t) ∧
      (∀ x, ((l.foldl (fun u c => AChildren.mountLast fuel u p c) t).comp x).ctype =
        (t.comp x).ctype) := by
  intro l
  induction l with
  | nil => intro t hwf _ _ _; exact ⟨hwf, fun x => rfl⟩
  | cons c l' ih =>
      intro t hwf hcont hpar hnd
      obtain ⟨hwf1, hct1, hpar1⟩ :=
        wf_mountLast fuel t p c hwf hcont (hpar c (by simp))
      have hnd' := List.nodup_cons.1 hnd
      have hcont1 : ((AChildren.mountLast fuel t p c).comp p).ctype =
          CompType.container := by rw [hct1 p]; exact hcont
      have hpar' : ∀ c' ∈ l', ((AChildren.mountLast fuel t p c).comp c').parent = none := by
        intro c' hc'
        rw [hpar1 c', if_neg (fun h : c' = c => hnd'.1 (h ▸ hc'))]
        exact hpar c' (by simp [hc'])
      obtain ⟨HWF, HCT⟩ := ih (AChildren.mountLast fuel t p c) hwf1 hcont1 hpar' hnd'.2
      rw [List.foldl_cons]
      exact ⟨HWF, fun x => by rw [HCT x, hct1 x]⟩

/-- AChildren.append preserves well-formedness and component types. -/
theorem wf_append (fuel : Nat) (s : State) (p : Nat) (cs : List Nat) (hwf : WF s)
    (hcont : (s.comp p).ctype = CompType.container) :
    WF (AChildren.append fuel s p cs) ∧
    (∀ x, ((AChildren.append fuel s p cs).comp x).ctype = (s.comp x).ctype) := by
  unfold AChildren.append
  by_cases hcs : cs = []
  · rw [if_pos hcs]
    exact ⟨hwf, fun x => rfl⟩
  · rw [if_neg hcs]
    dsimp only
    obtain ⟨HWF0, HCT0, HP0, _⟩ := wf_groupRemove fuel s (uniques cs) hwf
    have hcont0 : (((groupByParent s (uniques cs)).foldl
        (fun t pr => AChildren.remove fuel t pr.1 pr.2) s).comp p).ctype =
        CompType.container := by rw [HCT0 p]; exact hcont
    obtain ⟨HWF1, HCT1⟩ := wf_mountLast_foldl fuel p (uniques cs)
      ((groupByParent s (uniques cs)).foldl
        (fun t pr => AChildren.remove fuel t pr.1 pr.2) s)
      HWF0 hcont0 HP0 (nodup_uniques cs)
    exact ⟨HWF1, fun x => by rw [HCT1 x, HCT0 x]⟩

end VanillaTs

namespace VanillaTs

theorem natInsertBefore_dom2 (s : State) (p r c x : Nat) :
    ((natInsertBefore s p r c).comp x).dom =
      if x = p then insertBeforeRef ((natDetach s c).comp p).dom r c
      else ((natDetach s c).comp x).dom := by
  unfold natInsertBefore
  dsimp only
  by_cases hx : x = p
  · subst hx
    by_cases hxc : x = c <;> simp [State.upd, hxc]
  · by_cases hxc : x = c
    · subst hxc; simp [State.upd, hx]
    · simp [State.upd, hx, hxc]

theorem natInsertBefore_domParent2 (s : State) (p r c x : Nat) :
    ((natInsertBefore s p r c).comp x).domParent =
      if x = c then some p else ((natDetach s c).comp x).domParent := by
  unfold natInsertBefore
  dsimp only
  by_cases hxc : x = c
  · subst hxc; simp [State.upd]
  · by_cases hxp : x = p
    · subst hxp; simp [State.upd, hxc]
    · simp [State.upd, hxc, hxp]

theorem mountAt_dom (fuel : Nat) (t : State) (k p ib c x : Nat)
    (hdp : (t.comp c).domParent ≠ some p) :
    (((AChildren.mountAt fuel (t, k) p ib c).1).comp x).dom =
      if x = p then insertBeforeRef (t.comp p).dom ib c
      else if (t.comp c).domParent = some x then (t.comp x).dom.erase c
      else (t.comp x).dom := by
  unfold AChildren.mountAt
  dsimp only
  rw [odm_dom, natInsertBefore_dom2, natDetach_dom, natDetach_dom]
  have hc2 : (((onBeforeMount fuel t c p).upd p
      (fun j => { j with children := insertAt j.children k c })).comp c).domParent =
      (t.comp c).domParent := by
    by_cases hcp : c = p <;> simp [State.upd, hcp]
  have hdom2 : ∀ y, (((onBeforeMount fuel t c p).upd p
      (fun j => { j with children := insertAt j.children k c })).comp y).dom =
      (t.comp y).dom := by
    intro y
    by_cases hyp : y = p <;> simp [State.upd, hyp]
  rw [hc2, hdom2, hdom2]
  by_cases hx : x = p
  · subst hx
    rw [if_pos rfl, if_pos rfl, if_neg hdp]
  · rw [if_neg hx, if_neg hx]

theorem mountAt_domParent (fuel : Nat) (t : State) (k p ib c x : Nat) :
    (((AChildren.mountAt fuel (t, k) p ib c).1).comp x).domParent =
      if x = c then some p else (t.comp x).domParent := by
  unfold AChildren.mountAt
  dsimp only
  rw [odm_domParent, natInsertBefore_domParent2, natDetach_domParent]
  by_cases hx : x = c
  · rw [if_pos hx, if_pos hx]
  · rw [if_neg hx, if_neg hx, if_neg hx]
    by_cases hxp : x = p <;> simp [State.upd, hxp]

theorem mountAt_children (fuel : Nat) (t : State) (k p ib c x : Nat) :
    (((AChildren.mountAt fuel (t, k) p ib c).1).comp x).children =
      if x = p then insertAt (t.comp p).children k c else (t.comp x).children := by
  unfold AChildren.mountAt
  dsimp only
  rw [odm_children]
  by_cases hx : x = p
  · subst hx
    by_cases hxc : x = c <;> simp [State.upd, hxc]
  · by_cases hxc : x = c
    · subst hxc; simp [State.upd, hx]
    · simp [State.upd, hx, hxc]

theorem mountAt_parent (fuel : Nat) (t : State) (k p ib c x : Nat) :
    (((AChildren.mountAt fuel (t, k) p ib c).1).comp x).parent =
      if x = c then some p else (t.comp x).parent := by
  unfold AChildren.mountAt
  dsimp only
  by_cases hx : x = c
  · subst hx
    simp [onDidMount, State.upd]
  · rw [odm_comp_ne _ c p x hx]
    by_cases hxp : x = p
    · subst hxp; simp [State.upd, hx]
    · simp [State.upd, hx, hxp]

theorem mountAt_ctype (fuel : Nat) (t : State) (k p ib c x : Nat) :
    (((AChildren.mountAt fuel (t, k) p ib c).1).comp x).ctype = (t.comp x).ctype := by
  unfold AChildren.mountAt
  dsimp only
  rw [odm_ctype]
  by_cases hxc : x = c
  · subst hxc
    by_cases hxp : x = p <;> simp [State.upd, hxp]
  · by_cases hxp : x = p <;> simp [State.upd, hxc, hxp]

theorem mountAt_idx (fuel : Nat) (t : State) (k p ib c : Nat) :
    (AChildren.mountAt fuel (t, k) p ib c).2 = k + 1 := rfl

end VanillaTs

namespace VanillaTs

/-- Mounting a parent-less component before the reference child preserves
    well-formedness when the running splice index is the reference child's
    index; logical and native order change identically. -/
theorem wf_mountAt (fuel : Nat) (t : State) (k p ib c : Nat) (hwf : WF t)
    (hcont : (t.comp p).ctype = CompType.container)
    (hpar : (t.comp c).parent = none)
    (hib : ib ∈ (t.comp p).children) (hcib : c ≠ ib)
    (hk : k = firstIdx (t.comp p).children ib) :
    WF ((AChildren.mountAt fuel (t, k) p ib c).1) ∧
    (∀ x, (((AChildren.mountAt fuel (t, k) p ib c).1).comp x).ctype =
      (t.comp x).ctype) ∧
    (∀ x, (((AChildren.mountAt fuel (t, k) p ib c).1).comp x).parent =
      if x = c then some p else (t.comp x).parent) ∧
    (((AChildren.mountAt fuel (t, k) p ib c).1).comp p).children =
      insertBeforeRef (t.comp p).children ib c := by
  obtain ⟨hwf1, hwf2, hwf3⟩ := hwf
  have hF1 : ∀ q, (t.comp q).ctype = CompType.container →
      c ∉ (t.comp q).children := by
    intro q hq hmem
    have h2 := ((hwf1 q hq).2.2 c).1 hmem
    rw [hpar] at h2
    cases h2
  have hF2 : ∀ q, (t.comp q).ctype = CompType.container →
      (t.comp c).domParent ≠ some q := by
    intro q hq h2
    have h3 := (hwf3 c q hq).2 h2
    rw [← (hwf1 q hq).2.1] at h3
    exact hF1 q hq h3
  have hdomf := fun x => mountAt_dom fuel t k p ib c x (hF2 p hcont)
  have hdpf := fun x => mountAt_domParent fuel t k p ib c x
  have hctf := fun x => mountAt_ctype fuel t k p ib c x
  have hparf := fun x => mountAt_parent fuel t k p ib c x
  have hchp : (((AChildren.mountAt fuel (t, k) p ib c).1).comp p).children =
      insertBeforeRef (t.comp p).children ib c := by
    rw [mountAt_children, if_pos rfl, hk, insertAt_firstIdx]
  have hchf : ∀ x, (((AChildren.mountAt fuel (t, k) p ib c).1).comp x).children =
      if x = p then insertBeforeRef (t.comp p).children ib c
      else (t.comp x).children := by
    intro x
    by_cases hx : x = p
    · subst hx; rw [if_pos rfl]; exact hchp
    · rw [if_neg hx, mountAt_children, if_neg hx]
  refine ⟨⟨?_, ?_, ?_⟩, hctf, hparf, hchp⟩
  · intro q hq
    rw [hctf q] at hq
    refine ⟨?_, ?_, ?_⟩
    · rw [hchf q]
      split
      · rename_i hqp
        subst hqp
        exact nodup_insertBeforeRef c ib _ (hwf1 q hq).1 (hF1 q hq)
      · exact (hwf1 q hq).1
    · rw [hchf q, hdomf q]
      by_cases hqp : q = p
      · subst hqp
        rw [if_pos rfl, if_pos rfl, (hwf1 q hq).2.1]
      · rw [if_neg hqp, if_neg hqp, if_neg (hF2 q hq), (hwf1 q hq).2.1]
    · intro x
      rw [hchf q, hparf x]
      by_cases hqp : q = p
      · subst hqp
        rw [if_pos rfl]
        by_cases hx : x = c
        · subst hx
          rw [if_pos rfl]
          constructor
          · intro _; rfl
          · intro _; exact (mem_insertBeforeRef x x ib _).2 (Or.inr rfl)
        · rw [if_neg hx]
          rw [mem_insertBeforeRef]
          constructor
          · rintro (h | h)
            · exact ((hwf1 q hq).2.2 x).1 h
            · exact absurd h hx
          · intro hmem
            exact Or.inl (((hwf1 q hq).2.2 x).2 hmem)
      · rw [if_neg hqp]
        by_cases hx : x = c
        · subst hx
          rw [if_pos rfl]
          constructor
          · intro hmem
            exact absurd hmem (hF1 q hq)
          · intro hmem
            exact absurd (by injection hmem with h2; exact h2.symm) hqp
        · rw [if_neg hx]
          exact (hwf1 q hq).2.2 x
  · intro x q hx
    rw [hparf x] at hx
    rw [hctf q]
    by_cases hxc : x = c
    · rw [if_pos hxc] at hx
      have : q = p := by injection hx with h2; exact h2.symm
      subst this
      exact hcont
    · rw [if_neg hxc] at hx
      exact hwf2 x q hx
  · intro x q hq
    rw [hctf q] at hq
    rw [hdomf q, hdpf x]
    by_cases hqp : q = p
    · subst hqp
      rw [if_pos rfl]
      by_cases hx : x = c
      · subst hx
        rw [if_pos rfl]
        constructor
        · intro _; rfl
        · intro _; exact (mem_insertBeforeRef x x ib _).2 (Or.inr rfl)
      · rw [if_neg hx, mem_insertBeforeRef]
        constructor
        · rintro (h | h)
          · exact (hwf3 x q hq).1 h
          · exact absurd h hx
        · intro hmem
          exact Or.inl ((hwf3 x q hq).2 hmem)
    · rw [if_neg hqp, if_neg (hF2 q hq)]
      by_cases hx : x = c
      · subst hx
        rw [if_pos rfl]
        constructor
        · intro hmem
          exact absurd ((hwf3 x q hq).1 hmem) (hF2 q hq)
        · intro hmem
          exact absurd (by injection hmem with h2; exact h2.symm) hqp
      · rw [if_neg hx]
        exact hwf3 x q hq

end VanillaTs

namespace VanillaTs

theorem wf_mountAt_foldl (fuel p ib : Nat) :
    ∀ (l : List Nat) (t : State) (k : Nat), WF t →
      (t.comp p).ctype = CompType.container →
      (∀ c ∈ l, (t.comp c).parent = none) → l.Nodup → ib ∉ l →
      ib ∈ (t.comp p).children → k = firstIdx (t.comp p).children ib →
      WF ((l.foldl (fun acc c => AChildren.mountAt fuel acc p ib c) (t, k)).1) ∧
      (∀ x, (((l.foldl (fun acc c => AChildren.mountAt fuel acc p ib c) (t, k)).1).comp x).ctype =
        (t.comp x).ctype) := by
  intro l
  induction l with
  | nil => intro t k hwf _ _ _ _ _ _; exact ⟨hwf, fun x => rfl⟩
  | cons c l' ih =>
      intro t k hwf hcont hpar hnd hibl hib hk
      have hcib : c ≠ ib := fun h => hibl (by simp [h.symm])
      obtain ⟨hwf1, hct1, hpar1, hch1⟩ :=
        wf_mountAt fuel t k p ib c hwf hcont (hpar c (by simp)) hib hcib hk
      have hnd' := List.nodup_cons.1 hnd
      have hstep : AChildren.mountAt fuel (t, k) p ib c =
          ((AChildren.mountAt fuel (t, k) p ib c).1, k + 1) := rfl
      rw [List.foldl_cons, hstep]
      have hcont1 : (((AChildren.mountAt fuel (t, k) p ib c).1).comp p).ctype =
          CompType.container := by rw [hct1 p]; exact hcont
      have hpar' : ∀ c' ∈ l',
          (((AChildren.mountAt fuel (t, k) p ib c).1).comp c').parent = none := by
        intro c' hc'
        rw [hpar1 c', if_neg (fun h : c' = c => hnd'.1 (h ▸ hc'))]
        exact hpar c' (by simp [hc'])
      have hib1 : ib ∈ (((AChildren.mountAt fuel (t, k) p ib c).1).comp p).children := by
        rw [hch1, mem_insertBeforeRef]
        exact Or.inl hib
      have hk1 : k + 1 =
          firstIdx ((((AChildren.mountAt fuel (t, k) p ib c).1).comp p).children) ib := by
        rw [hch1, firstIdx_insertBeforeRef c ib hcib, ← hk]
      have hibl' : ib ∉ l' := fun h => hibl (by simp [h])
      obtain ⟨HWF, HCT⟩ := ih ((AChildren.mountAt fuel (t, k) p ib c).1) (k + 1)
        hwf1 hcont1 hpar' hnd'.2 hibl' hib1 hk1
      exact ⟨HWF, fun x => by rw [HCT x, hct1 x]⟩

/-- The shared insertion tail preserves well-formedness when the reference
    child is a child of the container and not among the arguments. -/
theorem wf_insertCore (fuel : Nat) (s : State) (p ib : Nat) (cs : List Nat)
    (hwf : WF s) (hcont : (s.comp p).ctype = CompType.container)
    (hib : ib ∈ (s.comp p).children) (hibcs : ib ∉ cs) :
    WF (AChildren.insertCore fuel s p ib cs) ∧
    (∀ x, ((AChildren.insertCore fuel s p ib cs).comp x).ctype =
      (s.comp x).ctype) := by
  unfold AChildren.insertCore
  dsimp only
  obtain ⟨HWF0, HCT0, HP0, HF0⟩ := wf_groupRemove fuel s (uniques cs) hwf
  have hibu : ib ∉ uniques cs := fun h => hibcs ((mem_uniques ib cs).1 h)
  have hcont0 : (((groupByParent s (uniques cs)).foldl
      (fun t pr => AChildren.remove fuel t pr.1 pr.2) s).comp p).ctype =
      CompType.container := by rw [HCT0 p]; exact hcont
  have hib0 : ib ∈ (((groupByParent s (uniques cs)).foldl
      (fun t pr => AChildren.remove fuel t pr.1 pr.2) s).comp p).children := by
    have hpib : (s.comp ib).parent = some p := ((hwf.1 p hcont).2.2 ib).1 hib
    have hpib0 := (HF0 ib hibu).trans hpib
    exact ((HWF0.1 p hcont0).2.2 ib).2 hpib0
  obtain ⟨HWF1, HCT1⟩ := wf_mountAt_foldl fuel p ib (uniques cs)
    ((groupByParent s (uniques cs)).foldl
      (fun t pr => AChildren.remove fuel t pr.1 pr.2) s)
    (firstIdx (((groupByParent s (uniques cs)).foldl
      (fun t pr => AChildren.remove fuel t pr.1 pr.2) s).comp p).children ib)
    HWF0 hcont0 HP0 (nodup_uniques cs) hibu hib0 rfl
  exact ⟨HWF1, fun x => by rw [HCT1 x, HCT0 x]⟩

/-- AChildren.insert preserves well-formedness and component types in every
    branch, including the structural-error and no-op branches. -/
theorem wf_insert (fuel : Nat) (s : State) (p : Nat) (a : AChildren.At)
    (cs : List Nat) (hwf : WF s)
    (hcont : (s.comp p).ctype = CompType.container) :
    WF (AChildren.insert fuel s p a cs).1 ∧
    (∀ x, (((AChildren.insert fuel s p a cs).1).comp x).ctype =
      (s.comp x).ctype) := by
  unfold AChildren.insert
  by_cases hcs : cs = []
  · rw [if_pos hcs]
    exact ⟨hwf, fun x => rfl⟩
  · rw [if_neg hcs]
    by_cases hch : (s.comp p).children = []
    · rw [if_pos hch]
      exact wf_append fuel s p cs hwf hcont
    · rw [if_neg hch]
      cases a with
      | num i =>
          dsimp only
          by_cases hneg : i < 0
          · rw [if_pos hneg]
            by_cases hmem : (s.comp p).children.headD 0 ∈ cs
            · rw [if_pos hmem]
              exact ⟨hwf, fun x => rfl⟩
            · rw [if_neg hmem]
              have hib : (s.comp p).children.headD 0 ∈ (s.comp p).children := by
                obtain ⟨y, ys, hl⟩ := List.exists_cons_of_ne_nil hch
                rw [hl]
                simp
              exact wf_insertCore fuel s p _ cs hwf hcont hib hmem
          · rw [if_neg hneg]
            by_cases hlen : ((s.comp p).children.length : Int) ≤ i
            · rw [if_pos hlen]
              exact wf_append fuel s p cs hwf hcont
            · rw [if_neg hlen]
              by_cases hmem : (s.comp p).children.getD i.toNat 0 ∈ cs
              · rw [if_pos hmem]
                exact ⟨hwf, fun x => rfl⟩
              · rw [if_neg hmem]
                have hlt : i.toNat < (s.comp p).children.length := by omega
                have hib : (s.comp p).children.getD i.toNat 0 ∈ (s.comp p).children := by
                  rw [List.getD_eq_getElem _ _ hlt]
                  exact List.getElem_mem hlt
                exact wf_insertCore fuel s p _ cs hwf hcont hib hmem
      | ref a0 =>
          dsimp only
          by_cases hmem : a0 ∈ cs
          · rw [if_pos hmem]
            exact ⟨hwf, fun x => rfl⟩
          · rw [if_neg hmem]
            by_cases hina : a0 ∈ (s.comp p).children
            · rw [if_pos hina]
              exact wf_insertCore fuel s p a0 cs hwf hcont hina hmem
            · rw [if_neg hina]
              exact ⟨hwf, fun x => rfl⟩

end VanillaTs

namespace VanillaTs

theorem state_eq {s t : State} (hc : ∀ x, s.comp x = t.comp x)
    (hl : s.log = t.log) : s = t := by
  cases s
  cases t
  simp only [State.mk.injEq]
  exact ⟨funext hc, hl⟩

theorem upd_dropLast_eq_erase (s : State) (p c0 : Nat) (ys : List Nat)
    (hch : (s.comp p).children = ys ++ [c0]) (hc0 : c0 ∉ ys) :
    s.upd p (fun k => { k with children := k.children.dropLast }) =
      s.upd p (fun k => { k with children := k.children.erase c0 }) := by
  refine state_eq ?_ rfl
  intro x
  by_cases hx : x = p
  · subst hx
    simp only [State.upd, if_pos rfl]
    rw [hch, erase_concat_self c0 ys hc0]
    simp
  · simp [State.upd, hx]

theorem dropLast_natRemove_comm (s : State) (p c0 : Nat) (ys : List Nat)
    (hch : (s.comp p).children = ys ++ [c0]) (hc0 : c0 ∉ ys) :
    (natRemove s p c0).upd p (fun k => { k with children := k.children.dropLast }) =
      natRemove (s.upd p (fun k => { k with children := k.children.erase c0 })) p c0 := by
  unfold natRemove
  have hdpeq : ((s.upd p (fun k => { k with children := k.children.erase c0 })).comp c0).domParent =
      (s.comp c0).domParent := by
    by_cases hcp : c0 = p <;> simp [State.upd, hcp]
  rw [hdpeq]
  by_cases hdp : (s.comp c0).domParent = some p
  · rw [if_pos hdp, if_pos hdp]
    refine state_eq ?_ (by simp [State.upd, State.addLog])
    intro x
    by_cases hxp : x = p
    · by_cases hxc : x = c0
      · have hpc : p = c0 := hxp.symm.trans hxc
        subst hpc
        simp [State.upd, State.addLog, hxp, hch,
          erase_concat_self p ys hc0, List.dropLast_concat]
      · have hpc : ¬ p = c0 := fun h => hxc (hxp.trans h)
        simp [State.upd, State.addLog, hxp, hxc, hpc, hch,
          erase_concat_self c0 ys hc0, List.dropLast_concat]
    · by_cases hxc : x = c0
      · have hpc : ¬ c0 = p := fun h => hxp (hxc.trans h)
        simp [State.upd, State.addLog, hxp, hxc, hpc]
      · simp [State.upd, State.addLog, hxp, hxc]
  · rw [if_neg hdp, if_neg hdp]
    exact upd_dropLast_eq_erase s p c0 ys hch hc0

theorem removeAllLoop_step (fuel n : Nat) (s : State) (p c0 : Nat) (ys : List Nat)
    (hch : (s.comp p).children = ys ++ [c0]) (hc0 : c0 ∉ ys) :
    AChildren.removeAllLoop fuel (n + 1) s p =
      AChildren.removeAllLoop fuel n (AChildren.removeStep fuel s p c0) p := by
  have hl : (s.comp p).children.getLast? = some c0 := by
    rw [hch]
    simp
  have hmem : c0 ∈ (s.comp p).children := by
    rw [hch]
    simp
  conv_lhs => rw [AChildren.removeAllLoop]
  rw [hl]
  dsimp only
  rw [dropLast_natRemove_comm s p c0 ys hch hc0]
  unfold AChildren.removeStep
  rw [if_pos hmem]

theorem wf_removeAllLoop (fuel : Nat) :
    ∀ (n : Nat) (s : State) (p : Nat), WF s →
      (s.comp p).ctype = CompType.container →
      WF (AChildren.removeAllLoop fuel n s p) ∧
      (∀ x, ((AChildren.removeAllLoop fuel n s p).comp x).ctype =
        (s.comp x).ctype) := by
  intro n
  induction n with
  | zero =>
      intro s p hwf _
      unfold AChildren.removeAllLoop
      exact ⟨hwf, fun x => rfl⟩
  | succ n ih =>
      intro s p hwf hcont
      cases hl : (s.comp p).children.getLast? with
      | none =>
          unfold AChildren.removeAllLoop
          rw [hl]
          exact ⟨hwf, fun x => rfl⟩
      | some c0 =>
          obtain ⟨ys, hys⟩ := List.getLast?_eq_some_iff.1 hl
          have hnd := (hwf.1 p hcont).1
          have hc0 : c0 ∉ ys := by
            intro hmem
            have : ¬ (ys ++ [c0]).Nodup := by
              intro hndup
              exact (List.disjoint_of_nodup_append hndup) hmem (by simp)
            exact this (hys ▸ hnd)
          rw [removeAllLoop_step fuel n s p c0 ys hys hc0]
          obtain ⟨hwf1, _, hct1⟩ := wf_removeStep fuel s p c0 hwf hcont
          have hcont1 : ((AChildren.removeStep fuel s p c0).comp p).ctype =
              CompType.container := by rw [hct1 p]; exact hcont
          obtain ⟨HWF, HCT⟩ := ih (AChildren.removeStep fuel s p c0) p hwf1 hcont1
          exact ⟨HWF, fun x => by rw [HCT x, hct1 x]⟩

/-- AChildren.remove preserves well-formedness and component types in both the
    zero-argument and the argument form. -/
theorem wf_remove (fuel : Nat) (s : State) (p : Nat) (cs : List Nat)
    (hwf : WF s) (hcont : (s.comp p).ctype = CompType.container) :
    WF (AChildren.remove fuel s p cs) ∧
    (∀ x, ((AChildren.remove fuel s p cs).comp x).ctype = (s.comp x).ctype) := by
  cases cs with
  | nil =>
      unfold AChildren.remove
      dsimp only
      have hcomp := fun x => obu_foldl_comp ((s.comp p).children) s x
      have hwf0 : WF ((s.comp p).children.foldl (fun t c => onBeforeUnmount t c) s) :=
        wf_of_comp_eq hcomp hwf
      have hcont0 : (((s.comp p).children.foldl (fun t c => onBeforeUnmount t c) s).comp p).ctype =
          CompType.container := by rw [hcomp p]; exact hcont
      obtain ⟨HWF, HCT⟩ := wf_removeAllLoop fuel _ _ p hwf0 hcont0
      exact ⟨HWF, fun x => by rw [HCT x, hcomp x]⟩
  | cons c0 rest =>
      obtain ⟨HWF, _, HCT⟩ := wf_remove_cons fuel s p c0 rest hwf hcont
      exact ⟨HWF, HCT⟩

end VanillaTs

namespace VanillaTs

theorem extractStep_fst (fuel : Nat) (acc : State × List Nat) (p c : Nat) :
    (AChildren.extractStep fuel acc p c).1 = AChildren.removeStep fuel acc.1 p c := by
  unfold AChildren.extractStep AChildren.removeStep
  by_cases hmem : c ∈ (acc.1.comp p).children <;> simp [hmem]

theorem extractStep_foldl_fst (fuel p : Nat) :
    ∀ (l : List Nat) (acc : State × List Nat),
      ((l.foldl (fun a c => AChildren.extractStep fuel a p c) acc).1) =
        l.foldl (fun t c => AChildren.removeStep fuel t p c) acc.1 := by
  intro l
  induction l with
  | nil => intro acc; rfl
  | cons c l' ih =>
      intro acc
      rw [List.foldl_cons, List.foldl_cons, ih, extractStep_fst]

theorem extractAllLoop_step (fuel n : Nat) (s : State) (p c0 : Nat)
    (acc : List Nat) (ys : List Nat)
    (hch : (s.comp p).children = ys ++ [c0]) (hc0 : c0 ∉ ys) :
    AChildren.extractAllLoop fuel (n + 1) s p acc =
      AChildren.extractAllLoop fuel n (AChildren.removeStep fuel s p c0) p
        (acc ++ [c0]) := by
  have hl : (s.comp p).children.getLast? = some c0 := by
    rw [hch]; simp
  have hmem : c0 ∈ (s.comp p).children := by
    rw [hch]; simp
  conv_lhs => rw [AChildren.extractAllLoop]
  rw [hl]
  dsimp only
  rw [upd_dropLast_eq_erase s p c0 ys hch hc0]
  unfold AChildren.removeStep
  rw [if_pos hmem]

theorem wf_extractAllLoop (fuel : Nat) :
    ∀ (n : Nat) (s : State) (p : Nat) (acc : List Nat), WF s →
      (s.comp p).ctype = CompType.container →
      WF (AChildren.extractAllLoop fuel n s p acc).1 ∧
      (∀ x, (((AChildren.extractAllLoop fuel n s p acc).1).comp x).ctype =
        (s.comp x).ctype) := by
  intro n
  induction n with
  | zero =>
      intro s p acc hwf _
      unfold AChildren.extractAllLoop
      exact ⟨hwf, fun x => rfl⟩
  | succ n ih =>
      intro s p acc hwf hcont
      cases hl : (s.comp p).children.getLast? with
      | none =>
          unfold AChildren.extractAllLoop
          rw [hl]
          exact ⟨hwf, fun x => rfl⟩
      | some c0 =>
          obtain ⟨ys, hys⟩ := List.getLast?_eq_some_iff.1 hl
          have hnd := (hwf.1 p hcont).1
          have hc0 : c0 ∉ ys := by
            intro hmem
            have : ¬ (ys ++ [c0]).Nodup := by
              intro hndup
              exact (List.disjoint_of_nodup_append hndup) hmem (by simp)
            exact this (hys ▸ hnd)
          rw [extractAllLoop_step fuel n s p c0 acc ys hys hc0]
          obtain ⟨hwf1, _, hct1⟩ := wf_removeStep fuel s p c0 hwf hcont
          have hcont1 : ((AChildren.removeStep fuel s p c0).comp p).ctype =
              CompType.container := by rw [hct1 p]; exact hcont
          obtain ⟨HWF, HCT⟩ := ih (AChildren.removeStep fuel s p c0) p (acc ++ [c0])
            hwf1 hcont1
          exact ⟨HWF, fun x => by rw [HCT x, hct1 x]⟩

/-- AChildren.extract preserves well-formedness and component types in both
    forms. -/
theorem wf_extract (fuel : Nat) (s : State) (p : Nat) (cs : List Nat)
    (hwf : WF s) (hcont : (s.comp p).ctype = CompType.container) :
    WF (AChildren.extract fuel s p cs).1 ∧
    (∀ x, (((AChildren.extract fuel s p cs).1).comp x).ctype =
      (s.comp x).ctype) := by
  cases cs with
  | nil =>
      unfold AChildren.extract
      dsimp only
      have hcomp := fun x => obu_foldl_comp ((s.comp p).children) s x
      have hwf0 : WF ((s.comp p).children.foldl (fun t c => onBeforeUnmount t c) s) :=
        wf_of_comp_eq hcomp hwf
      have hcont0 : (((s.comp p).children.foldl
          (fun t c => onBeforeUnmount t c) s).comp p).ctype =
          CompType.container := by rw [hcomp p]; exact hcont
      obtain ⟨HWF, HCT⟩ := wf_extractAllLoop fuel _ _ p [] hwf0 hcont0
      exact ⟨HWF, fun x => by rw [HCT x, hcomp x]⟩
  | cons c0 rest =>
      unfold AChildren.extract
      dsimp only
      rw [extractStep_foldl_fst]
      have hcn := fun x => containedNotify_foldl_comp fuel p (uniques (c0 :: rest)) s x
      have hwf0 : WF ((uniques (c0 :: rest)).foldl
          (fun t c => AChildren.containedNotify fuel t p c) s) :=
        wf_of_comp_eq hcn hwf
      have hcont0 : (((uniques (c0 :: rest)).foldl
          (fun t c => AChildren.containedNotify fuel t p c) s).comp p).ctype =
          CompType.container := by rw [hcn p]; exact hcont
      obtain ⟨HWF, _, HCT⟩ := removeStep_foldl_spec fuel p (uniques (c0 :: rest)) _
        hwf0 hcont0
      exact ⟨HWF, fun x => by rw [HCT x, hcn x]⟩

/-- AChildren.moveTo preserves well-formedness and component types, including
    the structural-error branch. -/
theorem wf_moveTo (fuel : Nat) (s : State) (p target : Nat) (cs : List Nat)
    (hwf : WF s) (hcont : (s.comp p).ctype = CompType.container)
    (hcontT : (s.comp target).ctype = CompType.container) :
    WF (AChildren.moveTo fuel s p target cs).1 ∧
    (∀ x, (((AChildren.moveTo fuel s p target cs).1).comp x).ctype =
      (s.comp x).ctype) := by
  unfold AChildren.moveTo
  by_cases ht : target = p
  · rw [if_pos ht]
    exact ⟨hwf, fun x => rfl⟩
  · rw [if_neg ht]
    dsimp only
    obtain ⟨HWF0, HCT0⟩ := wf_extract fuel s p cs hwf hcont
    have hcontT0 : (((AChildren.extract fuel s p cs).1).comp target).ctype =
        CompType.container := by rw [HCT0 target]; exact hcontT
    obtain ⟨HWF1, HCT1⟩ := wf_append fuel (AChildren.extract fuel s p cs).1 target
      (AChildren.extract fuel s p cs).2 HWF0 hcontT0
    exact ⟨HWF1, fun x => by rw [HCT1 x, HCT0 x]⟩

/-- AChildren.moveToAt preserves well-formedness and component types, including
    the structural-error branches. -/
theorem wf_moveToAt (fuel : Nat) (s : State) (p target : Nat) (a : AChildren.At)
    (cs : List Nat) (hwf : WF s)
    (hcont : (s.comp p).ctype = CompType.container)
    (hcontT : (s.comp target).ctype = CompType.container) :
    WF (AChildren.moveToAt fuel s p target a cs).1 ∧
    (∀ x, (((AChildren.moveToAt fuel s p target a cs).1).comp x).ctype =
      (s.comp x).ctype) := by
  unfold AChildren.moveToAt
  by_cases ht : target = p
  · rw [if_pos ht]
    exact ⟨hwf, fun x => rfl⟩
  · rw [if_neg ht]
    have hcore : ∀ z : AChildren.At,
        WF (AChildren.insert fuel (AChildren.extract fuel s p cs).1 target z
          (AChildren.extract fuel s p cs).2).1 ∧
        (∀ x, (((AChildren.insert fuel (AChildren.extract fuel s p cs).1 target z
          (AChildren.extract fuel s p cs).2).1).comp x).ctype = (s.comp x).ctype) := by
      intro z
      obtain ⟨HWF0, HCT0⟩ := wf_extract fuel s p cs hwf hcont
      have hcontT0 : (((AChildren.extract fuel s p cs).1).comp target).ctype =
          CompType.container := by rw [HCT0 target]; exact hcontT
      obtain ⟨HWF1, HCT1⟩ := wf_insert fuel (AChildren.extract fuel s p cs).1 target z
        (AChildren.extract fuel s p cs).2 HWF0 hcontT0
      exact ⟨HWF1, fun x => by rw [HCT1 x, HCT0 x]⟩
    cases a with
    | ref a0 =>
        dsimp only
        by_cases hin : a0 ∈ (s.comp target).children
        · rw [if_pos hin]
          exact hcore (.ref a0)
        · rw [if_neg hin]
          exact ⟨hwf, fun x => rfl⟩
    | num i =>
        dsimp only
        exact hcore (.num i)

end VanillaTs

namespace VanillaTs

theorem mem_insertAllBeforeRef (x ref : Nat) (cs : List Nat) :
    ∀ (l : List Nat), x ∈ insertAllBeforeRef l ref cs ↔ x ∈ l ∨ x ∈ cs := by
  intro l
  induction l with
  | nil => simp [insertAllBeforeRef, Or.comm]
  | cons y rest ih =>
      unfold insertAllBeforeRef
      by_cases hy : y = ref
      · rw [if_pos hy]
        simp only [List.mem_append, List.mem_cons]
        tauto
      · rw [if_neg hy]
        simp only [List.mem_cons, ih]
        tauto

theorem nodup_insertAllBeforeRef (ref : Nat) (cs : List Nat) :
    ∀ (l : List Nat), l.Nodup → cs.Nodup → (∀ c ∈ cs, c ∉ l) →
      (insertAllBeforeRef l ref cs).Nodup := by
  intro l
  induction l with
  | nil => intro _ hcs _; simpa [insertAllBeforeRef] using hcs
  | cons y rest ih =>
      intro hnd hcs hdisj
      have h1 := List.nodup_cons.1 hnd
      unfold insertAllBeforeRef
      by_cases hy : y = ref
      · rw [if_pos hy]
        rw [List.nodup_append]
        refine ⟨hcs, hnd, ?_⟩
        intro a ha hb
        exact hdisj a ha hb
      · rw [if_neg hy]
        refine List.nodup_cons.2 ⟨?_, ih h1.2 hcs
          (fun c hc hmem => hdisj c hc (List.mem_cons_of_mem y hmem))⟩
        rw [mem_insertAllBeforeRef]
        rintro (h | h)
        · exact h1.1 h
        · exact hdisj y h (List.mem_cons_self y rest)

theorem insertAllAt_eq_insertAllBeforeRef (cs : List Nat) :
    ∀ (l : List Nat) (index : Nat), l.Nodup → index < l.length →
      insertAllAt l index cs = insertAllBeforeRef l (l.getD index 0) cs := by
  intro l
  induction l with
  | nil =>
      intro index _ hlt
      simp at hlt
  | cons y rest ih =>
      intro index hnd hlt
      have h1 := List.nodup_cons.1 hnd
      cases index with
      | zero =>
          unfold insertAllAt insertAllBeforeRef
          simp only [List.getD_cons_zero]
          simp
      | succ k =>
          unfold insertAllAt insertAllBeforeRef
          simp only [List.getD_cons_succ]
          have hklt : k < rest.length := by simpa using hlt
          have hy : y ≠ rest.getD k 0 := by
            intro h
            apply h1.1
            rw [h, List.getD_eq_getElem _ _ hklt]
            exact List.getElem_mem hklt
          rw [if_neg hy, ih k h1.2 hklt]

theorem cflag_foldl2 (g : State → Nat → State)
    (hg : ∀ t ch, CFlagOnly t (g t ch)) :
    ∀ (l : List Nat) (t : State), CFlagOnly t (l.foldl g t) := by
  intro l
  induction l with
  | nil => intro t; exact cflag_refl t
  | cons c rest ih =>
      intro t
      exact cflag_trans (hg t c) (ih (g t c))

theorem obm_foldl_cflag (fuel p : Nat) (l : List Nat) (t : State) :
    CFlagOnly t (l.foldl (fun u c => onBeforeMount fuel u c p) t) :=
  cflag_foldl2 _ (fun u c => obm_cflag fuel u c p) l t

theorem odm_foldl_parent (p : Nat) :
    ∀ (l : List Nat) (t : State) (x : Nat),
      ((l.foldl (fun u c => onDidMount u c p) t).comp x).parent =
        if x ∈ l then some p else (t.comp x).parent := by
  intro l
  induction l with
  | nil => intro t x; simp
  | cons c l' ih =>
      intro t x
      rw [List.foldl_cons, ih]
      by_cases hx : x ∈ l'
      · rw [if_pos hx, if_pos (by simp [hx])]
      · rw [if_neg hx]
        by_cases hxc : x = c
        · subst hxc
          rw [if_pos (by simp), odm_comp_self]
        · rw [if_neg (by simp [hxc, hx]), odm_comp_ne _ c p x hxc]

theorem odm_foldl_dom (p : Nat) :
    ∀ (l : List Nat) (t : State) (x : Nat),
      ((l.foldl (fun u c => onDidMount u c p) t).comp x).dom = (t.comp x).dom := by
  intro l
  induction l with
  | nil => intro t x; rfl
  | cons c l' ih => intro t x; rw [List.foldl_cons, ih]; simp

theorem odm_foldl_domParent (p : Nat) :
    ∀ (l : List Nat) (t : State) (x : Nat),
      ((l.foldl (fun u c => onDidMount u c p) t).comp x).domParent =
        (t.comp x).domParent := by
  intro l
  induction l with
  | nil => intro t x; rfl
  | cons c l' ih => intro t x; rw [List.foldl_cons, ih]; simp

theorem odm_foldl_ctype (p : Nat) :
    ∀ (l : List Nat) (t : State) (x : Nat),
      ((l.foldl (fun u c => onDidMount u c p) t).comp x).ctype =
        (t.comp x).ctype := by
  intro l
  induction l with
  | nil => intro t x; rfl
  | cons c l' ih => intro t x; rw [List.foldl_cons, ih]; simp

theorem natAppendBatch_dom (p : Nat) :
    ∀ (fd : List Nat) (t : State) (x : Nat),
      ((natAppendBatch t p fd).comp x).dom =
        if x = p then (t.comp p).dom ++ fd else (t.comp x).dom := by
  have hgo : ∀ (fd : List Nat) (t : State) (x : Nat),
      ((fd.foldl (fun u c =>
        (u.upd p (fun k => { k with dom := k.dom ++ [c] })).upd c
          (fun k => { k with domParent := some p })) t).comp x).dom =
      if x = p then (t.comp p).dom ++ fd else (t.comp x).dom := by
    intro fd
    induction fd with
    | nil => intro t x; by_cases hx : x = p <;> simp [hx]
    | cons c fd' ih =>
        intro t x
        rw [List.foldl_cons, ih]
        by_cases hx : x = p
        · subst hx
          rw [if_pos rfl, if_pos rfl]
          by_cases hcp : x = c
          · subst hcp; simp [State.upd]
          · simp [State.upd, hcp]
        · rw [if_neg hx, if_neg hx]
          by_cases hxc : x = c
          · subst hxc; simp [State.upd, hx]
          · simp [State.upd, hx, hxc]
  intro fd t x
  unfold natAppendBatch
  rw [addLog_comp]
  exact hgo fd t x

theorem natAppendBatch_domParent (p : Nat) :
    ∀ (fd : List Nat) (t : State) (x : Nat),
      ((natAppendBatch t p fd).comp x).domParent =
        if x ∈ fd then some p else (t.comp x).domParent := by
  have hgo : ∀ (fd : List Nat) (t : State) (x : Nat),
      ((fd.foldl (fun u c =>
        (u.upd p (fun k => { k with dom := k.dom ++ [c] })).upd c
          (fun k => { k with domParent := some p })) t).comp x).domParent =
      if x ∈ fd then some p else (t.comp x).domParent := by
    intro fd
    induction fd with
    | nil => intro t x; simp
    | cons c fd' ih =>
        intro t x
        rw [List.foldl_cons, ih]
        by_cases hx : x ∈ fd'
        · rw [if_pos hx, if_pos (by simp [hx])]
        · rw [if_neg hx]
          by_cases hxc : x = c
          · subst hxc
            rw [if_pos (by simp)]
            simp [State.upd]
          · rw [if_neg (by simp [hxc, hx])]
            by_cases hxp : x = p
            · subst hxp; simp [State.upd, hxc]
            · simp [State.upd, hxc, hxp]
  intro fd t x
  unfold natAppendBatch
  rw [addLog_comp]
  exact hgo fd t x

theorem natInsertBatchBefore_dom (t : State) (p ref : Nat) (fd : List Nat)
    (x : Nat) :
    ((natInsertBatchBefore t p ref fd).comp x).dom =
      if x = p then insertAllBeforeRef (t.comp p).dom ref fd
      else (t.comp x).dom := by
  unfold natInsertBatchBefore
  dsimp only
  rw [addLog_comp]
  have hgo : ∀ (l : List Nat) (u : State) (x : Nat),
      ((l.foldl (fun v c => v.upd c
        (fun k => { k with domParent := some p })) u).comp x).dom =
      (u.comp x).dom := by
    intro l
    induction l with
    | nil => intro u x; rfl
    | cons c l' ih =>
        intro u x
        rw [List.foldl_cons, ih]
        by_cases hxc : x = c
        · subst hxc; simp [State.upd]
        · simp [State.upd, hxc]
  rw [hgo]
  by_cases hx : x = p
  · subst hx; simp [State.upd]
  · simp [State.upd, hx]

theorem natInsertBatchBefore_domParent (t : State) (p ref : Nat) (fd : List Nat)
    (x : Nat) :
    ((natInsertBatchBefore t p ref fd).comp x).domParent =
      if x ∈ fd then some p else (t.comp x).domParent := by
  unfold natInsertBatchBefore
  dsimp only
  rw [addLog_comp]
  have hgo : ∀ (l : List Nat) (u : State) (x : Nat),
      ((l.foldl (fun v c => v.upd c
        (fun k => { k with domParent := some p })) u).comp x).domParent =
      if x ∈ l then some p else (u.comp x).domParent := by
    intro l
    induction l with
    | nil => intro u x; simp
    | cons c l' ih =>
        intro u x
        rw [List.foldl_cons, ih]
        by_cases hx : x ∈ l'
        · rw [if_pos hx, if_pos (by simp [hx])]
        · rw [if_neg hx]
          by_cases hxc : x = c
          · subst hxc
            rw [if_pos (by simp)]
            simp [State.upd]
          · rw [if_neg (by simp [hxc, hx])]
            simp [State.upd, hxc]
  rw [hgo]
  by_cases hx : x ∈ fd
  · rw [if_pos hx, if_pos hx]
  · rw [if_neg hx, if_neg hx]
    by_cases hxp : x = p <;> simp [State.upd, hxp]

end VanillaTs

namespace VanillaTs

/-- AChildren.appendFragment preserves well-formedness and component types when
    the consumed fragment satisfies the fragment contract. -/
theorem wf_appendFragment (fuel : Nat) (s : State) (p f : Nat) (hwf : WF s)
    (hcont : (s.comp p).ctype = CompType.container) (hfrag : FragOk s f) :
    WF (AChildren.appendFragment fuel s p f) ∧
    (∀ x, ((AChildren.appendFragment fuel s p f).comp x).ctype =
      (s.comp x).ctype) := by
  obtain ⟨hfr, hfnd, hfd, hmem⟩ := hfrag
  have hfp : f ≠ p := by
    intro h
    rw [h, hcont] at hfr
    cases hfr
  unfold AChildren.appendFragment
  by_cases hni : (s.comp f).children = []
  · rw [if_pos hni]
    exact ⟨hwf, fun x => rfl⟩
  · rw [if_neg hni]
    dsimp only
    set s1 := s.upd f (fun k => { k with children := [], dom := [] }) with hs1
    set s2 := (s.comp f).children.foldl (fun t c => onBeforeMount fuel t c p) s1 with hs2
    set s3 := s2.upd p (fun k => { k with children := k.children ++ (s.comp f).children }) with hs3
    set s4 := natAppendBatch s3 p (s.comp f).dom with hs4
    set s5 := (s.comp f).children.foldl (fun t c => onDidMount t c p) s4 with hs5
    have hcf : CFlagOnly s1 s2 := hs2 ▸ obm_foldl_cflag fuel p (s.comp f).children s1
    have h2ch : ∀ y, (s2.comp y).children =
        if y = f then [] else (s.comp y).children := by
      intro y
      rw [cflag_children hcf y]
      by_cases hy : y = f <;> simp [hs1, State.upd, hy]
    have h2dom : ∀ y, (s2.comp y).dom =
        if y = f then [] else (s.comp y).dom := by
      intro y
      rw [cflag_dom hcf y]
      by_cases hy : y = f <;> simp [hs1, State.upd, hy]
    have h2par : ∀ y, (s2.comp y).parent = (s.comp y).parent := by
      intro y
      rw [cflag_parent hcf y]
      by_cases hy : y = f <;> simp [hs1, State.upd, hy]
    have h2dp : ∀ y, (s2.comp y).domParent = (s.comp y).domParent := by
      intro y
      rw [cflag_domParent hcf y]
      by_cases hy : y = f <;> simp [hs1, State.upd, hy]
    have h2ct : ∀ y, (s2.comp y).ctype = (s.comp y).ctype := by
      intro y
      rw [cflag_ctype hcf y]
      by_cases hy : y = f <;> simp [hs1, State.upd, hy]
    have h3ch : ∀ y, (s3.comp y).children =
        if y = f then []
        else if y = p then (s.comp p).children ++ (s.comp f).children
        else (s.comp y).children := by
      intro y
      by_cases hy : y = p
      · subst hy
        rw [hs3, upd_comp_self]
        dsimp only
        rw [h2ch y, if_neg (Ne.symm hfp), if_neg (Ne.symm hfp), if_pos rfl]
      · rw [hs3, upd_comp_ne _ p y _ hy, h2ch y]
        rw [if_neg hy]
    have h3dom : ∀ y, (s3.comp y).dom = (s2.comp y).dom := by
      intro y
      by_cases hy : y = p <;> simp [hs3, State.upd, hy]
    have h3par : ∀ y, (s3.comp y).parent = (s.comp y).parent := by
      intro y
      rw [← h2par y]
      by_cases hy : y = p <;> simp [hs3, State.upd, hy]
    have h3dp : ∀ y, (s3.comp y).domParent = (s.comp y).domParent := by
      intro y
      rw [← h2dp y]
      by_cases hy : y = p <;> simp [hs3, State.upd, hy]
    have h3ct : ∀ y, (s3.comp y).ctype = (s.comp y).ctype := by
      intro y
      rw [← h2ct y]
      by_cases hy : y = p <;> simp [hs3, State.upd, hy]
    have h4ch : ∀ y, (s4.comp y).children = (s3.comp y).children := by
      intro y; rw [hs4]; simp
    have h4par : ∀ y, (s4.comp y).parent = (s3.comp y).parent := by
      intro y; rw [hs4]; simp
    have h4ct : ∀ y, (s4.comp y).ctype = (s3.comp y).ctype := by
      intro y; rw [hs4]; simp
    have Hch : ∀ y, (s5.comp y).children =
        if y = f then []
        else if y = p then (s.comp p).children ++ (s.comp f).children
        else (s.comp y).children := by
      intro y
      rw [hs5, odm_foldl_children, h4ch y, h3ch y]
    have Hdom : ∀ y, (s5.comp y).dom =
        if y = f then []
        else if y = p then (s.comp p).dom ++ (s.comp f).dom
        else (s.comp y).dom := by
      intro y
      rw [hs5, odm_foldl_dom, hs4, natAppendBatch_dom, h3dom p, h2dom p,
        if_neg (Ne.symm hfp)]
      by_cases hy : y = p
      · subst hy
        rw [if_pos rfl, if_neg (Ne.symm hfp), if_pos rfl]
      · rw [if_neg hy, h3dom y, h2dom y, if_neg hy]
    have Hpar : ∀ y, (s5.comp y).parent =
        if y ∈ (s.comp f).children then some p else (s.comp y).parent := by
      intro y
      rw [hs5, odm_foldl_parent, h4par y, h3par y]
    have Hdp : ∀ y, (s5.comp y).domParent =
        if y ∈ (s.comp f).dom then some p else (s.comp y).domParent := by
      intro y
      rw [hs5, odm_foldl_domParent, hs4, natAppendBatch_domParent, h3dp y]
    have Hct : ∀ y, (s5.comp y).ctype = (s.comp y).ctype := by
      intro y
      rw [hs5, odm_foldl_ctype, h4ct y, h3ct y]
    have hnotch : ∀ c ∈ (s.comp f).children, ∀ q,
        (s.comp q).ctype = CompType.container → c ∉ (s.comp q).children := by
      intro c hc q hq hmemq
      have h2 := ((hwf.1 q hq).2.2 c).1 hmemq
      rw [(hmem c hc).1] at h2
      cases h2
    have hnotdom : ∀ c ∈ (s.comp f).dom, ∀ q,
        (s.comp q).ctype = CompType.container → c ∉ (s.comp q).dom := by
      intro c hc q hq hmemq
      have h2 := (hwf.2.2 c q hq).1 hmemq
      rw [(hmem c (hfd ▸ hc)).2] at h2
      have : f = q := by injection h2
      rw [this, hq] at hfr
      cases hfr
    refine ⟨⟨?_, ?_, ?_⟩, Hct⟩
    · intro q hq
      rw [Hct q] at hq
      have hqf : q ≠ f := by
        intro h
        rw [h, hfr] at hq
        cases hq
      refine ⟨?_, ?_, ?_⟩
      · rw [Hch q, if_neg hqf]
        split
        · rename_i hqp
          subst hqp
          rw [List.nodup_append]
          refine ⟨(hwf.1 q hq).1, hfnd, ?_⟩
          intro a ha hb
          exact hnotch a hb q hq ha
        · exact (hwf.1 q hq).1
      · rw [Hch q, Hdom q, if_neg hqf, if_neg hqf]
        by_cases hqp : q = p
        · subst hqp
          rw [if_pos rfl, if_pos rfl, (hwf.1 q hq).2.1, hfd]
        · rw [if_neg hqp, if_neg hqp, (hwf.1 q hq).2.1]
      · intro x
        rw [Hch q, if_neg hqf, Hpar x]
        by_cases hqp : q = p
        · subst hqp
          rw [if_pos rfl]
          by_cases hx : x ∈ (s.comp f).children
          · rw [if_pos hx]
            constructor
            · intro _; rfl
            · intro _; exact List.mem_append_right _ hx
          · rw [if_neg hx]
            constructor
            · intro hmem2
              rcases List.mem_append.1 hmem2 with h | h
              · exact ((hwf.1 q hq).2.2 x).1 h
              · exact absurd h hx
            · intro hmem2
              exact List.mem_append_left _ (((hwf.1 q hq).2.2 x).2 hmem2)
        · rw [if_neg hqp]
          by_cases hx : x ∈ (s.comp f).children
          · rw [if_pos hx]
            constructor
            · intro hmem2
              exact absurd hmem2 (hnotch x hx q hq)
            · intro hmem2
              exact absurd (by injection hmem2 with h2; exact h2.symm) hqp
          · rw [if_neg hx]
            exact (hwf.1 q hq).2.2 x
    · intro x q hx
      rw [Hpar x] at hx
      rw [Hct q]
      by_cases hxm : x ∈ (s.comp f).children
      · rw [if_pos hxm] at hx
        have : q = p := by injection hx with h2; exact h2.symm
        subst this
        exact hcont
      · rw [if_neg hxm] at hx
        exact hwf.2.1 x q hx
    · intro x q hq
      rw [Hct q] at hq
      have hqf : q ≠ f := by
        intro h
        rw [h, hfr] at hq
        cases hq
      rw [Hdom q, if_neg hqf, Hdp x]
      by_cases hqp : q = p
      · subst hqp
        rw [if_pos rfl]
        by_cases hx : x ∈ (s.comp f).dom
        · rw [if_pos hx]
          constructor
          · intro _; rfl
          · intro _; exact List.mem_append_right _ hx
        · rw [if_neg hx]
          constructor
          · intro hmem2
            rcases List.mem_append.1 hmem2 with h | h
            · exact (hwf.2.2 x q hq).1 h
            · exact absurd h hx
          · intro hmem2
            exact List.mem_append_left _ ((hwf.2.2 x q hq).2 hmem2)
      · rw [if_neg hqp]
        by_cases hx : x ∈ (s.comp f).dom
        · rw [if_pos hx]
          constructor
          · intro hmem2
            exact absurd hmem2 (hnotdom x hx q hq)
          · intro hmem2
            exact absurd (by injection hmem2 with h2; exact h2.symm) hqp
        · rw [if_neg hx]
          exact hwf.2.2 x q hq

end VanillaTs

namespace VanillaTs

/-- Main branch of AChildren.insertFragment: splice the drained fragment before
    the reference child; well-formedness and types are preserved. -/
theorem wf_insertFragment_core (fuel : Nat) (s : State) (p f index : Nat)
    (hwf : WF s) (hcont : (s.comp p).ctype = CompType.container)
    (hfrag : FragOk s f) (hlt : index < (s.comp p).children.length) :
    WF ((s.comp f).children.foldl (fun t c => onDidMount t c p)
      (natInsertBatchBefore
        (((s.comp f).children.foldl (fun t c => onBeforeMount fuel t c p)
          (s.upd f (fun k => { k with children := [], dom := [] }))).upd p
          (fun k => { k with children := insertAllAt k.children index (s.comp f).children }))
        p
        ((((s.comp f).children.foldl (fun t c => onBeforeMount fuel t c p)
          (s.upd f (fun k => { k with children := [], dom := [] }))).comp p).children.getD index 0)
        (s.comp f).dom)) ∧
    (∀ x, (((s.comp f).children.foldl (fun t c => onDidMount t c p)
      (natInsertBatchBefore
        (((s.comp f).children.foldl (fun t c => onBeforeMount fuel t c p)
          (s.upd f (fun k => { k with children := [], dom := [] }))).upd p
          (fun k => { k with children := insertAllAt k.children index (s.comp f).children }))
        p
        ((((s.comp f).children.foldl (fun t c => onBeforeMount fuel t c p)
          (s.upd f (fun k => { k with children := [], dom := [] }))).comp p).children.getD index 0)
        (s.comp f).dom)).comp x).ctype = (s.comp x).ctype) := by
  obtain ⟨hfr, hfnd, hfd, hmem⟩ := hfrag
  have hfp : f ≠ p := by
    intro h
    rw [h, hcont] at hfr
    cases hfr
  set s1 := s.upd f (fun k => { k with children := [], dom := [] }) with hs1
  set s2 := (s.comp f).children.foldl (fun t c => onBeforeMount fuel t c p) s1 with hs2
  set ib := ((s2.comp p).children.getD index 0) with hib
  set s3 := s2.upd p
    (fun k => { k with children := insertAllAt k.children index (s.comp f).children }) with hs3
  set s4 := natInsertBatchBefore s3 p ib (s.comp f).dom with hs4
  set s5 := (s.comp f).children.foldl (fun t c => onDidMount t c p) s4 with hs5
  have hcf : CFlagOnly s1 s2 := hs2 ▸ obm_foldl_cflag fuel p (s.comp f).children s1
  have h2ch : ∀ y, (s2.comp y).children =
      if y = f then [] else (s.comp y).children := by
    intro y
    rw [cflag_children hcf y]
    by_cases hy : y = f <;> simp [hs1, State.upd, hy]
  have h2dom : ∀ y, (s2.comp y).dom =
      if y = f then [] else (s.comp y).dom := by
    intro y
    rw [cflag_dom hcf y]
    by_cases hy : y = f <;> simp [hs1, State.upd, hy]
  have h2par : ∀ y, (s2.comp y).parent = (s.comp y).parent := by
    intro y
    rw [cflag_parent hcf y]
    by_cases hy : y = f <;> simp [hs1, State.upd, hy]
  have h2dp : ∀ y, (s2.comp y).domParent = (s.comp y).domParent := by
    intro y
    rw [cflag_domParent hcf y]
    by_cases hy : y = f <;> simp [hs1, State.upd, hy]
  have h2ct : ∀ y, (s2.comp y).ctype = (s.comp y).ctype := by
    intro y
    rw [cflag_ctype hcf y]
    by_cases hy : y = f <;> simp [hs1, State.upd, hy]
  have hibv : ib = (s.comp p).children.getD index 0 := by
    rw [hib, h2ch p, if_neg (Ne.symm hfp)]
  have hibmem : ib ∈ (s.comp p).children := by
    rw [hibv, List.getD_eq_getElem _ _ hlt]
    exact List.getElem_mem hlt
  have hnd_p := (hwf.1 p hcont).1
  have hsplice : insertAllAt (s.comp p).children index (s.comp f).children =
      insertAllBeforeRef (s.comp p).children ib (s.comp f).children := by
    rw [hibv]
    exact insertAllAt_eq_insertAllBeforeRef (s.comp f).children
      (s.comp p).children index hnd_p hlt
  have h3ch : ∀ y, (s3.comp y).children =
      if y = f then []
      else if y = p then insertAllBeforeRef (s.comp p).children ib (s.comp f).children
      else (s.comp y).children := by
    intro y
    by_cases hy : y = p
    · subst hy
      rw [hs3, upd_comp_self]
      dsimp only
      rw [h2ch y, if_neg (Ne.symm hfp), if_neg (Ne.symm hfp), if_pos rfl]
      exact hsplice
    · rw [hs3, upd_comp_ne _ p y _ hy, h2ch y]
      rw [if_neg hy]
  have h3dom : ∀ y, (s3.comp y).dom = (s2.comp y).dom := by
    intro y
    by_cases hy : y = p <;> simp [hs3, State.upd, hy]
  have h3par : ∀ y, (s3.comp y).parent = (s.comp y).parent := by
    intro y
    rw [← h2par y]
    by_cases hy : y = p <;> simp [hs3, State.upd, hy]
  have h3dp : ∀ y, (s3.comp y).domParent = (s.comp y).domParent := by
    intro y
    rw [← h2dp y]
    by_cases hy : y = p <;> simp [hs3, State.upd, hy]
  have h3ct : ∀ y, (s3.comp y).ctype = (s.comp y).ctype := by
    intro y
    rw [← h2ct y]
    by_cases hy : y = p <;> simp [hs3, State.upd, hy]
  have h4ch : ∀ y, (s4.comp y).children = (s3.comp y).children := by
    intro y; rw [hs4]; simp
  have h4par : ∀ y, (s4.comp y).parent = (s3.comp y).parent := by
    intro y; rw [hs4]; simp
  have h4ct : ∀ y, (s4.comp y).ctype = (s3.comp y).ctype := by
    intro y; rw [hs4]; simp
  have Hch : ∀ y, (s5.comp y).children =
      if y = f then []
      else if y = p then insertAllBeforeRef (s.comp p).children ib (s.comp f).children
      else (s.comp y).children := by
    intro y
    rw [hs5, odm_foldl_children, h4ch y, h3ch y]
  have Hdom : ∀ y, (s5.comp y).dom =
      if y = f then []
      else if y = p then insertAllBeforeRef (s.comp p).dom ib (s.comp f).dom
      else (s.comp y).dom := by
    intro y
    rw [hs5, odm_foldl_dom, hs4, natInsertBatchBefore_dom, h3dom p, h2dom p,
      if_neg (Ne.symm hfp)]
    by_cases hy : y = p
    · subst hy
      rw [if_pos rfl, if_neg (Ne.symm hfp), if_pos rfl]
    · rw [if_neg hy, h3dom y, h2dom y, if_neg hy]
  have Hpar : ∀ y, (s5.comp y).parent =
      if y ∈ (s.comp f).children then some p else (s.comp y).parent := by
    intro y
    rw [hs5, odm_foldl_parent, h4par y, h3par y]
  have Hdp : ∀ y, (s5.comp y).domParent =
      if y ∈ (s.comp f).dom then some p else (s.comp y).domParent := by
    intro y
    rw [hs5, odm_foldl_domParent, hs4, natInsertBatchBefore_domParent, h3dp y]
  have Hct : ∀ y, (s5.comp y).ctype = (s.comp y).ctype := by
    intro y
    rw [hs5, odm_foldl_ctype, h4ct y, h3ct y]
  have hnotch : ∀ c ∈ (s.comp f).children, ∀ q,
      (s.comp q).ctype = CompType.container → c ∉ (s.comp q).children := by
    intro c hc q hq hmemq
    have h2 := ((hwf.1 q hq).2.2 c).1 hmemq
    rw [(hmem c hc).1] at h2
    cases h2
  have hnotdom : ∀ c ∈ (s.comp f).dom, ∀ q,
      (s.comp q).ctype = CompType.container → c ∉ (s.comp q).dom := by
    intro c hc q hq hmemq
    have h2 := (hwf.2.2 c q hq).1 hmemq
    rw [(hmem c (hfd ▸ hc)).2] at h2
    have : f = q := by injection h2
    rw [this, hq] at hfr
    cases hfr
  refine ⟨⟨?_, ?_, ?_⟩, Hct⟩
  · intro q hq
    rw [Hct q] at hq
    have hqf : q ≠ f := by
      intro h
      rw [h, hfr] at hq
      cases hq
    refine ⟨?_, ?_, ?_⟩
    · rw [Hch q, if_neg hqf]
      split
      · rename_i hqp
        subst hqp
        exact nodup_insertAllBeforeRef ib (s.comp f).children (s.comp q).children
          (hwf.1 q hq).1 hfnd (fun c hc => hnotch c hc q hq)
      · exact (hwf.1 q hq).1
    · rw [Hch q, Hdom q, if_neg hqf, if_neg hqf]
      by_cases hqp : q = p
      · subst hqp
        rw [if_pos rfl, if_pos rfl, (hwf.1 q hq).2.1, hfd]
      · rw [if_neg hqp, if_neg hqp, (hwf.1 q hq).2.1]
    · intro x
      rw [Hch q, if_neg hqf, Hpar x]
      by_cases hqp : q = p
      · subst hqp
        rw [if_pos rfl]
        by_cases hx : x ∈ (s.comp f).children
        · rw [if_pos hx]
          constructor
          · intro _; rfl
          · intro _; exact (mem_insertAllBeforeRef x ib _ _).2 (Or.inr hx)
        · rw [if_neg hx]
          rw [mem_insertAllBeforeRef]
          constructor
          · rintro (h | h)
            · exact ((hwf.1 q hq).2.2 x).1 h
            · exact absurd h hx
          · intro hmem2
            exact Or.inl (((hwf.1 q hq).2.2 x).2 hmem2)
      · rw [if_neg hqp]
        by_cases hx : x ∈ (s.comp f).children
        · rw [if_pos hx]
          constructor
          · intro hmem2
            exact absurd hmem2 (hnotch x hx q hq)
          · intro hmem2
            exact absurd (by injection hmem2 with h2; exact h2.symm) hqp
        · rw [if_neg hx]
          exact (hwf.1 q hq).2.2 x
  · intro x q hx
    rw [Hpar x] at hx
    rw [Hct q]
    by_cases hxm : x ∈ (s.comp f).children
    · rw [if_pos hxm] at hx
      have : q = p := by injection hx with h2; exact h2.symm
      subst this
      exact hcont
    · rw [if_neg hxm] at hx
      exact hwf.2.1 x q hx
  · intro x q hq
    rw [Hct q] at hq
    have hqf : q ≠ f := by
      intro h
      rw [h, hfr] at hq
      cases hq
    rw [Hdom q, if_neg hqf, Hdp x]
    by_cases hqp : q = p
    · subst hqp
      rw [if_pos rfl]
      by_cases hx : x ∈ (s.comp f).dom
      · rw [if_pos hx]
        constructor
        · intro _; rfl
        · intro _; exact (mem_insertAllBeforeRef x ib _ _).2 (Or.inr hx)
      · rw [if_neg hx]
        rw [mem_insertAllBeforeRef]
        constructor
        · rintro (h | h)
          · exact (hwf.2.2 x q hq).1 h
          · exact absurd h hx
        · intro hmem2
          exact Or.inl ((hwf.2.2 x q hq).2 hmem2)
    · rw [if_neg hqp]
      by_cases hx : x ∈ (s.comp f).dom
      · rw [if_pos hx]
        constructor
        · intro hmem2
          exact absurd hmem2 (hnotdom x hx q hq)
        · intro hmem2
          exact absurd (by injection hmem2 with h2; exact h2.symm) hqp
      · rw [if_neg hx]
        exact hwf.2.2 x q hq

/-- AChildren.insertFragment preserves well-formedness and component types when
    the consumed fragment satisfies the fragment contract. -/
theorem wf_insertFragment (fuel : Nat) (s : State) (p : Nat) (a : AChildren.At)
    (f : Nat) (hwf : WF s) (hcont : (s.comp p).ctype = CompType.container)
    (hfrag : FragOk s f) :
    WF (AChildren.insertFragment fuel s p a f) ∧
    (∀ x, ((AChildren.insertFragment fuel s p a f).comp x).ctype =
      (s.comp x).ctype) := by
  unfold AChildren.insertFragment
  by_cases hni : (s.comp f).children = []
  · rw [if_pos hni]
    exact ⟨hwf, fun x => rfl⟩
  · rw [if_neg hni]
    by_cases hchp : (s.comp p).children = []
    · rw [if_pos hchp]
      exact wf_appendFragment fuel s p f hwf hcont ⟨hfrag.1, hfrag.2.1, hfrag.2.2.1, hfrag.2.2.2⟩
    · rw [if_neg hchp]
      cases a with
      | num i =>
          dsimp only
          by_cases hlen : (s.comp p).children.length ≤ (if i < 0 then (0:Nat) else i.toNat)
          · rw [if_pos hlen]
            exact wf_appendFragment fuel s p f hwf hcont
              ⟨hfrag.1, hfrag.2.1, hfrag.2.2.1, hfrag.2.2.2⟩
          · rw [if_neg hlen]
            exact wf_insertFragment_core fuel s p f _ hwf hcont hfrag (lt_of_not_le hlen)
      | ref a0 =>
          dsimp only
          by_cases hmem : a0 ∈ (s.comp p).children
          · rw [if_pos hmem]
            dsimp only
            by_cases hlen : (s.comp p).children.length ≤ firstIdx (s.comp p).children a0
            · rw [if_pos hlen]
              exact wf_appendFragment fuel s p f hwf hcont
                ⟨hfrag.1, hfrag.2.1, hfrag.2.2.1, hfrag.2.2.2⟩
            · rw [if_neg hlen]
              exact wf_insertFragment_core fuel s p f _ hwf hcont hfrag (lt_of_not_le hlen)
          · rw [if_neg hmem]
            exact ⟨hwf, fun x => rfl⟩

end VanillaTs

namespace VanillaTs

theorem wf_of_fields {s t : State}
    (hch : ∀ x, (t.comp x).children = (s.comp x).children)
    (hdom : ∀ x, (t.comp x).dom = (s.comp x).dom)
    (hpar : ∀ x, (t.comp x).parent = (s.comp x).parent)
    (hdp : ∀ x, (t.comp x).domParent = (s.comp x).domParent)
    (hct : ∀ x, (t.comp x).ctype = (s.comp x).ctype)
    (hwf : WF s) : WF t := by
  obtain ⟨h1, h2, h3⟩ := hwf
  refine ⟨?_, ?_, ?_⟩ <;> simp only [hch, hdom, hpar, hdp, hct]
  · exact h1
  · exact h2
  · exact h3

theorem dpor_trans {a b c : Option Nat} (h1 : b = a ∨ b = none)
    (h2 : c = b ∨ c = none) : c = a ∨ c = none := by
  rcases h2 with h | h
  · rcases h1 with h' | h'
    · exact Or.inl (h.trans h')
    · exact Or.inr (h.trans h')
  · exact Or.inr h

theorem removeStep_dp_mono (fuel : Nat) (t : State) (p c x : Nat) :
    ((AChildren.removeStep fuel t p c).comp x).domParent = (t.comp x).domParent ∨
    ((AChildren.removeStep fuel t p c).comp x).domParent = none := by
  unfold AChildren.removeStep
  by_cases hm : c ∈ (t.comp p).children
  · rw [if_pos hm]
    rw [odu_domParent]
    unfold natRemove
    split
    · by_cases hxc : x = c
      · subst hxc
        right
        simp [State.upd]
      · left
        by_cases hxp : x = p
        · subst hxp; simp [State.upd, hxc]
        · simp [State.upd, hxc, hxp]
    · left
      by_cases hxp : x = p
      · subst hxp; simp [State.upd]
      · simp [State.upd, hxp]
  · rw [if_neg hm]
    exact Or.inl rfl

theorem wf_natDetach (t : State) (c : Nat) (hwf : WF t)
    (hdq : ∀ q, (t.comp q).ctype = CompType.container →
      (t.comp c).domParent ≠ some q) :
    WF (natDetach t c) ∧
    (∀ x, ((natDetach t c).comp x).ctype = (t.comp x).ctype) ∧
    (∀ x, ((natDetach t c).comp x).domParent = (t.comp x).domParent ∨
      ((natDetach t c).comp x).domParent = none) := by
  have hctf : ∀ x, ((natDetach t c).comp x).ctype = (t.comp x).ctype := by
    intro x; simp
  have hdpf := fun x => natDetach_domParent t c x
  have hdomf := fun x => natDetach_dom t c x
  cases hdp : (t.comp c).domParent with
  | none =>
      have heq : natDetach t c = t := by
        unfold natDetach
        rw [hdp]
      rw [heq]
      exact ⟨hwf, fun x => rfl, fun x => Or.inl rfl⟩
  | some g =>
      have hgnc : (t.comp g).ctype ≠ CompType.container := by
        intro h
        exact hdq g h hdp
      have hdomq : ∀ q, (t.comp q).ctype = CompType.container →
          ((natDetach t c).comp q).dom = (t.comp q).dom := by
        intro q hq
        rw [hdomf q, hdp, if_neg]
        intro h2
        have : g = q := by injection h2
        exact hgnc (this ▸ hq)
      refine ⟨⟨?_, ?_, ?_⟩, hctf, ?_⟩
      · intro q hq
        rw [hctf q] at hq
        refine ⟨?_, ?_, ?_⟩
        · simp only [natDetach_children]
          exact (hwf.1 q hq).1
        · simp only [natDetach_children]
          rw [hdomq q hq]
          exact (hwf.1 q hq).2.1
        · intro x
          simp only [natDetach_children, natDetach_parent]
          exact (hwf.1 q hq).2.2 x
      · intro x q hx
        simp only [natDetach_parent] at hx
        rw [hctf q]
        exact hwf.2.1 x q hx
      · intro x q hq
        rw [hctf q] at hq
        rw [hdomq q hq, hdpf x]
        by_cases hx : x = c
        · subst hx
          rw [if_pos rfl]
          constructor
          · intro hmem
            have h2 := (hwf.2.2 x q hq).1 hmem
            rw [hdp] at h2
            have : g = q := by injection h2
            exact absurd (this ▸ hq) hgnc
          · intro h2
            exact absurd h2 (by simp)
        · rw [if_neg hx]
          exact hwf.2.2 x q hq
      · intro x
        rw [hdpf x]
        by_cases hx : x = c
        · rw [if_pos hx]
          exact Or.inr rfl
        · rw [if_neg hx]
          exact Or.inl rfl

end VanillaTs

namespace VanillaTs

theorem clearLoopAux_step (fuel : Nat) (d : State → Nat → State) (n : Nat)
    (s : State) (p c0 : Nat) (ys : List Nat)
    (hch : (s.comp p).children = ys ++ [c0]) (hc0 : c0 ∉ ys) :
    clearLoopAux fuel d (n + 1) s p =
      clearLoopAux fuel d n (d (AChildren.removeStep fuel s p c0) c0) p := by
  have hl : (s.comp p).children.getLast? = some c0 := by
    rw [hch]; simp
  have hmem : c0 ∈ (s.comp p).children := by
    rw [hch]; simp
  conv_lhs => rw [clearLoopAux]
  rw [hl]
  dsimp only
  rw [dropLast_natRemove_comm s p c0 ys hch hc0]
  unfold AChildren.removeStep
  rw [if_pos hmem]

theorem wf_clearLoopAux (fuel : Nat) (d : State → Nat → State)
    (hd : ∀ t c0, WF t →
      (∀ q, (t.comp q).ctype = CompType.container →
        (t.comp c0).domParent ≠ some q) →
      WF (d t c0) ∧
      (∀ x, ((d t c0).comp x).ctype = (t.comp x).ctype) ∧
      (∀ x, ((d t c0).comp x).domParent = (t.comp x).domParent ∨
        ((d t c0).comp x).domParent = none)) :
    ∀ (n : Nat) (s : State) (p : Nat), WF s →
      (s.comp p).ctype = CompType.container →
      WF (clearLoopAux fuel d n s p) ∧
      (∀ x, ((clearLoopAux fuel d n s p).comp x).ctype = (s.comp x).ctype) ∧
      (∀ x, ((clearLoopAux fuel d n s p).comp x).domParent =
          (s.comp x).domParent ∨
        ((clearLoopAux fuel d n s p).comp x).domParent = none) := by
  intro n
  induction n with
  | zero =>
      intro s p hwf _
      unfold clearLoopAux
      exact ⟨hwf, fun x => rfl, fun x => Or.inl rfl⟩
  | succ n ih =>
      intro s p hwf hcont
      cases hl : (s.comp p).children.getLast? with
      | none =>
          unfold clearLoopAux
          rw [hl]
          exact ⟨hwf, fun x => rfl, fun x => Or.inl rfl⟩
      | some c0 =>
          obtain ⟨ys, hys⟩ := List.getLast?_eq_some_iff.1 hl
          have hnd := (hwf.1 p hcont).1
          have hc0 : c0 ∉ ys := by
            intro hmem
            have : ¬ (ys ++ [c0]).Nodup := by
              intro hndup
              exact (List.disjoint_of_nodup_append hndup) hmem (by simp)
            exact this (hys ▸ hnd)
          have hmem : c0 ∈ (s.comp p).children := by
            rw [hys]; simp
          have hdpc0 : (s.comp c0).domParent = some p := by
            refine (hwf.2.2 c0 p hcont).1 ?_
            rw [← (hwf.1 p hcont).2.1]
            exact hmem
          rw [clearLoopAux_step fuel d n s p c0 ys hys hc0]
          obtain ⟨hwf1, _, hct1⟩ := wf_removeStep fuel s p c0 hwf hcont
          have hdp1 := removeStep_domParent fuel s p c0 hmem hdpc0
          have hdq1 : ∀ q, ((AChildren.removeStep fuel s p c0).comp q).ctype =
              CompType.container →
              ((AChildren.removeStep fuel s p c0).comp c0).domParent ≠ some q := by
            intro q _
            rw [hdp1.1]
            simp
          obtain ⟨hwf2, hct2, hdp2⟩ := hd (AChildren.removeStep fuel s p c0) c0 hwf1 hdq1
          have hcont2 : ((d (AChildren.removeStep fuel s p c0) c0).comp p).ctype =
              CompType.container := by
            rw [hct2 p, hct1 p]
            exact hcont
          obtain ⟨HWF, HCT, HDP⟩ := ih (d (AChildren.removeStep fuel s p c0) c0) p
            hwf2 hcont2
          refine ⟨HWF, ?_, ?_⟩
          · intro x
            rw [HCT x, hct2 x, hct1 x]
          · intro x
            refine dpor_trans ?_ (HDP x)
            refine dpor_trans (removeStep_dp_mono fuel s p c0 x) (hdp2 x)

/-- Component disposal preserves well-formedness and component types when the
    disposed component's node is in no container's native child list; native
    parents only disappear, never appear. -/
theorem wf_dispose :
    ∀ (fuel : Nat) (s : State) (c : Nat), WF s →
      (∀ q, (s.comp q).ctype = CompType.container →
        (s.comp c).domParent ≠ some q) →
      WF (dispose fuel s c) ∧
      (∀ x, ((dispose fuel s c).comp x).ctype = (s.comp x).ctype) ∧
      (∀ x, ((dispose fuel s c).comp x).domParent = (s.comp x).domParent ∨
        ((dispose fuel s c).comp x).domParent = none) := by
  intro fuel
  induction fuel with
  | zero =>
      intro s c hwf _
      exact ⟨hwf, fun x => rfl, fun x => Or.inl rfl⟩
  | succ f ih =>
      intro s c hwf hdq
      unfold dispose
      dsimp only
      have hfin : ∀ (u : State), WF u →
          (∀ x, (u.comp x).ctype = (s.comp x).ctype) →
          (∀ x, (u.comp x).domParent = (s.comp x).domParent ∨
            (u.comp x).domParent = none) →
          WF ((natDetach u c).upd c (fun k => { k with disposed := true })) ∧
          (∀ x, (((natDetach u c).upd c
            (fun k => { k with disposed := true })).comp x).ctype =
            (s.comp x).ctype) ∧
          (∀ x, (((natDetach u c).upd c
            (fun k => { k with disposed := true })).comp x).domParent =
              (s.comp x).domParent ∨
            (((natDetach u c).upd c
            (fun k => { k with disposed := true })).comp x).domParent = none) := by
        intro u hwfu hctu hdpu
        have hdqu : ∀ q, (u.comp q).ctype = CompType.container →
            (u.comp c).domParent ≠ some q := by
          intro q hq h2
          rcases hdpu c with h3 | h3
          · exact hdq q (by rw [← hctu q]; exact hq) (by rw [← h3]; exact h2)
          · rw [h3] at h2
            cases h2
        obtain ⟨hwfd, hctd, hdpd⟩ := wf_natDetach u c hwfu hdqu
        have hupd_fields :
            (∀ x, (((natDetach u c).upd c (fun k => { k with disposed := true })).comp x).children = ((natDetach u c).comp x).children) ∧
            (∀ x, (((natDetach u c).upd c (fun k => { k with disposed := true })).comp x).dom = ((natDetach u c).comp x).dom) ∧
            (∀ x, (((natDetach u c).upd c (fun k => { k with disposed := true })).comp x).parent = ((natDetach u c).comp x).parent) ∧
            (∀ x, (((natDetach u c).upd c (fun k => { k with disposed := true })).comp x).domParent = ((natDetach u c).comp x).domParent) ∧
            (∀ x, (((natDetach u c).upd c (fun k => { k with disposed := true })).comp x).ctype = ((natDetach u c).comp x).ctype) := by
          refine ⟨?_, ?_, ?_, ?_, ?_⟩ <;>
            (intro x; by_cases hx : x = c <;> simp [State.upd, hx])
        refine ⟨wf_of_fields hupd_fields.1 hupd_fields.2.1 hupd_fields.2.2.1
          hupd_fields.2.2.2.1 hupd_fields.2.2.2.2 hwfd, ?_, ?_⟩
        · intro x
          rw [hupd_fields.2.2.2.2 x, hctd x, hctu x]
        · intro x
          rw [hupd_fields.2.2.2.1 x]
          exact dpor_trans (hdpu x) (hdpd x)
      by_cases hcc : (s.comp c).ctype = CompType.container
      · rw [if_pos hcc]
        unfold clearAux
        have hcomp := fun x => obu_foldl_comp ((s.comp c).children) s x
        have hwf0 : WF ((s.comp c).children.foldl (fun t x => onBeforeUnmount t x) s) :=
          wf_of_comp_eq hcomp hwf
        have hcont0 : (((s.comp c).children.foldl
            (fun t x => onBeforeUnmount t x) s).comp c).ctype =
            CompType.container := by rw [hcomp c]; exact hcc
        obtain ⟨HWF, HCT, HDP⟩ := wf_clearLoopAux f (fun t x => dispose f t x)
          (fun t c0 hw hq => ih t c0 hw hq) _ _ c hwf0 hcont0
        refine hfin _ HWF ?_ ?_
        · intro x
          rw [HCT x, hcomp x]
        · intro x
          rcases HDP x with h | h
          · rw [h, hcomp x]
            exact Or.inl rfl
          · exact Or.inr h
      · rw [if_neg hcc]
        exact hfin s hwf (fun x => rfl) (fun x => Or.inl rfl)

/-- AChildren.clear preserves well-formedness and component types. -/
theorem wf_clear (fuel : Nat) (s : State) (p : Nat) (hwf : WF s)
    (hcont : (s.comp p).ctype = CompType.container) :
    WF (AChildren.clear fuel s p) ∧
    (∀ x, ((AChildren.clear fuel s p).comp x).ctype = (s.comp x).ctype) := by
  unfold AChildren.clear clearAux
  have hcomp := fun x => obu_foldl_comp ((s.comp p).children) s x
  have hwf0 : WF ((s.comp p).children.foldl (fun t c => onBeforeUnmount t c) s) :=
    wf_of_comp_eq hcomp hwf
  have hcont0 : (((s.comp p).children.foldl
      (fun t c => onBeforeUnmount t c) s).comp p).ctype =
      CompType.container := by rw [hcomp p]; exact hcont
  obtain ⟨HWF, HCT, _⟩ := wf_clearLoopAux fuel (fun t c => dispose fuel t c)
    (fun t c0 hw hq => wf_dispose fuel t c0 hw hq) _ _ p hwf0 hcont0
  exact ⟨HWF, fun x => by rw [HCT x, hcomp x]⟩

end VanillaTs

namespace VanillaTs

/-- Every child-collection operation preserves well-formedness and component
    types under its side conditions. -/
theorem wf_runOp (fuel : Nat) (s : State) (op : Op) (hwf : WF s)
    (hok : OpOk s op) :
    WF (runOp fuel s op) ∧
    (∀ x, ((runOp fuel s op).comp x).ctype = (s.comp x).ctype) := by
  cases op with
  | append p cs => exact wf_append fuel s p cs hwf hok
  | insert p a cs => exact wf_insert fuel s p a cs hwf hok
  | appendFragment p f => exact wf_appendFragment fuel s p f hwf hok.1 hok.2
  | insertFragment p a f => exact wf_insertFragment fuel s p a f hwf hok.1 hok.2
  | remove p cs => exact wf_remove fuel s p cs hwf hok
  | extract p cs => exact wf_extract fuel s p cs hwf hok
  | moveTo p t cs => exact wf_moveTo fuel s p t cs hwf hok.1 hok.2
  | moveToAt p t a cs => exact wf_moveToAt fuel s p t a cs hwf hok.1 hok.2
  | clear p => exact wf_clear fuel s p hwf hok

/-- Well-formedness is preserved along any operation sequence whose side
    conditions hold. -/
theorem wf_runOps (fuel : Nat) :
    ∀ (ops : List Op) (s : State), WF s → SeqOk fuel s ops →
      WF (runOps fuel s ops) ∧
      (∀ x, ((runOps fuel s ops).comp x).ctype = (s.comp x).ctype) := by
  intro ops
  induction ops with
  | nil => intro s hwf _; exact ⟨hwf, fun x => rfl⟩
  | cons op rest ih =>
      intro s hwf hok
      obtain ⟨hok1, hok2⟩ := hok
      obtain ⟨hwf1, hct1⟩ := wf_runOp fuel s op hwf hok1
      obtain ⟨HWF, HCT⟩ := ih (runOp fuel s op) hwf1 hok2
      exact ⟨HWF, fun x => (HCT x).trans (hct1 x)⟩

theorem seqOk_append_left (fuel : Nat) :
    ∀ (pre suf : List Op) (s : State), SeqOk fuel s (pre ++ suf) →
      SeqOk fuel s pre := by
  intro pre
  induction pre with
  | nil => intro suf s _; trivial
  | cons op pre' ih =>
      intro suf s h
      obtain ⟨h1, h2⟩ := h
      exact ⟨h1, ih suf _ h2⟩

/-- The demo population is well-formed. -/
theorem wf_demo : WF demo := by
  have hfields : ∀ i, (demo.comp i).children = [] ∧ (demo.comp i).dom = [] ∧
      (demo.comp i).parent = none ∧ (demo.comp i).domParent = none := by
    intro i
    unfold demo mkState
    dsimp only
    split
    · exact ⟨rfl, rfl, rfl, rfl⟩
    · split
      · exact ⟨rfl, rfl, rfl, rfl⟩
      · split
        · exact ⟨rfl, rfl, rfl, rfl⟩
        · exact ⟨rfl, rfl, rfl, rfl⟩
  refine ⟨?_, ?_, ?_⟩
  · intro p hp
    refine ⟨?_, ?_, ?_⟩
    · rw [(hfields p).1]; exact List.nodup_nil
    · rw [(hfields p).1, (hfields p).2.1]
    · intro c
      rw [(hfields p).1, (hfields c).2.2.1]
      simp
  · intro c q h
    rw [(hfields c).2.2.1] at h
    cases h
  · intro c q hq
    rw [(hfields q).2.1, (hfields c).2.2.2]
    simp

/-- The C1 counterexample population is well-formed. -/
theorem wf_c1FragStart : WF c1FragStart := by
  have hfields : ∀ i, (c1FragStart.comp i).children = [] ∧
      (c1FragStart.comp i).dom = [] ∧
      (c1FragStart.comp i).parent = none ∧
      (c1FragStart.comp i).domParent = none := by
    intro i
    unfold c1FragStart mkState
    dsimp only
    split
    · exact ⟨rfl, rfl, rfl, rfl⟩
    · split
      · exact ⟨rfl, rfl, rfl, rfl⟩
      · split
        · exact ⟨rfl, rfl, rfl, rfl⟩
        · exact ⟨rfl, rfl, rfl, rfl⟩
  refine ⟨?_, ?_, ?_⟩
  · intro p hp
    refine ⟨?_, ?_, ?_⟩
    · rw [(hfields p).1]; exact List.nodup_nil
    · rw [(hfields p).1, (hfields p).2.1]
    · intro c
      rw [(hfields p).1, (hfields c).2.2.1]
      simp
  · intro c q h
    rw [(hfields c).2.2.1] at h
    cases h
  · intro c q hq
    rw [(hfields q).2.1, (hfields c).2.2.2]
    simp

/-- The C8 witness tree is well-formed. -/
theorem wf_c7Tree : WF c7Tree := by
  have h1 := wf_runOp 9 demo (.append 0 [2, 3]) wf_demo rfl
  have hok2 : OpOk (runOp 9 demo (.append 0 [2, 3])) (.append 1 [4]) :=
    (h1.2 1).trans rfl
  exact (wf_runOp 9 (runOp 9 demo (.append 0 [2, 3])) (.append 1 [4]) h1.1 hok2).1

end VanillaTs

namespace VanillaTs

/-- Claim C1 (corrected): for every operation sequence of the child-collection
    capability whose side conditions hold (subjects and targets expose the
    capability, and every fragment handed to appendFragment/insertFragment
    satisfies the fragment contract: duplicate-free component list matching its
    native batch in order, members parent-less inside the batch), after every
    top-level call the well-formedness invariant holds: each container's child
    sequence has no duplicates, it equals the native child-node order, and a
    set parent back-reference points at exactly the container whose sequence
    holds the component. -/
theorem c1_children_invariant (fuel : Nat) (s : State) (ops pre suf : List Op)
    (hwf : WF s) (hsplit : ops = pre ++ suf) (hok : SeqOk fuel s ops) :
    WF (runOps fuel s pre) := by
  subst hsplit
  exact (wf_runOps fuel pre s hwf (seqOk_append_left fuel pre suf s hok)).1

/-- C1 counterexample to the unrestricted reading: appending the same element
    twice to a fragment leaves a duplicate in the fragment's component list
    (fragment membership clears no parent, so the dedupe-and-remove step does
    not fire), and appendFragment then pushes both copies into container 0's
    child sequence: the state is no longer well-formed even though the initial
    population was. -/
theorem c1_counterexample :
    WF c1FragStart ∧
    (c1FragBad.comp 0).children = [1, 1] ∧
    ¬ WF c1FragBad := by
  refine ⟨wf_c1FragStart, by decide, ?_⟩
  intro hwf
  have hnd := (hwf.1 0 (by decide)).1
  rw [(by decide : (c1FragBad.comp 0).children = [1, 1])] at hnd
  simp at hnd

/-- C1 witness: a six-operation sequence (append, positional insert, append to
    a second container, moveTo, explicit remove, clear) on the demo population
    keeps the full invariant. -/
theorem c1_witness : WF demo ∧ WF (runOps 9 demo c1WitOps) :=
  ⟨wf_demo,
    c1_children_invariant 9 demo c1WitOps c1WitOps [] wf_demo
      (by simp) ⟨rfl, rfl, rfl, ⟨rfl, rfl⟩, rfl, rfl, trivial⟩⟩

/-- C8 witness: on the concrete tree where container 0 holds elements 2 and 3,
    remove() leaves element 2 undisposed and re-appendable to container 1,
    while clear() disposes it. -/
theorem c8_witness :
    (((runOp 9 c7Tree (.remove 0 [])).comp 2).disposed = (c7Tree.comp 2).disposed ∧
     ((runOp 9 c7Tree (.remove 0 [])).comp 2).parent = none ∧
     2 ∈ ((runOp 9 (runOp 9 c7Tree (.remove 0 [])) (.append 1 [2])).comp 1).children) ∧
    ((runOp 9 c7Tree (.clear 0)).comp 2).disposed = true :=
  c8_remove_vs_clear 9 c7Tree 0 2 1 (by decide) wf_c7Tree rfl rfl (by decide)

end VanillaTs
